import Mathlib

/-!
Verification development for the transformation engine described in the
design document of this repository (a JAX-like numerical-computing
runtime).  The repository itself ships only documentation (the quickstart
notebook), so every definition below is modelled from the specification:
the IR data model (§3), the eval / differentiation / batching
interpreters (§4.3), the compile cache (§4.4) and the asynchronous
execution engine (§4.5).
-/

set_option linter.unusedSectionVars false
set_option linter.deprecated false

namespace JaxModel

/-- Modelled from the spec (§3, Abstract Value): array metadata is a shape
(plus a dtype; the model fixes a single scalar dtype `R`).  Ranks 0..2
cover the scenarios of the quickstart (scalars, vectors, matrices). -/
inductive Shape where
  | sc : Shape
  | vecS (n : Nat) : Shape
  | matS (m n : Nat) : Shape
deriving DecidableEq, Repr

/-- Modelled from the spec (§6, array-operation library): a concrete
array value of rank 0, 1 or 2 over the scalar type `R`. -/
inductive Val (R : Type) where
  | scalar (x : R) : Val R
  | vec (xs : List R) : Val R
  | mat (xss : List (List R)) : Val R
deriving DecidableEq, Repr

namespace Val

/-- Shape of a concrete value (a matrix reports the length of its first
row as its column count). -/
def shapeOf {R : Type} : Val R → Shape
  | scalar _ => Shape.sc
  | vec xs => Shape.vecS xs.length
  | mat xss => Shape.matS xss.length ((xss.headD []).length)

end Val

/-- Modelled from the spec (§4.1, Operation Registry): the catalog of
primitive operations intercepted by the tracer.  `padd`/`pmul`/`pdiv`
are elementwise binary arithmetic with NumPy-style scalar and
trailing-axis broadcasting, `pneg`/`pexp` are elementwise unary, `psum`
is the full reduction, `psumLast` sums along the last axis, `pdot` is
the vector/matrix product and `ptrans` the matrix transpose. -/
inductive Prim where
  | padd | pmul | pdiv | pneg | pexp | psum | psumLast | pdot | ptrans
deriving DecidableEq, Repr

/-- Modelled from the spec (§3, Trace Node): a node of the IR either
applies a primitive to earlier environment slots (parameters come first,
then prior nodes, in one index space) or embeds a constant as a literal
leaf. -/
inductive Node (R : Type) where
  | prim (p : Prim) (args : List Nat) : Node R
  | lit (v : Val R) : Node R
deriving DecidableEq, Repr

/-- Modelled from the spec (§3, Traced Function): ordered input
parameters, an append-only DAG of trace nodes, and the output (a single
environment slot in this model). -/
structure TFun (R : Type) where
  arity : Nat
  nodes : List (Node R)
  out : Nat
deriving DecidableEq, Repr

/-- The input references of a node (a literal leaf has none). -/
def Node.argsOf {R : Type} : Node R → List Nat
  | Node.prim _ as => as
  | Node.lit _ => []

/-- DAG invariant of a Traced Function (§3): every input reference of a
node resolves to a declared parameter or a prior node. -/
def TFun.Wf {R : Type} (f : TFun R) : Prop :=
  ∀ j (hj : j < f.nodes.length), ∀ a ∈ (f.nodes.get ⟨j, hj⟩).argsOf, a < f.arity + j

/-- Modelled from the spec (§4.1 and §9): the registry carries the
primitives' rule functions as data.  Arithmetic is fixed by the field
structure of `R`; the exponential — the only transcendental rule the
claims need — is carried explicitly so the model can be instantiated
both over `ℚ` (for executable tests) and over `ℝ` with `Real.exp`. -/
structure Registry (R : Type) where
  expFn : R → R

/-- Shape rule for broadcasting an elementwise binary primitive:
scalars broadcast against anything, equal shapes combine pointwise, and
a matrix broadcasts against a vector along its trailing axis. -/
def broadcastS : Shape → Shape → Option Shape
  | Shape.sc, s => some s
  | s, Shape.sc => some s
  | Shape.vecS n, Shape.vecS m => if n = m then some (Shape.vecS n) else none
  | Shape.matS a b, Shape.matS c d =>
      if a = c ∧ b = d then some (Shape.matS a b) else none
  | Shape.matS a b, Shape.vecS n => if b = n then some (Shape.matS a b) else none
  | Shape.vecS n, Shape.matS a b => if b = n then some (Shape.matS a b) else none

/-- Sequence a fallible lookup over a list of references (structural
`mapM` over `Option`). -/
def seqOpt {α β : Type _} (f : α → Option β) : List α → Option (List β)
  | [] => some []
  | a :: rest => (f a).bind (fun b => (seqOpt f rest).map (b :: ·))

/-- Modelled from the spec (§4.1): the per-primitive shape/dtype
inference rule, `(input shapes) → output shape`. -/
def shapeInfer : Prim → List Shape → Option Shape
  | Prim.padd, [s1, s2] => broadcastS s1 s2
  | Prim.pmul, [s1, s2] => broadcastS s1 s2
  | Prim.pdiv, [s1, s2] => broadcastS s1 s2
  | Prim.pneg, [s] => some s
  | Prim.pexp, [s] => some s
  | Prim.psum, [_] => some Shape.sc
  | Prim.psumLast, [Shape.sc] => some Shape.sc
  | Prim.psumLast, [Shape.vecS _] => some Shape.sc
  | Prim.psumLast, [Shape.matS m _] => some (Shape.vecS m)
  | Prim.pdot, [Shape.vecS n, Shape.vecS m] => if n = m then some Shape.sc else none
  | Prim.pdot, [Shape.matS a b, Shape.vecS n] =>
      if b = n then some (Shape.vecS a) else none
  | Prim.pdot, [Shape.matS a b, Shape.matS c d] =>
      if b = c then some (Shape.matS a d) else none
  | Prim.ptrans, [Shape.matS m n] =>
      if 0 < m ∧ 0 < n then some (Shape.matS n m) else none
  | _, _ => none

section Eval

variable {R : Type} [Field R]

/-- Dot product of two coordinate lists. -/
def dotL (a b : List R) : R := (List.zipWith (· * ·) a b).sum

/-- The `j`-th column of a matrix stored as rows. -/
def colL (A : List (List R)) (j : Nat) : List R := A.map (fun r => r.getD j 0)

/-- Elementwise binary operation with NumPy-style broadcasting (total:
callers guard shapes with `broadcastS` first). -/
def ewB (f : R → R → R) : Val R → Val R → Val R
  | Val.scalar a, Val.scalar b => Val.scalar (f a b)
  | Val.scalar a, Val.vec bs => Val.vec (bs.map (f a))
  | Val.vec as, Val.scalar b => Val.vec (as.map (f · b))
  | Val.scalar a, Val.mat bss => Val.mat (bss.map (List.map (f a)))
  | Val.mat ass, Val.scalar b => Val.mat (ass.map (List.map (f · b)))
  | Val.vec as, Val.vec bs => Val.vec (List.zipWith f as bs)
  | Val.mat ass, Val.vec bs => Val.mat (ass.map (fun r => List.zipWith f r bs))
  | Val.vec as, Val.mat bss => Val.mat (bss.map (fun r => List.zipWith f as r))
  | Val.mat ass, Val.mat bss => Val.mat (List.zipWith (List.zipWith f) ass bss)

/-- Elementwise unary operation. -/
def ewU (f : R → R) : Val R → Val R
  | Val.scalar a => Val.scalar (f a)
  | Val.vec as => Val.vec (as.map f)
  | Val.mat ass => Val.mat (ass.map (List.map f))

/-- Total core semantics of each primitive (shape guards are applied
separately by `evalPrim`). -/
def evalPrimT (reg : Registry R) : Prim → List (Val R) → Val R
  | Prim.padd, [a, b] => ewB (· + ·) a b
  | Prim.pmul, [a, b] => ewB (· * ·) a b
  | Prim.pdiv, [a, b] => ewB (· / ·) a b
  | Prim.pneg, [a] => ewU (fun x => -x) a
  | Prim.pexp, [a] => ewU reg.expFn a
  | Prim.psum, [Val.scalar a] => Val.scalar a
  | Prim.psum, [Val.vec as] => Val.scalar as.sum
  | Prim.psum, [Val.mat ass] => Val.scalar (ass.map List.sum).sum
  | Prim.psumLast, [Val.scalar a] => Val.scalar a
  | Prim.psumLast, [Val.vec as] => Val.scalar as.sum
  | Prim.psumLast, [Val.mat ass] => Val.vec (ass.map List.sum)
  | Prim.pdot, [Val.vec a, Val.vec b] => Val.scalar (dotL a b)
  | Prim.pdot, [Val.mat A, Val.vec b] => Val.vec (A.map (dotL · b))
  | Prim.pdot, [Val.mat A, Val.mat B] =>
      Val.mat (A.map (fun r => (List.range ((B.headD []).length)).map
        (fun j => dotL r (colL B j))))
  | Prim.ptrans, [Val.mat A] =>
      Val.mat ((List.range ((A.headD []).length)).map (colL A))
  | _, _ => Val.scalar 0

/-- Modelled from the spec (§4.3, Eval interpreter): execute one
primitive on concrete buffers, after checking its shape rule. -/
def evalPrim (reg : Registry R) (p : Prim) (vs : List (Val R)) : Option (Val R) :=
  (shapeInfer p (vs.map Val.shapeOf)).map (fun _ => evalPrimT reg p vs)

/-- Evaluate one trace node against the environment built so far. -/
def evalNode (reg : Registry R) (env : List (Val R)) : Node R → Option (Val R)
  | Node.lit v => some v
  | Node.prim p args => (seqOpt (fun a => env.get? a) args).bind (evalPrim reg p)

/-- Run the eval interpreter over a node list, extending the
environment one slot per node (topological order, §4.3). -/
def evalSteps (reg : Registry R) (env : List (Val R)) :
    List (Node R) → Option (List (Val R))
  | [] => some env
  | n :: ns => (evalNode reg env n).bind (fun v => evalSteps reg (env ++ [v]) ns)

/-- Modelled from the spec (§4.3): the eval interpreter applied to a
whole Traced Function — the eager, uncompiled reference semantics. -/
def evalT (reg : Registry R) (f : TFun R) (xs : List (Val R)) : Option (Val R) :=
  if xs.length = f.arity then
    (evalSteps reg xs f.nodes).bind (fun env => env.get? f.out)
  else none

end Eval

/-- Rank of a shape. -/
def Shape.rank : Shape → Nat
  | Shape.sc => 0
  | Shape.vecS _ => 1
  | Shape.matS _ _ => 2

/-- Shape of a batched value: a leading batch axis of size `B` is added
to the per-example shape. -/
def liftShape (B : Nat) : Shape → Option Shape
  | Shape.sc => some (Shape.vecS B)
  | Shape.vecS n => some (Shape.matS B n)
  | Shape.matS _ _ => none

/-- Modelled from the spec (§4.2): forward shape inference over a trace,
producing the shape of every environment slot (parameters first). -/
def inferSteps (sh : List Shape) : List (Node R) → Option (List Shape)
  | [] => some sh
  | Node.lit v :: ns => inferSteps (sh ++ [v.shapeOf]) ns
  | Node.prim p args :: ns =>
      ((seqOpt (fun a => sh.get? a) args).bind (shapeInfer p)).bind
        (fun s => inferSteps (sh ++ [s]) ns)

/-- Shapes of all environment slots of a Traced Function, given its
input signature. -/
def inferAll (f : TFun R) (ss : List Shape) : Option (List Shape) :=
  if ss.length = f.arity then inferSteps ss f.nodes else none

section Vmap

variable {R : Type}

/-- Per-slot bookkeeping of the batching interpreter: where the slot
lives in the rewritten graph, whether it carries a leading batch axis,
and its per-example shape. -/
structure BSlot where
  idx : Nat
  batched : Bool
  shape : Shape
deriving DecidableEq, Repr

/-- Append a node to the graph being built, returning its slot index. -/
def emitN (arity : Nat) (nn : List (Node R)) (n : Node R) : Nat × List (Node R) :=
  (arity + nn.length, nn ++ [n])

/-- Modelled from the spec (§4.3, Batching): the per-primitive batching
rule, invoked when at least one input carries the batch axis.  It
returns the nodes to append to the rewritten graph (whose slots start at
`base`) and the resulting slot.  Elementwise primitives are
rank-polymorphic, so the same primitive is re-emitted when NumPy
broadcasting realizes the batched semantics; a reduction becomes a
reduction over the non-batch axis; a matrix–vector product with a
batched vector becomes a matrix–matrix product against the transpose
(the quickstart's manual `dot(v_batched, mat.T)` rewrite).  Combinations
the rule cannot realize yield `none`. -/
def batchRule (base : Nat) :
    Prim → List BSlot → Option (List (Node R) × BSlot)
  | Prim.padd, [a, b] => batchEw Prim.padd base a b
  | Prim.pmul, [a, b] => batchEw Prim.pmul base a b
  | Prim.pdiv, [a, b] => batchEw Prim.pdiv base a b
  | Prim.pneg, [a] =>
      some ([Node.prim Prim.pneg [a.idx]], ⟨base, true, a.shape⟩)
  | Prim.pexp, [a] =>
      some ([Node.prim Prim.pexp [a.idx]], ⟨base, true, a.shape⟩)
  | Prim.psum, [a] =>
      match a.shape with
      | Shape.sc => some ([], ⟨a.idx, true, Shape.sc⟩)
      | Shape.vecS _ =>
          some ([Node.prim Prim.psumLast [a.idx]], ⟨base, true, Shape.sc⟩)
      | Shape.matS _ _ => none
  | Prim.pdot, [a, b] =>
      match a.batched, b.batched, a.shape, b.shape with
      | false, true, Shape.matS m n, Shape.vecS n' =>
          if n = n' then
            some ([Node.prim Prim.ptrans [a.idx],
                   Node.prim Prim.pdot [b.idx, base]],
              ⟨base + 1, true, Shape.vecS m⟩)
          else none
      | false, true, Shape.vecS n, Shape.vecS n' =>
          if n = n' then
            some ([Node.prim Prim.pdot [b.idx, a.idx]], ⟨base, true, Shape.sc⟩)
          else none
      | true, false, Shape.vecS n, Shape.vecS n' =>
          if n = n' then
            some ([Node.prim Prim.pdot [a.idx, b.idx]], ⟨base, true, Shape.sc⟩)
          else none
      | true, true, Shape.vecS n, Shape.vecS n' =>
          if n = n' then
            some ([Node.prim Prim.pmul [a.idx, b.idx],
                   Node.prim Prim.psumLast [base]],
              ⟨base + 1, true, Shape.sc⟩)
          else none
      | _, _, _, _ => none
  | _, _ => none
  where batchEw (p : Prim) (base : Nat) (a b : BSlot) :
      Option (List (Node R) × BSlot) :=
    match broadcastS a.shape b.shape with
    | none => none
    | some s =>
        if (a.batched = true → a.shape = s) ∧ (b.batched = true → b.shape = s) ∧
            s.rank ≤ 1 then
          some ([Node.prim p [a.idx, b.idx]], ⟨base, true, s⟩)
        else none

/-- Rewrite one node of the original trace for the batching
interpreter, returning the emitted nodes (starting at slot `base`) and
the node's new slot. -/
def vmapNode (slots : List BSlot) (base : Nat) :
    Node R → Option (List (Node R) × BSlot)
  | Node.lit v => some ([Node.lit v], ⟨base, false, v.shapeOf⟩)
  | Node.prim p args =>
      (seqOpt (fun a => slots.get? a) args).bind (fun as =>
        if as.all (fun b => !b.batched) then
          (shapeInfer p (as.map (fun b => b.shape))).map (fun s =>
            ([Node.prim p (as.map (fun b => b.idx))], ⟨base, false, s⟩))
        else batchRule base p as)

/-- Run the batching interpreter over a node list. -/
def vmapSteps (arity : Nat) : List (Node R) → List BSlot → List (Node R) →
    Option (List (Node R) × List BSlot)
  | [], slots, nn => some (nn, slots)
  | n :: ns, slots, nn =>
      (vmapNode slots (arity + nn.length) n).bind (fun r =>
        vmapSteps arity ns (slots ++ [r.2]) (nn ++ r.1))

/-- Modelled from the spec (§4.3, Batching): rewrite a Traced Function
to operate over an extra leading batch axis.  `flags` says, per
positional parameter, whether it carries the batch axis; `ss` gives the
per-example input shapes.  Fails (`none`) when a per-primitive batching
rule cannot realize the requested combination. -/
def vmapIR (f : TFun R) (flags : List Bool) (ss : List Shape) : Option (TFun R) :=
  if flags.length = f.arity ∧ ss.length = f.arity ∧
      (∀ k, k < f.arity → flags.getD k false = true →
        (ss.getD k Shape.sc).rank ≤ 1) then
    let slots0 := (List.range f.arity).map (fun k =>
      (⟨k, flags.getD k false, ss.getD k Shape.sc⟩ : BSlot))
    (vmapSteps f.arity f.nodes slots0 []).bind (fun r =>
      (r.2.get? f.out).bind (fun o =>
        if o.batched then some ⟨f.arity, r.1, o.idx⟩ else none))
  else none

/-- Modelled from the spec (§6, `vmap(fn, in_axes)`): the public
batching transformation.  When `in_axes` is omitted every positional
argument is mapped along its leading axis; values closed over by the
function are literal leaf nodes of its trace and stay unbatched. -/
def vmap (f : TFun R) (inAxes : Option (List Bool)) (ss : List Shape) :
    Option (TFun R) :=
  vmapIR f (inAxes.getD (List.replicate f.arity true)) ss

end Vmap

section Grad

variable {R : Type} [Field R]

/-- One recorded backward contribution: while processing `consumer` (a
node of the primal trace) at argument position `pos`, the backward pass
read the consumer's accumulated cotangent (graph slot `ctUsed`) and
deposited the contribution computed at graph slot `contrib` into the
cotangent of environment slot `slot`. -/
structure GLog where
  slot : Nat
  consumer : Nat
  pos : Nat
  ctUsed : Nat
  contrib : Nat
deriving DecidableEq, Repr

/-- State of the backward pass while it rewrites a trace into its
gradient-computing trace: the nodes emitted so far, the accumulated
cotangent (a graph slot) of every primal environment slot, and the log
of all contributions deposited so far. -/
structure GSt (R : Type) where
  nodes : List (Node R)
  ct : List (Option Nat)
  log : List GLog

/-- Emit the reduction of a cotangent from the broadcast shape `ctsh`
back to the shape `target` of the argument it flows into (the transpose
of NumPy broadcasting: sum over the broadcast axes). -/
def reduceToEmit (arity : Nat) (target ctsh : Shape) (ci : Nat)
    (nn : List (Node R)) : Option (Nat × List (Node R)) :=
  if target = ctsh then some (ci, nn)
  else
    match target, ctsh with
    | Shape.sc, _ => some (emitN arity nn (Node.prim Prim.psum [ci]))
    | Shape.vecS n, Shape.matS _ n' =>
        if n' = n then
          let (t, nn1) := emitN arity nn (Node.prim Prim.ptrans [ci])
          some (emitN arity nn1 (Node.prim Prim.psumLast [t]))
        else none
    | _, _ => none

/-- Modelled from the spec (§4.3, reverse mode): the per-primitive
vector–Jacobian rule.  Given the primal trace's argument slots `args`,
the argument position `pos`, the consumer's accumulated cotangent slot
`c` and the consumer's primal output slot `o`, emits the nodes computing
the backward contribution to `args[pos]` and returns its slot. -/
def vjpEmit (arity : Nat) (allSh : List Shape) (p : Prim) (args : List Nat)
    (pos : Nat) (c o : Nat) (nn : List (Node R)) : Option (Nat × List (Node R)) :=
  match p, args, pos with
  | Prim.padd, [a1, _], 0 =>
      (allSh.get? a1).bind (fun s1 => (allSh.get? o).bind (fun so =>
        reduceToEmit arity s1 so c nn))
  | Prim.padd, [_, a2], 1 =>
      (allSh.get? a2).bind (fun s2 => (allSh.get? o).bind (fun so =>
        reduceToEmit arity s2 so c nn))
  | Prim.pmul, [a1, a2], 0 =>
      (allSh.get? a1).bind (fun s1 => (allSh.get? o).bind (fun so =>
        let (m, nn1) := emitN arity nn (Node.prim Prim.pmul [c, a2])
        reduceToEmit arity s1 so m nn1))
  | Prim.pmul, [a1, a2], 1 =>
      (allSh.get? a2).bind (fun s2 => (allSh.get? o).bind (fun so =>
        let (m, nn1) := emitN arity nn (Node.prim Prim.pmul [c, a1])
        reduceToEmit arity s2 so m nn1))
  | Prim.pdiv, [a1, a2], 0 =>
      (allSh.get? a1).bind (fun s1 => (allSh.get? o).bind (fun so =>
        let (d, nn1) := emitN arity nn (Node.prim Prim.pdiv [c, a2])
        reduceToEmit arity s1 so d nn1))
  | Prim.pdiv, [a1, a2], 1 =>
      (allSh.get? a2).bind (fun s2 => (allSh.get? o).bind (fun so =>
        let (t1, nn1) := emitN arity nn (Node.prim Prim.pmul [c, a1])
        let (t2, nn2) := emitN arity nn1 (Node.prim Prim.pmul [a2, a2])
        let (t3, nn3) := emitN arity nn2 (Node.prim Prim.pdiv [t1, t2])
        let (t4, nn4) := emitN arity nn3 (Node.prim Prim.pneg [t3])
        reduceToEmit arity s2 so t4 nn4))
  | Prim.pneg, [_], 0 => some (emitN arity nn (Node.prim Prim.pneg [c]))
  | Prim.pexp, [_], 0 => some (emitN arity nn (Node.prim Prim.pmul [c, o]))
  | Prim.psum, [a1], 0 =>
      (allSh.get? a1).bind (fun s1 =>
        if s1 = Shape.sc then some (c, nn)
        else
          let (l0, nn1) := emitN arity nn (Node.lit (Val.scalar 0))
          let (z, nn2) := emitN arity nn1 (Node.prim Prim.pmul [a1, l0])
          let (l1, nn3) := emitN arity nn2 (Node.lit (Val.scalar 1))
          let (os, nn4) := emitN arity nn3 (Node.prim Prim.padd [z, l1])
          some (emitN arity nn4 (Node.prim Prim.pmul [c, os])))
  | _, _, _ => none

/-- Deposit one backward contribution into the accumulated cotangent of
slot `t`: the first contribution is stored as-is, later ones are summed
in with an emitted `padd` node — the sum-at-fan-in accumulation. -/
def addContrib (arity : Nat) (t j pos c ci : Nat) (st : GSt R) : GSt R :=
  match st.ct.getD t none with
  | none =>
      { nodes := st.nodes, ct := st.ct.set t (some ci)
        log := st.log ++ [⟨t, j, pos, c, ci⟩] }
  | some prev =>
      let (s, nn') := emitN arity st.nodes (Node.prim Prim.padd [prev, ci])
      { nodes := nn', ct := st.ct.set t (some s)
        log := st.log ++ [⟨t, j, pos, c, ci⟩] }

/-- Process the argument positions of one consumer node in the backward
pass: emit each position's vector–Jacobian contribution and deposit it. -/
def gradArgs (arity : Nat) (allSh : List Shape) (p : Prim) (args : List Nat)
    (j c o : Nat) : List (Nat × Nat) → GSt R → Option (GSt R)
  | [], st => some st
  | (pos, t) :: rest, st =>
      (vjpEmit arity allSh p args pos c o st.nodes).bind (fun r =>
        gradArgs arity allSh p args j c o rest
          (addContrib arity t j pos c r.1 { st with nodes := r.2 }))

/-- Backward-pass step for one primal node: a literal has no inputs; a
node whose output never received a cotangent is skipped; otherwise its
vector–Jacobian rule runs on the node's accumulated cotangent. -/
def gradNode (arity : Nat) (allSh : List Shape) (origNodes : List (Node R))
    (j : Nat) (st : GSt R) : Option (GSt R) :=
  match origNodes.get? j with
  | none => none
  | some (Node.lit _) => some st
  | some (Node.prim p args) =>
      match st.ct.getD (arity + j) none with
      | none => some st
      | some c => gradArgs arity allSh p args j c (arity + j) args.enum st

/-- Walk the primal nodes in reverse topological order (§4.3, backward
pass). -/
def gradBack (arity : Nat) (allSh : List Shape) (origNodes : List (Node R)) :
    List Nat → GSt R → Option (GSt R)
  | [], st => some st
  | j :: js, st => (gradNode arity allSh origNodes j st).bind
      (gradBack arity allSh origNodes js)

/-- Modelled from the spec (§4.3, reverse mode): the two-pass gradient
construction.  The forward trace is kept as the primal prefix of the new
graph; the output's cotangent is seeded with the literal `1`; the
backward pass walks the nodes in reverse order accumulating cotangents;
the result is the full backward state (graph, cotangent table, log). -/
def gradEmit (f : TFun R) (ss : List Shape) : Option (GSt R) :=
  (inferAll f ss).bind (fun allSh =>
    if allSh.get? f.out = some Shape.sc then
      let (seed, nn0) := emitN f.arity f.nodes (Node.lit (Val.scalar 1))
      let ct0 : List (Option Nat) :=
        (List.replicate (f.arity + f.nodes.length) none).set f.out (some seed)
      gradBack f.arity allSh f.nodes (List.range f.nodes.length).reverse
        ⟨nn0, ct0, []⟩
    else none)

/-- Modelled from the spec (§6, `grad(fn)`): the reverse-mode gradient
with respect to the first argument, as a new Traced Function.  An input
not reachable from the output receives a zero-shaped cotangent (zeros of
the input's shape), not an error. -/
def gradIR (f : TFun R) (ss : List Shape) : Option (TFun R) :=
  (gradEmit f ss).map (fun st =>
    match st.ct.getD 0 none with
    | some c => ⟨f.arity, st.nodes, c⟩
    | none =>
        let (l0, nn1) := emitN f.arity st.nodes (Node.lit (Val.scalar 0))
        let (z, nn2) := emitN f.arity nn1 (Node.prim Prim.pmul [0, l0])
        ⟨f.arity, nn2, z⟩)

end Grad

section Engine

variable {R : Type} [Field R]

/-- Modelled from the spec (§7): a backend runtime fault, carried by a
failed Future and surfaced as `ExecutionError` on observation. -/
structure ExecErr where
  code : Nat
deriving DecidableEq, Repr

/-- Modelled from the spec (§4.4): the error raised when the backend
rejects a graph, carrying the offending node. -/
structure CompilationErr (R : Type) where
  offending : Node R
deriving DecidableEq, Repr

/-- Modelled from the spec (§3, Compiled Artifact): an opaque executable
bound to a Traced Function; the engine only ever runs it. -/
structure Artifact (R : Type) where
  run : List (Val R) → Except ExecErr (Val R)

/-- Modelled from the spec (§6): the external accelerator backend, an
opaque `compile(TracedFunction) → CompiledArtifact | CompilationError`
service. -/
structure Backend (R : Type) where
  compile : TFun R → Except (CompilationErr R) (Artifact R)

/-- Modelled from the spec (§3, Fingerprint): function identity, the
ordered input shape signature (the model has a single dtype), and the
active transformation stack signature. -/
inductive TTag where
  | tJit | tGrad | tVmap
deriving DecidableEq, Repr

/-- Cache key for compiled artifacts. -/
structure Fingerprint where
  fnId : Nat
  argShapes : List Shape
  stack : List TTag
deriving DecidableEq, Repr

/-- Modelled from the spec (§4.4): the compiled-artifact cache, plus an
instrumentation counter of how many times the backend `compile` service
has been invoked (used to state fingerprint stability, §8.1). -/
structure CacheSt (R : Type) where
  entries : List (Fingerprint × Artifact R)
  compileCount : Nat

/-- Look up a fingerprint in the cache. -/
def cacheLookup (c : CacheSt R) (fp : Fingerprint) : Option (Artifact R) :=
  (c.entries.find? (fun e => e.1 = fp)).map (fun e => e.2)

/-- Modelled from the spec (§4.4, `compile_or_get`): on a cache hit the
stored artifact is returned with no recompilation; on a miss the backend
is invoked exactly once and a successful result is stored; a failed
compilation is NOT cached, leaving the entries unchanged so a later call
retries the backend. -/
def compileOrGet (be : Backend R) (c : CacheSt R) (fp : Fingerprint)
    (g : TFun R) : Except (CompilationErr R) (Artifact R) × CacheSt R :=
  match cacheLookup c fp with
  | some a => (Except.ok a, c)
  | none =>
      match be.compile g with
      | Except.ok a =>
          (Except.ok a,
            ⟨c.entries ++ [(fp, a)], c.compileCount + 1⟩)
      | Except.error e => (Except.error e, ⟨c.entries, c.compileCount + 1⟩)

/-- Modelled from the spec (§4.5): a unit of work on the device queue —
either execute a compiled artifact on captured input buffers, or the
dedicated zero-op upload used by `device_put` (§9, design note). -/
inductive Job (R : Type) where
  | exec (a : Artifact R) (inputs : List (Val R)) : Job R
  | upload (v : Val R) : Job R

/-- Modelled from the spec (§3, Future Array Value): pending until the
owning execution runs, then resolved with a buffer or failed with the
deferred runtime fault. -/
inductive FStatus (R : Type) where
  | pending : FStatus R
  | resolved (v : Val R) : FStatus R
  | failed (e : ExecErr) : FStatus R
deriving DecidableEq, Repr

/-- Modelled from the spec (§4.5, §5): engine state — the shared
compiled-artifact cache, the single device's FIFO execution queue, and
the table of futures (indexed by creation order). -/
structure EState (R : Type) where
  cache : CacheSt R
  queue : List (Nat × Job R)
  futures : List (FStatus R)

/-- The engine state at process start. -/
def emptyState : EState R := ⟨⟨[], 0⟩, [], []⟩

/-- Modelled from the spec (§4.5, `dispatch`): returns immediately with
a fresh pending Future and appends the work to the device's FIFO queue —
no execution, and no error, happens at dispatch time. -/
def dispatch (st : EState R) (j : Job R) : Nat × EState R :=
  (st.futures.length,
    { st with queue := st.queue ++ [(st.futures.length, j)]
              futures := st.futures ++ [FStatus.pending] })

/-- Run one queued job to completion, resolving (or failing) its
Future. -/
def runJob : Job R → Except ExecErr (Val R)
  | Job.exec a xs => a.run xs
  | Job.upload v => Except.ok v

/-- Process the device queue in submission order (the logical worker of
§4.5); each job resolves exactly its own Future. -/
def drain (st : EState R) : EState R :=
  { st with queue := []
            futures := st.queue.foldl (fun fs item =>
              fs.set item.1 (match runJob item.2 with
                | Except.ok v => FStatus.resolved v
                | Except.error e => FStatus.failed e)) st.futures }

/-- Modelled from the spec (§4.5, `block_until_ready` / observation):
reading a Future's value synchronizes with the device queue; a failed
execution surfaces its `ExecutionError` here, at the observation point,
and nowhere else. -/
def readFuture (st : EState R) (fid : Nat) : Except ExecErr (Val R) × EState R :=
  let st' := drain st
  (match st'.futures.getD fid (FStatus.failed ⟨0⟩) with
    | FStatus.resolved v => Except.ok v
    | FStatus.failed e => Except.error e
    | FStatus.pending => Except.error ⟨0⟩, st')

/-- Modelled from the spec (§6, `device_put`): the dedicated zero-op
upload primitive — moves a concrete array onto the device eagerly,
returning a Future whose contents are only materialized when observed. -/
def devicePut (st : EState R) (v : Val R) : Nat × EState R :=
  dispatch st (Job.upload v)

/-- Modelled from the spec (§9, transformation stacking): a user
function together with the stack of transformations wrapped around it.
`base` is a plain traceable function (its closed-over constants are
literal leaf nodes of its trace); each wrapper re-enters tracing with
one more interpreter pushed onto the stack. -/
inductive XFun (R : Type) where
  | base (fnId : Nat) (g : TFun R) : XFun R
  | jitted (f : XFun R) : XFun R
  | gradded (f : XFun R) : XFun R
  | vmapped (f : XFun R) (inAxes : Option (List Bool)) : XFun R

/-- Function identity of the underlying user function (for the
fingerprint). -/
def XFun.fnIdOf : XFun R → Nat
  | XFun.base i _ => i
  | XFun.jitted f => f.fnIdOf
  | XFun.gradded f => f.fnIdOf
  | XFun.vmapped f _ => f.fnIdOf

/-- The transformation-stack signature (for the fingerprint). -/
def XFun.stackOf : XFun R → List TTag
  | XFun.base _ _ => []
  | XFun.jitted f => TTag.tJit :: f.stackOf
  | XFun.gradded f => TTag.tGrad :: f.stackOf
  | XFun.vmapped f _ => TTag.tVmap :: f.stackOf

/-- Per-example input shapes seen by the function under a batching
wrapper: the leading batch axis is removed. -/
def unliftShape : Shape → Option Shape
  | Shape.sc => none
  | Shape.vecS _ => some Shape.sc
  | Shape.matS _ n => some (Shape.vecS n)

/-- Modelled from the spec (§4.2 and §4.3): tracing a transformed
function at an input signature.  Tracing re-enters a `jit`-wrapped
function transparently (compilation only moves the execution boundary,
it does not change the traced graph); a `grad` wrapper rewrites the
inner trace with the reverse-mode interpreter; a `vmap` wrapper rewrites
it with the batching interpreter. -/
def graphOf : XFun R → List Shape → Option (TFun R)
  | XFun.base _ g, _ => some g
  | XFun.jitted f, ss => graphOf f ss
  | XFun.gradded f, ss => (graphOf f ss).bind (fun g => gradIR g ss)
  | XFun.vmapped f ax, ss =>
      (seqOpt unliftShape ss).bind (fun ssIn =>
        (graphOf f ssIn).bind (fun g => vmap g ax ssIn))

/-- Engine-level errors surfaced to the caller of a transformed
function (§7). -/
inductive GErr (R : Type) where
  | traceFail : GErr R
  | evalFail : GErr R
  | compileFail (e : CompilationErr R) : GErr R
  | execFail (e : ExecErr) : GErr R
deriving DecidableEq, Repr

/-- Modelled from the spec (§6, public transformation API): calling a
transformed function on concrete inputs.  An un-jitted call runs the
eval interpreter eagerly on the traced graph; a `jit`-wrapped call
traces, consults `compile_or_get` keyed by the fingerprint, dispatches
the artifact asynchronously and blocks on the resulting Future. -/
def callX (reg : Registry R) (be : Backend R) (f : XFun R) (st : EState R)
    (xs : List (Val R)) : Except (GErr R) (Val R) × EState R :=
  match f with
  | XFun.jitted f' =>
      match graphOf f' (xs.map Val.shapeOf) with
      | none => (Except.error GErr.traceFail, st)
      | some g =>
          let fp : Fingerprint :=
            ⟨f.fnIdOf, xs.map Val.shapeOf, (XFun.jitted f').stackOf⟩
          match compileOrGet be st.cache fp g with
          | (Except.error e, c') =>
              (Except.error (GErr.compileFail e), { st with cache := c' })
          | (Except.ok a, c') =>
              let (fid, st') := dispatch { st with cache := c' } (Job.exec a xs)
              let (r, st'') := readFuture st' fid
              (r.mapError GErr.execFail, st'')
  | _ =>
      match graphOf f (xs.map Val.shapeOf) with
      | none => (Except.error GErr.traceFail, st)
      | some g =>
          match evalT reg g xs with
          | some v => (Except.ok v, st)
          | none => (Except.error GErr.evalFail, st)

/-- The compiled artifact the conforming backend produces for a graph:
executing it runs the graph with the eval interpreter, and a shape fault
at execution time is a runtime fault that fails the Future. -/
def evalArt (reg : Registry R) (g : TFun R) : Artifact R :=
  ⟨fun xs =>
    match evalT reg g xs with
    | some v => Except.ok v
    | none => Except.error ⟨1⟩⟩

/-- Modelled from the spec (§6): the canonical conforming backend. -/
def evalBE (reg : Registry R) : Backend R :=
  ⟨fun g => Except.ok (evalArt reg g)⟩

/-- The engine state after dispatching two executions (one that will
fault, one that will succeed) from a fresh engine. -/
def twoDispatch (a1 a2 : Artifact R)
    (xs1 xs2 : List (Val R)) : EState R :=
  (dispatch (dispatch emptyState (Job.exec a1 xs1)).2 (Job.exec a2 xs2)).2

end Engine

section ConcreteObjects

/-- The scalar field used by executable witnesses: a computable field
whose arithmetic reduces cleanly in the kernel.  The witness values stay
far below the characteristic. -/
abbrev K : Type := ZMod 101

instance fact101 : Fact (Nat.Prime 101) := ⟨by norm_num⟩

/-- A registry over `K` for executable witnesses.  The witness graphs
evaluated under it contain no `pexp` node, so the exponential rule is
never consulted. -/
def qreg : Registry K := ⟨fun x => x⟩

/-- The trace of `fun x => x * x`. -/
def squareQ : TFun K := ⟨1, [Node.prim Prim.pmul [0, 0]], 1⟩

/-- The trace of `fun x => x * x * x`. -/
def cubeQ : TFun K := ⟨1, [Node.prim Prim.pmul [0, 0], Node.prim Prim.pmul [1, 0]], 2⟩

/-- The identity function's trace (one parameter, returned unchanged). -/
def idGraph (R : Type) : TFun R := ⟨1, [], 0⟩

/-- Fallback Traced Function for `Option.getD`. -/
def defaultTF (R : Type) : TFun R := ⟨0, [], 0⟩

/-- First reverse-mode rewrite of `cubeQ` at scalar input. -/
def dgCube : TFun K := (gradIR cubeQ [Shape.sc]).getD (defaultTF K)

/-- Second reverse-mode rewrite. -/
def dg2Cube : TFun K := (gradIR dgCube [Shape.sc]).getD (defaultTF K)

/-- Third reverse-mode rewrite. -/
def dg3Cube : TFun K := (gradIR dg2Cube [Shape.sc]).getD (defaultTF K)

/-- The trace of `g(x) = h(x) + h(x)` with `h(x) = x * x`: the square
node is consumed twice by the addition, and the parameter is consumed
twice by the square — two fan-in points. -/
def fanG : TFun K :=
  ⟨1, [Node.prim Prim.pmul [0, 0], Node.prim Prim.padd [1, 1]], 2⟩

/-- The backward-pass state produced for `fanG` at scalar input. -/
def fanSt : GSt K := (gradEmit fanG [Shape.sc]).getD ⟨[], [], []⟩

/-- The environment obtained by running the gradient graph of `fanG`
at `x = 3`. -/
def fanEnv : List (Val K) :=
  (evalSteps qreg [Val.scalar 3] fanSt.nodes).getD []

/-- The trace of the quickstart's `sum_logistic`,
`x ↦ sum(1 / (1 + exp(-x)))`, over any scalar field (the exponential
rule is supplied by the registry). -/
def sumLogisticG (R : Type) [Field R] : TFun R :=
  ⟨1, [Node.prim Prim.pneg [0], Node.prim Prim.pexp [1],
       Node.lit (Val.scalar 1), Node.prim Prim.padd [3, 2],
       Node.prim Prim.pdiv [3, 4], Node.prim Prim.psum [5]], 6⟩

/-- The reverse-mode gradient trace of `sumLogisticG` at a length-3
vector input, as produced by `gradIR`. -/
def sumLogisticGradG (R : Type) [Field R] : TFun R :=
  ⟨1, [Node.prim Prim.pneg [0], Node.prim Prim.pexp [1],
       Node.lit (Val.scalar 1), Node.prim Prim.padd [3, 2],
       Node.prim Prim.pdiv [3, 4], Node.prim Prim.psum [5],
       Node.lit (Val.scalar 1), Node.lit (Val.scalar 0),
       Node.prim Prim.pmul [5, 8], Node.lit (Val.scalar 1),
       Node.prim Prim.padd [9, 10], Node.prim Prim.pmul [7, 11],
       Node.prim Prim.pdiv [12, 4], Node.prim Prim.psum [13],
       Node.prim Prim.pmul [12, 3], Node.prim Prim.pmul [4, 4],
       Node.prim Prim.pdiv [15, 16], Node.prim Prim.pneg [17],
       Node.prim Prim.psum [18], Node.prim Prim.padd [14, 19],
       Node.prim Prim.pmul [18, 2], Node.prim Prim.pneg [21]], 22⟩

/-- The trace of the steep cubic `x ↦ 10⁹ · x³`: a function whose
central finite differences at `eps = 1e-3` are far from its gradient. -/
def cubicG (R : Type) [Field R] : TFun R :=
  ⟨1, [Node.prim Prim.pmul [0, 0], Node.prim Prim.pmul [1, 0],
       Node.lit (Val.scalar 1000000000), Node.prim Prim.pmul [2, 3]], 4⟩

end ConcreteObjects

section BatchRelations

variable {R : Type} [Field R]

/-- A batched input is a well-formed stack of `B` per-example values of
shape `s`: a vector of `B` scalars, or a rectangular matrix of `B`
rows. -/
def stackOk (B : Nat) : Shape → Val R → Prop
  | Shape.sc, Val.vec ws => ws.length = B
  | Shape.vecS n, Val.mat wss => wss.length = B ∧ ∀ r ∈ wss, r.length = n
  | _, _ => False

/-- Row `i` of a batched value: the per-example slice along the leading
axis. -/
def exRow (i : Nat) : Val R → Val R
  | Val.scalar x => Val.scalar x
  | Val.vec ws => Val.scalar (ws.getD i 0)
  | Val.mat wss => Val.vec (wss.getD i [])

/-- The batching relation: `w` is the stacked value whose slice `i` is
the per-example value `g i`, for per-example shape `s`. -/
def BRel (B : Nat) : Shape → Val R → (Nat → Val R) → Prop
  | Shape.sc, w, g =>
      ∃ ws, w = Val.vec ws ∧ ws.length = B ∧
        ∀ i, i < B → g i = Val.scalar (ws.getD i 0)
  | Shape.vecS n, w, g =>
      ∃ wss, w = Val.mat wss ∧ wss.length = B ∧ (∀ r ∈ wss, r.length = n) ∧
        ∀ i, i < B → g i = Val.vec (wss.getD i [])
  | Shape.matS _ _, _, _ => False

/-- Relation for one slot of the batching interpreter: a batched slot
stacks the per-example values; an unbatched slot holds one value of the
per-example shape shared by all examples. -/
def ARel (B : Nat) (batched : Bool) (s : Shape) (w : Val R)
    (g : Nat → Val R) : Prop :=
  if batched then BRel B s w g else w.shapeOf = s ∧ ∀ i, i < B → g i = w

/-- Invariant of the batching interpreter: every processed slot of the
original trace is realized in the rewritten graph's environment and
related to the per-example environments. -/
def SlotsInv (B : Nat) (slots : List BSlot) (NE : List (Val R))
    (oldE : Nat → List (Val R)) : Prop :=
  ∀ t, t < slots.length →
    ∃ w, NE.get? ((slots.getD t ⟨0, false, Shape.sc⟩).idx) = some w ∧
      ARel B (slots.getD t ⟨0, false, Shape.sc⟩).batched
        (slots.getD t ⟨0, false, Shape.sc⟩).shape w
        (fun i => (oldE i).getD t (Val.scalar 0))

/-- Sum of a nonempty list of backward contributions (the value computed
by the emitted `padd` accumulation chain). -/
def sumContribs : List (Val R) → Option (Val R)
  | [] => none
  | v :: rest => some (rest.foldl (ewB (· + ·)) v)

end BatchRelations

section GradInvDefs

variable {R : Type} [Field R]

/-- The contribution slots deposited into environment slot `t`, in the
order the backward pass logged them. -/
def chainOf (log : List GLog) (t : Nat) : List Nat :=
  (log.filter (fun e => e.slot == t)).map (fun e => e.contrib)

/-- Invariant of the backward pass, stated against the final gradient
graph `NF` and its evaluation environment `E`: every accumulated
cotangent slot holds the sum of the seed (for the output) and of all
contributions logged for that slot so far, and a slot with no
accumulated cotangent has received no contribution. -/
def GInv (f : TFun R) (E : List (Val R)) (st : GSt R) : Prop :=
  (∀ t c, st.ct.getD t none = some c →
    sumContribs (((if t = f.out then [f.arity + f.nodes.length] else [])
        ++ chainOf st.log t).map (fun s => E.getD s (Val.scalar 0)))
      = some (E.getD c (Val.scalar 0))) ∧
  (∀ t, st.ct.getD t none = none → t ≠ f.out ∧ chainOf st.log t = []) ∧
  st.ct.length = f.arity + f.nodes.length

end GradInvDefs

section EngineProofs

variable {R : Type} [Field R]

/-- The jit pipeline from a fresh engine state: trace, compile with the
conforming backend, dispatch, block — and obtain exactly the eager
value. -/
lemma jit_pipeline (reg : Registry R) (f' : XFun R) (xs : List (Val R))
    (g : TFun R) (v : Val R)
    (hg : graphOf f' (xs.map Val.shapeOf) = some g)
    (hv : evalT reg g xs = some v) :
    (callX reg (evalBE reg) (XFun.jitted f') emptyState xs).1 = Except.ok v := by
  simp [callX, hg, compileOrGet, cacheLookup, emptyState, evalBE, evalArt,
    dispatch, readFuture, drain, runJob, hv, Except.mapError]

end EngineProofs



/-- C5: for every function `f` and input `xs`, the concrete value
obtained by blocking on `jit(f)(xs)` — trace, compile with the
conforming backend, cache, asynchronous dispatch, observation — equals
the value `v` produced by the eager, uncompiled eval interpreter on
`f`'s trace: compilation and async dispatch never change the numeric
result. -/
theorem C5_async_transparency (R : Type) [Field R] (reg : Registry R)
    (f : XFun R) (xs : List (Val R)) (g : TFun R) (v : Val R)
    (hg : graphOf f (xs.map Val.shapeOf) = some g)
    (hv : evalT reg g xs = some v) :
    (callX reg (evalBE reg) (XFun.jitted f) emptyState xs).1 = Except.ok v :=
  jit_pipeline reg f xs g v hg hv

theorem C5_async_transparency_witness :
    (callX qreg (evalBE qreg) (XFun.jitted (XFun.base 0 squareQ)) emptyState
      [Val.scalar (3 : K)]).1 = Except.ok (Val.scalar 9) :=
  C5_async_transparency K qreg (XFun.base 0 squareQ) [Val.scalar 3] squareQ
    (Val.scalar 9) (by decide) (by decide)

/-- C7: `device_put a` creates a Future that stays pending until
observed (contents move only when read), observing it yields exactly
`a`, and `jit(identity)(a)` observed from the same fresh engine also
yields `a` — the two are semantically equivalent. -/
theorem C7_device_put_equiv (R : Type) [Field R] (reg : Registry R) (a : Val R) :
    (devicePut (emptyState (R := R)) a).2.futures.getD
        (devicePut (emptyState (R := R)) a).1 FStatus.pending = FStatus.pending ∧
    (readFuture (devicePut (emptyState (R := R)) a).2
        (devicePut (emptyState (R := R)) a).1).1 = Except.ok a ∧
    (callX reg (evalBE reg) (XFun.jitted (XFun.base 0 (idGraph R)))
        emptyState [a]).1 = Except.ok a := by
  refine ⟨?_, ?_, ?_⟩
  · simp [devicePut, dispatch, emptyState]
  · simp [devicePut, dispatch, emptyState, readFuture, drain, runJob]
  · exact jit_pipeline reg _ [a] (idGraph R) a rfl (by simp [evalT, idGraph, evalSteps])

lemma list_set_append_len {α : Type _} (l : List α) (x y : α) :
    (l ++ [x]).set l.length y = l ++ [y] := by
  induction l with
  | nil => rfl
  | cons a t ih => simp [List.set, ih]

lemma list_getD_append_len {α : Type _} (l : List α) (z d : α) :
    (l ++ [z]).getD l.length d = z := by
  induction l with
  | nil => rfl
  | cons a t ih => simp [ih]

/-- Characterization of a `jit`-wrapped call from a state with an empty
device queue: the result is the compiled artifact's execution (or the
compilation error), the cache is updated by `compile_or_get`, and one
more Future is recorded. -/
lemma callX_jit_eq {R : Type} [Field R] (reg : Registry R) (be : Backend R)
    (f' : XFun R) (st : EState R) (xs : List (Val R)) (g : TFun R)
    (hq : st.queue = [])
    (hg : graphOf f' (xs.map Val.shapeOf) = some g) :
    callX reg be (XFun.jitted f') st xs =
      match compileOrGet be st.cache
          ⟨f'.fnIdOf, xs.map Val.shapeOf, (XFun.jitted f').stackOf⟩ g with
      | (Except.error e, c') =>
          (Except.error (GErr.compileFail e), { st with cache := c' })
      | (Except.ok a, c') =>
          ((a.run xs).mapError GErr.execFail,
            { cache := c', queue := [],
              futures := st.futures ++ [match a.run xs with
                | Except.ok v => FStatus.resolved v
                | Except.error e => FStatus.failed e] }) := by
  cases hco : compileOrGet be st.cache
      ⟨f'.fnIdOf, xs.map Val.shapeOf, (XFun.jitted f').stackOf⟩ g with
  | mk r c' =>
    simp only [XFun.stackOf] at hco
    cases r with
    | error e => simp [callX, hg, XFun.fnIdOf, XFun.stackOf, hco]
    | ok a =>
        simp only [callX, hg, XFun.fnIdOf, XFun.stackOf, hco, dispatch,
          readFuture, drain, hq]
        cases hr : a.run xs <;>
          simp [hr, runJob, list_set_append_len, list_getD_append_len,
            Except.mapError]

/-- C8: a runtime fault is deferred — dispatch returns pending Futures
and never raises; the `ExecutionError` surfaces exactly when the failed
Future's value is read; and the failure poisons only that Future: the
sibling Future on the same device queue still resolves to its own value
(even when read after the failure is observed), and the compiled-artifact
cache is untouched. -/
theorem C8_exec_error_deferred (R : Type) [Field R] (a1 a2 : Artifact R)
    (xs1 xs2 : List (Val R)) (e : ExecErr) (v : Val R)
    (h1 : a1.run xs1 = Except.error e) (h2 : a2.run xs2 = Except.ok v) :
    (twoDispatch a1 a2 xs1 xs2).futures = [FStatus.pending, FStatus.pending] ∧
    (readFuture (twoDispatch a1 a2 xs1 xs2) 0).1 = Except.error e ∧
    (readFuture (twoDispatch a1 a2 xs1 xs2) 1).1 = Except.ok v ∧
    (readFuture (readFuture (twoDispatch a1 a2 xs1 xs2) 0).2 1).1 = Except.ok v ∧
    (twoDispatch a1 a2 xs1 xs2).cache.entries = [] ∧
    (twoDispatch a1 a2 xs1 xs2).cache.compileCount = 0 := by
  refine ⟨?_, ?_, ?_, ?_, ?_, ?_⟩ <;>
    simp [twoDispatch, dispatch, emptyState, readFuture, drain, runJob, h1, h2]

theorem C8_exec_error_deferred_witness :
    (readFuture (twoDispatch (R := K) ⟨fun _ => Except.error ⟨7⟩⟩
        ⟨fun _ => Except.ok (Val.scalar 5)⟩ [] []) 0).1 = Except.error ⟨7⟩ ∧
    (readFuture (twoDispatch (R := K) ⟨fun _ => Except.error ⟨7⟩⟩
        ⟨fun _ => Except.ok (Val.scalar 5)⟩ [] []) 1).1 = Except.ok (Val.scalar 5) :=
  ⟨(C8_exec_error_deferred K ⟨fun _ => Except.error ⟨7⟩⟩
      ⟨fun _ => Except.ok (Val.scalar 5)⟩ [] [] ⟨7⟩ (Val.scalar 5) rfl rfl).2.1,
   (C8_exec_error_deferred K ⟨fun _ => Except.error ⟨7⟩⟩
      ⟨fun _ => Except.ok (Val.scalar 5)⟩ [] [] ⟨7⟩ (Val.scalar 5) rfl rfl).2.2.1⟩

/-- C9: a failed backend compilation surfaces as a `CompilationError`
(carrying the offending node in its payload), leaves the cache entries
exactly as they were (atomicity), and is not memoized: a second call
with the same fingerprint invokes the backend again (the invocation
counter advances), and once the backend is reconfigured to succeed the
same fingerprint compiles fine. -/
theorem C9_compile_failure_not_cached (R : Type) [Field R]
    (be be' : Backend R) (c : CacheSt R) (fp : Fingerprint) (g : TFun R)
    (e : CompilationErr R) (a : Artifact R)
    (hmiss : cacheLookup c fp = none)
    (hfail : be.compile g = Except.error e)
    (hok : be'.compile g = Except.ok a) :
    (compileOrGet be c fp g).1 = Except.error e ∧
    (compileOrGet be c fp g).2.entries = c.entries ∧
    (compileOrGet be c fp g).2.compileCount = c.compileCount + 1 ∧
    (compileOrGet be (compileOrGet be c fp g).2 fp g).1 = Except.error e ∧
    (compileOrGet be (compileOrGet be c fp g).2 fp g).2.compileCount
      = c.compileCount + 2 ∧
    (compileOrGet be' (compileOrGet be c fp g).2 fp g).1 = Except.ok a := by
  have hmiss' : cacheLookup (⟨c.entries, c.compileCount + 1⟩ : CacheSt R) fp = none := by
    simpa [cacheLookup] using hmiss
  refine ⟨?_, ?_, ?_, ?_, ?_, ?_⟩ <;>
    simp [compileOrGet, hmiss, hmiss', hfail, hok]

theorem C9_compile_failure_not_cached_witness :
    (compileOrGet (R := K) ⟨fun _ => Except.error ⟨Node.lit (Val.scalar 0)⟩⟩
        ⟨[], 0⟩ ⟨0, [], []⟩ (idGraph K)).1
      = Except.error ⟨Node.lit (Val.scalar 0)⟩ ∧
    (compileOrGet (R := K) ⟨fun _ => Except.error ⟨Node.lit (Val.scalar 0)⟩⟩
        ⟨[], 0⟩ ⟨0, [], []⟩ (idGraph K)).2.entries = [] :=
  ⟨(C9_compile_failure_not_cached K ⟨fun _ => Except.error ⟨Node.lit (Val.scalar 0)⟩⟩
      ⟨fun _ => Except.ok ⟨fun _ => Except.ok (Val.scalar 0)⟩⟩ ⟨[], 0⟩ ⟨0, [], []⟩
      (idGraph K) ⟨Node.lit (Val.scalar 0)⟩ ⟨fun _ => Except.ok (Val.scalar 0)⟩
      rfl rfl rfl).1,
   (C9_compile_failure_not_cached K ⟨fun _ => Except.error ⟨Node.lit (Val.scalar 0)⟩⟩
      ⟨fun _ => Except.ok ⟨fun _ => Except.ok (Val.scalar 0)⟩⟩ ⟨[], 0⟩ ⟨0, [], []⟩
      (idGraph K) ⟨Node.lit (Val.scalar 0)⟩ ⟨fun _ => Except.ok (Val.scalar 0)⟩
      rfl rfl rfl).2.1⟩

/-- C3: calling `jit(f)` twice on inputs with the same shape signature
invokes the backend `compile` exactly once — the first call compiles and
caches, the second hits the cache (the invocation counter stays at `1`)
and runs the artifact produced by that single compilation — while a call
whose input shapes differ misses the cache and triggers a new backend
invocation. -/
theorem C3_fingerprint_stability (R : Type) [Field R] (reg : Registry R)
    (be : Backend R) (f : XFun R) (xs ys : List (Val R)) (g : TFun R)
    (a : Artifact R)
    (hg : graphOf f (xs.map Val.shapeOf) = some g)
    (hc : be.compile g = Except.ok a)
    (hsh : ys.map Val.shapeOf = xs.map Val.shapeOf) :
    (callX reg be (XFun.jitted f) emptyState xs).2.cache.compileCount = 1 ∧
    (callX reg be (XFun.jitted f)
        (callX reg be (XFun.jitted f) emptyState xs).2 ys).2.cache.compileCount
      = 1 ∧
    (callX reg be (XFun.jitted f)
        (callX reg be (XFun.jitted f) emptyState xs).2 ys).1
      = (a.run ys).mapError GErr.execFail ∧
    ∀ zs g', zs.map Val.shapeOf ≠ xs.map Val.shapeOf →
      graphOf f (zs.map Val.shapeOf) = some g' →
      (callX reg be (XFun.jitted f)
          (callX reg be (XFun.jitted f)
            (callX reg be (XFun.jitted f) emptyState xs).2 ys).2
          zs).2.cache.compileCount = 2 := by
  have hg2 : graphOf f (ys.map Val.shapeOf) = some g := by rw [hsh]; exact hg
  have e1 := callX_jit_eq reg be f emptyState xs g rfl hg
  rw [show compileOrGet be (emptyState (R := R)).cache
        ⟨f.fnIdOf, xs.map Val.shapeOf, (XFun.jitted f).stackOf⟩ g
      = (Except.ok a,
          ⟨[(⟨f.fnIdOf, xs.map Val.shapeOf, (XFun.jitted f).stackOf⟩, a)], 1⟩)
    from by simp [compileOrGet, cacheLookup, emptyState, hc]] at e1
  have e1c : (callX reg be (XFun.jitted f) emptyState xs).2.cache
      = ⟨[(⟨f.fnIdOf, xs.map Val.shapeOf, (XFun.jitted f).stackOf⟩, a)], 1⟩ := by
    rw [e1]
  have e1q : (callX reg be (XFun.jitted f) emptyState xs).2.queue = [] := by
    rw [e1]
  have e2 := callX_jit_eq reg be f (callX reg be (XFun.jitted f) emptyState xs).2
    ys g e1q hg2
  rw [show compileOrGet be (callX reg be (XFun.jitted f) emptyState xs).2.cache
        ⟨f.fnIdOf, ys.map Val.shapeOf, (XFun.jitted f).stackOf⟩ g
      = (Except.ok a,
          ⟨[(⟨f.fnIdOf, xs.map Val.shapeOf, (XFun.jitted f).stackOf⟩, a)], 1⟩)
    from by simp [e1c, compileOrGet, cacheLookup, hsh]] at e2
  have e2c : (callX reg be (XFun.jitted f)
      (callX reg be (XFun.jitted f) emptyState xs).2 ys).2.cache
      = ⟨[(⟨f.fnIdOf, xs.map Val.shapeOf, (XFun.jitted f).stackOf⟩, a)], 1⟩ := by
    rw [e2]
  have e2q : (callX reg be (XFun.jitted f)
      (callX reg be (XFun.jitted f) emptyState xs).2 ys).2.queue = [] := by
    rw [e2]
  refine ⟨by rw [e1c], by rw [e2c], by rw [e2], ?_⟩
  intro zs g' hne hg3
  have e3 := callX_jit_eq reg be f (callX reg be (XFun.jitted f)
    (callX reg be (XFun.jitted f) emptyState xs).2 ys).2 zs g' e2q hg3
  have hmiss : cacheLookup
      (⟨[(⟨f.fnIdOf, xs.map Val.shapeOf, (XFun.jitted f).stackOf⟩, a)], 1⟩ : CacheSt R)
      ⟨f.fnIdOf, zs.map Val.shapeOf, (XFun.jitted f).stackOf⟩ = none := by
    simp [cacheLookup, Fingerprint.mk.injEq]
    intro h
    exact absurd h.symm hne
  rw [e2c] at e3
  rw [e3]
  cases hbc : be.compile g' <;>
    simp [compileOrGet, hmiss, hbc]

theorem C3_fingerprint_stability_witness :
    (callX qreg (evalBE qreg) (XFun.jitted (XFun.base 0 squareQ))
        (callX qreg (evalBE qreg) (XFun.jitted (XFun.base 0 squareQ))
          emptyState [Val.scalar (3 : K)]).2
        [Val.scalar (4 : K)]).2.cache.compileCount = 1 :=
  (C3_fingerprint_stability K qreg (evalBE qreg) (XFun.base 0 squareQ)
    [Val.scalar 3] [Val.scalar 4] squareQ (evalArt qreg squareQ)
    rfl rfl rfl).2.1

/-- C1: transformation order does not change the numeric output — from
a fresh engine with the conforming backend, `jit(grad f)`, `grad f` and
`grad(jit f)` all return the same gradient value `v`, and the
arbitrarily nested tower `grad(jit(grad(jit(grad f))))` is well-defined
and returns exactly the value of the thrice-iterated reverse-mode
derivative of `f`. -/
theorem C1_transform_composition (R : Type) [Field R] (reg : Registry R)
    (fid : Nat) (g : TFun R) (xs : List (Val R)) (dg dg2 dg3 : TFun R)
    (v w : Val R)
    (h1 : gradIR g (xs.map Val.shapeOf) = some dg)
    (hv : evalT reg dg xs = some v)
    (h2 : gradIR dg (xs.map Val.shapeOf) = some dg2)
    (h3 : gradIR dg2 (xs.map Val.shapeOf) = some dg3)
    (hw : evalT reg dg3 xs = some w) :
    (callX reg (evalBE reg) (XFun.jitted (XFun.gradded (XFun.base fid g)))
        emptyState xs).1 = Except.ok v ∧
    (callX reg (evalBE reg) (XFun.gradded (XFun.base fid g))
        emptyState xs).1 = Except.ok v ∧
    (callX reg (evalBE reg) (XFun.gradded (XFun.jitted (XFun.base fid g)))
        emptyState xs).1 = Except.ok v ∧
    (callX reg (evalBE reg)
        (XFun.gradded (XFun.jitted (XFun.gradded (XFun.jitted
          (XFun.gradded (XFun.base fid g)))))) emptyState xs).1 = Except.ok w ∧
    (callX reg (evalBE reg)
        (XFun.gradded (XFun.gradded (XFun.gradded (XFun.base fid g))))
        emptyState xs).1 = Except.ok w := by
  refine ⟨?_, ?_, ?_, ?_, ?_⟩
  · exact jit_pipeline reg _ xs dg v (by simp [graphOf, h1]) hv
  · simp [callX, graphOf, h1, hv]
  · simp [callX, graphOf, h1, hv]
  · simp [callX, graphOf, h1, h2, h3, hw]
  · simp [callX, graphOf, h1, h2, h3, hw]

theorem C1_transform_composition_witness :
    (callX qreg (evalBE qreg)
        (XFun.gradded (XFun.jitted (XFun.gradded (XFun.jitted
          (XFun.gradded (XFun.base 0 cubeQ)))))) emptyState
        [Val.scalar (5 : K)]).1 = Except.ok (Val.scalar 6) ∧
    (callX qreg (evalBE qreg) (XFun.jitted (XFun.gradded (XFun.base 0 cubeQ)))
        emptyState [Val.scalar (5 : K)]).1 = Except.ok (Val.scalar 75) :=
  ⟨(C1_transform_composition K qreg 0 cubeQ [Val.scalar 5] dgCube dg2Cube dg3Cube
      (Val.scalar 75) (Val.scalar 6) (by decide) (by decide) (by decide)
      (by decide) (by decide)).2.2.2.1,
   (C1_transform_composition K qreg 0 cubeQ [Val.scalar 5] dgCube dg2Cube dg3Cube
      (Val.scalar 75) (Val.scalar 6) (by decide) (by decide) (by decide)
      (by decide) (by decide)).1⟩

section ListAux

lemma getD_map_lt {α β : Type _} (f : α → β) (l : List α) (i : Nat)
    (h : i < l.length) (d : β) (d' : α) :
    (l.map f).getD i d = f (l.getD i d') := by
  induction l generalizing i with
  | nil => simp at h
  | cons a t ih =>
      cases i with
      | zero => simp
      | succ j => simpa using ih j (by simpa using h)

lemma getD_zipWith_lt {α β γ : Type _} (f : α → β → γ) (l1 : List α)
    (l2 : List β) (i : Nat) (h1 : i < l1.length) (h2 : i < l2.length)
    (d1 : α) (d2 : β) (d : γ) :
    (List.zipWith f l1 l2).getD i d = f (l1.getD i d1) (l2.getD i d2) := by
  induction l1 generalizing i l2 with
  | nil => simp at h1
  | cons a t ih =>
      cases l2 with
      | nil => simp at h2
      | cons b u =>
          cases i with
          | zero => simp
          | succ j => simpa using ih u j (by simpa using h1) (by simpa using h2)

lemma getD_range_lt (n i : Nat) (h : i < n) (d : Nat) :
    (List.range n).getD i d = i := by
  simp [List.getD, List.getElem?_range h]

lemma mem_of_getD_mem {α : Type _} (l : List α) (i : Nat) (h : i < l.length)
    (d : α) : l.getD i d ∈ l := by
  induction l generalizing i with
  | nil => simp at h
  | cons a t ih =>
      cases i with
      | zero => simp
      | succ j =>
          have := ih j (by simpa using h)
          simp only [List.getD] at this ⊢
          exact List.mem_cons_of_mem a this

end ListAux

section EvalStepLemmas

variable {R : Type} [Field R]

lemma evalSteps_append (reg : Registry R) (env : List (Val R))
    (A B : List (Node R)) :
    evalSteps reg env (A ++ B)
      = (evalSteps reg env A).bind (fun e => evalSteps reg e B) := by
  induction A generalizing env with
  | nil => simp [evalSteps]
  | cons n ns ih =>
      simp only [List.cons_append, evalSteps]
      cases evalNode reg env n <;> simp [ih]

lemma evalSteps_suffix (reg : Registry R) (env : List (Val R))
    (ns : List (Node R)) (E : List (Val R))
    (h : evalSteps reg env ns = some E) : ∃ suf, E = env ++ suf := by
  induction ns generalizing env with
  | nil => exact ⟨[], by simpa [evalSteps] using h.symm⟩
  | cons n t ih =>
      simp only [evalSteps] at h
      cases hn : evalNode reg env n with
      | none => simp [hn] at h
      | some v =>
          rw [hn] at h
          obtain ⟨suf, hsuf⟩ := ih (env ++ [v]) (by simpa using h)
          exact ⟨v :: suf, by simpa using hsuf⟩

lemma evalSteps_length (reg : Registry R) (env : List (Val R))
    (ns : List (Node R)) (E : List (Val R))
    (h : evalSteps reg env ns = some E) :
    E.length = env.length + ns.length := by
  induction ns generalizing env with
  | nil => simp [evalSteps] at h; simp [← h]
  | cons n t ih =>
      simp only [evalSteps] at h
      cases hn : evalNode reg env n with
      | none => simp [hn] at h
      | some v =>
          rw [hn] at h
          have := ih (env ++ [v]) (by simpa using h)
          simp only [List.length_append, List.length_cons, List.length_nil]
            at this ⊢
          omega

lemma evalSteps_get?_mono (reg : Registry R) (env : List (Val R))
    (ns : List (Node R)) (E : List (Val R)) (i : Nat) (x : Val R)
    (h : evalSteps reg env ns = some E) (hx : env.get? i = some x) :
    E.get? i = some x := by
  obtain ⟨suf, rfl⟩ := evalSteps_suffix reg env ns E h
  rw [List.get?_append (List.get?_eq_some.mp hx).1]
  exact hx

end EvalStepLemmas

section ShapeSoundness

variable {R : Type} [Field R]

lemma ewB_shape (f : R → R → R) (a b : Val R) (s : Shape)
    (h : broadcastS a.shapeOf b.shapeOf = some s) : (ewB f a b).shapeOf = s := by
  cases a with
  | scalar x =>
      cases b with
      | scalar y => simp_all [broadcastS, Val.shapeOf, ewB]
      | vec bs => simp [broadcastS, Val.shapeOf, ewB] at h ⊢; exact h
      | mat bss =>
          simp [broadcastS, Val.shapeOf, ewB] at h ⊢
          cases bss <;> simp_all
  | vec as =>
      cases b with
      | scalar y => simp [broadcastS, Val.shapeOf, ewB] at h ⊢; exact h
      | vec bs =>
          simp only [broadcastS, Val.shapeOf, ewB] at h ⊢
          split at h
          · cases h; simp [List.length_zipWith]; omega
          · cases h
      | mat bss =>
          simp only [broadcastS, Val.shapeOf, ewB] at h ⊢
          split at h
          · cases h
            cases bss with
            | nil => simp [Val.shapeOf]
            | cons hb tb =>
                simp_all [Val.shapeOf, List.length_zipWith]
          · cases h
  | mat ass =>
      cases b with
      | scalar y =>
          simp [broadcastS, Val.shapeOf, ewB] at h ⊢
          cases ass <;> simp_all
      | vec bs =>
          simp only [broadcastS, Val.shapeOf, ewB] at h ⊢
          split at h
          · cases h
            cases ass with
            | nil => simp [Val.shapeOf]
            | cons ha ta =>
                simp_all [Val.shapeOf, List.length_zipWith]
          · cases h
      | mat bss =>
          simp only [broadcastS, Val.shapeOf, ewB] at h ⊢
          split at h
          · cases h
            cases ass with
            | nil =>
                cases bss with
                | nil => simp [Val.shapeOf]
                | cons hb tb => simp_all
            | cons ha ta =>
                cases bss with
                | nil => simp_all
                | cons hb tb =>
                    simp_all [Val.shapeOf, List.length_zipWith]
          · cases h

lemma ewU_shape (f : R → R) (a : Val R) : (ewU f a).shapeOf = a.shapeOf := by
  cases a with
  | scalar x => rfl
  | vec as => simp [ewU, Val.shapeOf]
  | mat ass => cases ass <;> simp [ewU, Val.shapeOf]

lemma evalPrimT_shape (reg : Registry R) (p : Prim) (vs : List (Val R))
    (s : Shape) (h : shapeInfer p (vs.map Val.shapeOf) = some s) :
    (evalPrimT reg p vs).shapeOf = s := by
  cases p with
  | padd =>
      rcases vs with _ | ⟨a, _ | ⟨b, _ | ⟨c, r⟩⟩⟩
      · simp [shapeInfer] at h
      · simp [shapeInfer] at h
      · exact ewB_shape _ a b s (by simpa [shapeInfer] using h)
      · simp [shapeInfer] at h
  | pmul =>
      rcases vs with _ | ⟨a, _ | ⟨b, _ | ⟨c, r⟩⟩⟩
      · simp [shapeInfer] at h
      · simp [shapeInfer] at h
      · exact ewB_shape _ a b s (by simpa [shapeInfer] using h)
      · simp [shapeInfer] at h
  | pdiv =>
      rcases vs with _ | ⟨a, _ | ⟨b, _ | ⟨c, r⟩⟩⟩
      · simp [shapeInfer] at h
      · simp [shapeInfer] at h
      · exact ewB_shape _ a b s (by simpa [shapeInfer] using h)
      · simp [shapeInfer] at h
  | pneg =>
      rcases vs with _ | ⟨a, _ | ⟨b, r⟩⟩
      · simp [shapeInfer] at h
      · simp_all [shapeInfer, evalPrimT, ewU_shape]
      · simp [shapeInfer] at h
  | pexp =>
      rcases vs with _ | ⟨a, _ | ⟨b, r⟩⟩
      · simp [shapeInfer] at h
      · simp_all [shapeInfer, evalPrimT, ewU_shape]
      · simp [shapeInfer] at h
  | psum =>
      rcases vs with _ | ⟨a, _ | ⟨b, r⟩⟩
      · simp [shapeInfer] at h
      · cases a <;> simp_all [shapeInfer, evalPrimT, Val.shapeOf]
      · simp [shapeInfer] at h
  | psumLast =>
      rcases vs with _ | ⟨a, _ | ⟨b, r⟩⟩
      · simp [shapeInfer] at h
      · cases a <;> simp_all [shapeInfer, evalPrimT, Val.shapeOf]
      · simp [shapeInfer] at h
  | pdot =>
      rcases vs with _ | ⟨a, _ | ⟨b, _ | ⟨c, r⟩⟩⟩
      · simp [shapeInfer] at h
      · simp [shapeInfer] at h
      · cases a with
        | scalar x => simp [shapeInfer, Val.shapeOf] at h
        | vec as =>
            cases b with
            | scalar y => simp [shapeInfer, Val.shapeOf] at h
            | vec bs => simp_all [shapeInfer, evalPrimT, Val.shapeOf]
            | mat bss => simp [shapeInfer, Val.shapeOf] at h
        | mat ass =>
            cases b with
            | scalar y => simp [shapeInfer, Val.shapeOf] at h
            | vec bs => simp_all [shapeInfer, evalPrimT, Val.shapeOf]
            | mat bss =>
                simp only [shapeInfer, List.map, Val.shapeOf] at h
                split at h
                · cases h
                  rename_i heq
                  cases ass with
                  | nil =>
                      cases bss with
                      | nil => simp [evalPrimT, Val.shapeOf]
                      | cons hb tb => simp [Val.shapeOf] at heq
                  | cons ha ta =>
                      simp_all [evalPrimT, Val.shapeOf]
                · cases h
      · simp [shapeInfer] at h
  | ptrans =>
      rcases vs with _ | ⟨a, _ | ⟨b, r⟩⟩
      · simp [shapeInfer] at h
      · cases a with
        | scalar x => simp [shapeInfer, Val.shapeOf] at h
        | vec as => simp [shapeInfer, Val.shapeOf] at h
        | mat ass =>
            simp only [shapeInfer, List.map, Val.shapeOf] at h
            split at h
            · cases h
              rename_i hpos
              rcases ass with _ | ⟨ha, ta⟩
              · simp at hpos
              · cases hn : ha.length with
                | zero => simp_all [List.headD]
                | succ n' =>
                    simp [evalPrimT, Val.shapeOf, List.headD, hn,
                      List.range_succ_eq_map, colL]
            · cases h
      · simp [shapeInfer] at h

end ShapeSoundness

section DotLemmas

variable {R : Type} [Field R]

lemma evalPrim_sound (reg : Registry R) (p : Prim) (vs : List (Val R))
    (v : Val R) (h : evalPrim reg p vs = some v) :
    v = evalPrimT reg p vs ∧ shapeInfer p (vs.map Val.shapeOf) = some v.shapeOf := by
  simp only [evalPrim] at h
  cases hs : shapeInfer p (vs.map Val.shapeOf) with
  | none => rw [hs] at h; simp at h
  | some s =>
      rw [hs] at h
      simp at h
      refine ⟨h.symm, ?_⟩
      rw [← h, evalPrimT_shape reg p vs s hs]

lemma dotL_nil_right (w : List R) : dotL w [] = 0 := by
  cases w <;> simp [dotL]

lemma dotL_comm (a b : List R) : dotL a b = dotL b a := by
  induction a generalizing b with
  | nil => simp [dotL, dotL_nil_right]
  | cons x t ih =>
      cases b with
      | nil => simp [dotL, dotL_nil_right]
      | cons y u => simp [dotL] at ih ⊢; rw [mul_comm, ih]

lemma dotL_replicate_zero (r : List R) (n : Nat) :
    (List.zipWith (· * ·) r (List.replicate n (0 : R))).sum = 0 := by
  induction r generalizing n with
  | nil => simp
  | cons c r' ih =>
      cases n with
      | zero => simp
      | succ k => simp [List.replicate_succ, ih k]

lemma dotL_pad (r w : List R) :
    dotL r ((List.range r.length).map (fun k => w.getD k 0)) = dotL w r := by
  induction r generalizing w with
  | nil => simp [dotL, dotL_nil_right]
  | cons c r' ih =>
      rw [List.length_cons, List.range_succ_eq_map, List.map_cons, List.map_map]
      cases w with
      | nil =>
          simp only [List.getD_nil, dotL, List.zipWith_cons_cons,
            List.sum_cons]
          rw [show ((fun _ => (0 : R)) ∘ Nat.succ) = (fun _ : Nat => (0 : R))
            from rfl]
          simp [List.map_const', dotL_replicate_zero]
      | cons y w' =>
          have harg : ((fun k => (y :: w').getD k 0) ∘ Nat.succ)
              = (fun k => w'.getD k 0) := by
            funext k
            simp
          rw [harg]
          simp only [List.getD_cons_zero, dotL, List.zipWith_cons_cons,
            List.sum_cons] at ih ⊢
          rw [mul_comm]
          congr 1
          exact ih w'

lemma headD_map_range {α : Type _} (f : Nat → α) (n : Nat) (hn : 0 < n)
    (d : α) : (((List.range n).map f).headD d) = f 0 := by
  cases n with
  | zero => omega
  | succ k => rw [List.range_succ_eq_map]; simp

lemma colL_of_trans (A : List (List R)) (n j : Nat) (hj : j < A.length) :
    colL ((List.range n).map (colL A)) j
      = (List.range n).map (fun k => (A.getD j []).getD k 0) := by
  simp only [colL, List.map_map]
  refine List.map_congr_left ?_
  intro k _
  simp only [Function.comp]
  exact getD_map_lt (fun r => r.getD k 0) A j hj 0 []

/-- Correctness of the batched matrix–vector rule: multiplying the
stacked vectors against the transpose reproduces, row by row, the
per-example matrix–vector product. -/
lemma pdot_trans_row (A : List (List R)) (r : List R) (n : Nat)
    (hr : r.length = n) (hn : 0 < n) :
    (List.range (((List.range n).map (colL A)).headD []).length).map
      (fun j => dotL r (colL ((List.range n).map (colL A)) j))
    = A.map (dotL · r) := by
  rw [headD_map_range (colL A) n hn]
  have hc : (colL A 0).length = A.length := by simp [colL]
  rw [hc]
  refine List.ext_getElem (by simp) ?_
  intro j hj hj2
  have hjA : j < A.length := by simpa using hj2
  rw [List.getElem_map, List.getElem_range, List.getElem_map]
  rw [colL_of_trans A n j hjA]
  have hgd : A.getD j [] = A[j] := by
    simp [List.getD, List.getElem?_eq_getElem hjA]
  rw [hgd, ← hr]
  exact dotL_pad r (A[j])

end DotLemmas

section BatchPrimLemmas

variable {R : Type} [Field R]

lemma shape_sc_elim (w : Val R) (h : w.shapeOf = Shape.sc) :
    ∃ x, w = Val.scalar x := by
  cases w <;> simp [Val.shapeOf] at h ⊢

lemma shape_vec_elim (w : Val R) (n : Nat) (h : w.shapeOf = Shape.vecS n) :
    ∃ xs, w = Val.vec xs ∧ xs.length = n := by
  cases w <;> simp [Val.shapeOf] at h ⊢
  exact h

lemma brel_mat_shape (B n : Nat) (hB : 0 < B) (wss : List (List R))
    (hlen : wss.length = B) (hrect : ∀ r ∈ wss, r.length = n) :
    (Val.mat wss).shapeOf = Shape.matS B n := by
  cases wss with
  | nil => simp at hlen; omega
  | cons h t =>
      simp [Val.shapeOf, hrect h (by simp)]
      simpa using hlen

/-- Soundness of the elementwise batching rule: when the rule's guard
holds, re-emitting the same broadcasting primitive on the batched
representations computes, slice by slice, the per-example elementwise
results. -/
lemma ew_batch_sound (f : R → R → R) (B : Nat) (hB : 0 < B)
    (ba bb : Bool) (sa sb s : Shape) (wa wb : Val R) (ga gb : Nat → Val R)
    (hbc : broadcastS sa sb = some s)
    (hba : ba = true → sa = s) (hbb : bb = true → sb = s)
    (hrank : s.rank ≤ 1) (hone : ba = true ∨ bb = true)
    (hA : ARel B ba sa wa ga) (hB2 : ARel B bb sb wb gb) :
    (∃ s', broadcastS wa.shapeOf wb.shapeOf = some s') ∧
    BRel B s (ewB f wa wb) (fun i => ewB f (ga i) (gb i)) ∧
    (∀ i, i < B → broadcastS (ga i).shapeOf (gb i).shapeOf = some s) := by
  cases s with
  | matS m n => simp [Shape.rank] at hrank
  | sc =>
      have hsa : sa = Shape.sc ∧ sb = Shape.sc := by
        cases sa <;> cases sb <;> simp_all [broadcastS]
      obtain ⟨rfl, rfl⟩ := hsa
      cases ba with
      | false =>
          cases bb with
          | false => simp at hone
          | true =>
              simp only [ARel, if_neg, Bool.false_eq_true, if_false,
                if_true, BRel] at hA hB2
              obtain ⟨hwa, hga⟩ := hA
              obtain ⟨xa, rfl⟩ := shape_sc_elim wa hwa
              obtain ⟨wbs, rfl, hlen, hgb⟩ := hB2
              refine ⟨⟨Shape.vecS B, by simp [broadcastS, Val.shapeOf, hlen]⟩, ?_, ?_⟩
              · refine ⟨wbs.map (f xa), by simp [ewB], by rw [List.length_map]; exact hlen, ?_⟩
                intro i hi
                simp only [hga i hi, hgb i hi]
                rw [getD_map_lt (f xa) wbs i (by omega) 0 0]
                simp [ewB]
              · intro i hi
                simp only [hga i hi, hgb i hi]
                simp [broadcastS, Val.shapeOf, ewB]
      | true =>
          simp only [ARel, if_true, BRel] at hA
          obtain ⟨was, rfl, hlen, hga⟩ := hA
          cases bb with
          | false =>
              simp only [ARel, Bool.false_eq_true, if_false] at hB2
              obtain ⟨hwb, hgb⟩ := hB2
              obtain ⟨xb, rfl⟩ := shape_sc_elim wb hwb
              refine ⟨⟨Shape.vecS B, by simp [broadcastS, Val.shapeOf, hlen]⟩, ?_, ?_⟩
              · refine ⟨was.map (f · xb), by simp [ewB], by rw [List.length_map]; exact hlen, ?_⟩
                intro i hi
                simp only [hga i hi, hgb i hi]
                rw [getD_map_lt (f · xb) was i (by omega) 0 0]
                simp [ewB]
              · intro i hi
                simp only [hga i hi, hgb i hi]
                simp [broadcastS, Val.shapeOf, ewB]
          | true =>
              simp only [ARel, if_true, BRel] at hB2
              obtain ⟨wbs, rfl, hlen2, hgb⟩ := hB2
              refine ⟨⟨Shape.vecS B, by simp [broadcastS, Val.shapeOf, hlen, hlen2]⟩,
                ?_, ?_⟩
              · refine ⟨List.zipWith f was wbs, by simp [ewB],
                  by simp [List.length_zipWith, hlen, hlen2], ?_⟩
                intro i hi
                simp only [hga i hi, hgb i hi]
                rw [getD_zipWith_lt f was wbs i (by omega) (by omega) 0 0 0]
                simp [ewB]
              · intro i hi
                simp only [hga i hi, hgb i hi]
                simp [broadcastS, Val.shapeOf, ewB]
  | vecS n =>
      -- possible per-example shape combinations yielding `vecS n`
      have hcomb : (sa = Shape.vecS n ∧ sb = Shape.vecS n) ∨
          (sa = Shape.vecS n ∧ sb = Shape.sc) ∨
          (sa = Shape.sc ∧ sb = Shape.vecS n) := by
        cases sa <;> cases sb <;> simp_all [broadcastS]
      rcases hcomb with ⟨rfl, rfl⟩ | ⟨rfl, rfl⟩ | ⟨rfl, rfl⟩
      · -- both per-example vectors of length n
        cases ba with
        | false =>
            cases bb with
            | false => simp at hone
            | true =>
                simp only [ARel, Bool.false_eq_true, if_false, if_true,
                  BRel] at hA hB2
                obtain ⟨hwa, hga⟩ := hA
                obtain ⟨as, rfl, hasl⟩ := shape_vec_elim wa n hwa
                obtain ⟨wbss, rfl, hlen, hrect, hgb⟩ := hB2
                refine ⟨⟨Shape.matS B n,
                  by rw [brel_mat_shape B n hB wbss hlen hrect]
                     simp [broadcastS, Val.shapeOf, hasl]⟩, ?_, ?_⟩
                · refine ⟨wbss.map (fun r => List.zipWith f as r),
                    by simp [ewB], by rw [List.length_map]; exact hlen, ?_, ?_⟩
                  · intro r hr
                    simp only [List.mem_map] at hr
                    obtain ⟨r0, hr0, rfl⟩ := hr
                    simp [List.length_zipWith, hasl, hrect r0 hr0]
                  · intro i hi
                    simp only [hga i hi, hgb i hi]
                    rw [getD_map_lt (fun r => List.zipWith f as r) wbss i
                      (by omega) [] []]
                    simp [ewB]
                · intro i hi
                  simp only [hga i hi, hgb i hi]
                  simp [broadcastS, Val.shapeOf, ewB, hasl]
                  rw [← List.getD_eq_getElem?_getD]
                  exact (hrect (wbss.getD i [])
                    (mem_of_getD_mem wbss i (by omega) [])).symm
        | true =>
            simp only [ARel, if_true, BRel] at hA
            obtain ⟨wass, rfl, hlen, hrect, hga⟩ := hA
            cases bb with
            | false =>
                simp only [ARel, Bool.false_eq_true, if_false] at hB2
                obtain ⟨hwb, hgb⟩ := hB2
                obtain ⟨bs, rfl, hbsl⟩ := shape_vec_elim wb n hwb
                refine ⟨⟨Shape.matS B n,
                  by rw [brel_mat_shape B n hB wass hlen hrect]
                     simp [broadcastS, Val.shapeOf, hbsl]⟩, ?_, ?_⟩
                · refine ⟨wass.map (fun r => List.zipWith f r bs),
                    by simp [ewB], by rw [List.length_map]; exact hlen, ?_, ?_⟩
                  · intro r hr
                    simp only [List.mem_map] at hr
                    obtain ⟨r0, hr0, rfl⟩ := hr
                    simp [List.length_zipWith, hbsl, hrect r0 hr0]
                  · intro i hi
                    simp only [hga i hi, hgb i hi]
                    rw [getD_map_lt (fun r => List.zipWith f r bs) wass i
                      (by omega) [] []]
                    simp [ewB]
                · intro i hi
                  simp only [hga i hi, hgb i hi]
                  simp [broadcastS, Val.shapeOf, ewB, hbsl]
                  rw [← List.getD_eq_getElem?_getD]
                  exact hrect (wass.getD i [])
                    (mem_of_getD_mem wass i (by omega) [])
            | true =>
                simp only [ARel, if_true, BRel] at hB2
                obtain ⟨wbss, rfl, hlen2, hrect2, hgb⟩ := hB2
                refine ⟨⟨Shape.matS B n,
                  by rw [brel_mat_shape B n hB wass hlen hrect,
                       brel_mat_shape B n hB wbss hlen2 hrect2]
                     simp [broadcastS]⟩, ?_, ?_⟩
                · refine ⟨List.zipWith (List.zipWith f) wass wbss,
                    by simp [ewB],
                    by simp [List.length_zipWith, hlen, hlen2], ?_, ?_⟩
                  · intro r hr
                    rw [List.mem_iff_getElem] at hr
                    obtain ⟨i, hi, rfl⟩ := hr
                    have hi1 : i < wass.length := by
                      simp [List.length_zipWith] at hi; omega
                    have hi2 : i < wbss.length := by
                      simp [List.length_zipWith] at hi; omega
                    rw [List.getElem_zipWith]
                    simp [List.length_zipWith,
                      hrect (wass[i]) (List.getElem_mem hi1),
                      hrect2 (wbss[i]) (List.getElem_mem hi2)]
                  · intro i hi
                    simp only [hga i hi, hgb i hi]
                    rw [getD_zipWith_lt (List.zipWith f) wass wbss i
                      (by omega) (by omega) [] [] []]
                    simp [ewB]
                · intro i hi
                  simp only [hga i hi, hgb i hi]
                  simp [broadcastS, Val.shapeOf, ewB]
                  rw [← List.getD_eq_getElem?_getD, ← List.getD_eq_getElem?_getD]
                  constructor
                  · rw [hrect _ (mem_of_getD_mem wass i (by omega) []),
                      hrect2 _ (mem_of_getD_mem wbss i (by omega) [])]
                  · exact hrect _ (mem_of_getD_mem wass i (by omega) [])
      · -- batched vector against an unbatched scalar
        have hbb' : bb = false := by
          cases bb with
          | false => rfl
          | true => exact absurd (hbb rfl) (by simp)
        subst hbb'
        have hba' : ba = true := by
          rcases hone with h | h
          · exact h
          · simp at h
        subst hba'
        simp only [ARel, if_true, Bool.false_eq_true, if_false, BRel] at hA hB2
        obtain ⟨wass, rfl, hlen, hrect, hga⟩ := hA
        obtain ⟨hwb, hgb⟩ := hB2
        obtain ⟨xb, rfl⟩ := shape_sc_elim wb hwb
        refine ⟨⟨Shape.matS B n,
          by rw [brel_mat_shape B n hB wass hlen hrect]
             simp [broadcastS, Val.shapeOf]⟩, ?_, ?_⟩
        · refine ⟨wass.map (List.map (f · xb)), by simp [ewB],
            by rw [List.length_map]; exact hlen, ?_, ?_⟩
          · intro r hr
            simp only [List.mem_map] at hr
            obtain ⟨r0, hr0, rfl⟩ := hr
            simp [hrect r0 hr0]
          · intro i hi
            simp only [hga i hi, hgb i hi]
            rw [getD_map_lt (List.map (f · xb)) wass i (by omega) [] []]
            simp [ewB]
        · intro i hi
          simp only [hga i hi, hgb i hi]
          simp [broadcastS, Val.shapeOf, ewB]
          rw [← List.getD_eq_getElem?_getD]
          exact hrect _ (mem_of_getD_mem wass i (by omega) [])
      · -- unbatched scalar against a batched vector
        have hba' : ba = false := by
          cases ba with
          | false => rfl
          | true => exact absurd (hba rfl) (by simp)
        subst hba'
        have hbb' : bb = true := by
          rcases hone with h | h
          · simp at h
          · exact h
        subst hbb'
        simp only [ARel, if_true, Bool.false_eq_true, if_false, BRel] at hA hB2
        obtain ⟨hwa, hga⟩ := hA
        obtain ⟨xa, rfl⟩ := shape_sc_elim wa hwa
        obtain ⟨wbss, rfl, hlen, hrect, hgb⟩ := hB2
        refine ⟨⟨Shape.matS B n,
          by rw [brel_mat_shape B n hB wbss hlen hrect]
             simp [broadcastS, Val.shapeOf]⟩, ?_, ?_⟩
        · refine ⟨wbss.map (List.map (f xa)), by simp [ewB],
            by rw [List.length_map]; exact hlen, ?_, ?_⟩
          · intro r hr
            simp only [List.mem_map] at hr
            obtain ⟨r0, hr0, rfl⟩ := hr
            simp [hrect r0 hr0]
          · intro i hi
            simp only [hga i hi, hgb i hi]
            rw [getD_map_lt (List.map (f xa)) wbss i (by omega) [] []]
            simp [ewB]
        · intro i hi
          simp only [hga i hi, hgb i hi]
          simp [broadcastS, Val.shapeOf, ewB]
          rw [← List.getD_eq_getElem?_getD]
          exact hrect _ (mem_of_getD_mem wbss i (by omega) [])

end BatchPrimLemmas

section VmapNodeSound

variable {R : Type} [Field R]

lemma list_get?_append_at {α : Type _} (l : List α) (x : α) (rest : List α) :
    (l ++ x :: rest).get? l.length = some x := by
  induction l with
  | nil => rfl
  | cons a t ih => simpa using ih

lemma list_get?_append_two {α : Type _} (l : List α) (x y : α) :
    (l ++ [x, y]).get? (l.length + 1) = some y := by
  rw [show l ++ [x, y] = (l ++ [x]) ++ [y] from by simp]
  rw [show l.length + 1 = (l ++ [x]).length from by simp]
  exact list_get?_append_at (l ++ [x]) y []

lemma get?_eq_some_getD {α : Type _} (l : List α) (t : Nat) (d : α)
    (h : t < l.length) : l.get? t = some (l.getD t d) := by
  simp [List.get?_eq_getElem?, List.getElem?_eq_getElem h,
    List.getD_eq_getElem?_getD]

lemma getD_of_get? {α : Type _} (l : List α) (t : Nat) (b d : α)
    (h : l.get? t = some b) : l.getD t d = b := by
  rw [List.getD_eq_getElem?_getD, ← List.get?_eq_getElem?, h]
  rfl

lemma shape_mat_elim (w : Val R) (m n : Nat)
    (h : w.shapeOf = Shape.matS m n) :
    ∃ A, w = Val.mat A ∧ A.length = m ∧ (A.headD []).length = n := by
  cases w <;> simp [Val.shapeOf] at h ⊢
  exact ⟨h.1, h.2⟩

lemma ewU_batch_sound (fn : R → R) (B : Nat) (s : Shape) (wa : Val R)
    (ga : Nat → Val R) (h : BRel B s wa ga) :
    BRel B s (ewU fn wa) (fun i => ewU fn (ga i)) := by
  cases s with
  | matS m n => simp [BRel] at h
  | sc =>
      obtain ⟨was, rfl, hlen, hg⟩ := h
      refine ⟨was.map fn, by simp [ewU], by simp [hlen], ?_⟩
      intro i hi
      simp only [hg i hi]
      rw [getD_map_lt fn was i (by omega) 0 0]
      simp [ewU]
  | vecS n =>
      obtain ⟨wss, rfl, hlen, hrect, hg⟩ := h
      refine ⟨wss.map (List.map fn), by simp [ewU], by simp [hlen], ?_, ?_⟩
      · intro r hr
        simp only [List.mem_map] at hr
        obtain ⟨r0, hr0, rfl⟩ := hr
        simp [hrect r0 hr0]
      · intro i hi
        simp only [hg i hi]
        rw [getD_map_lt (List.map fn) wss i (by omega) [] []]
        simp [ewU]

lemma unbatched_args_eval (B : Nat) (slots : List BSlot) (NE : List (Val R))
    (oldE : Nat → List (Val R))
    (hInv : SlotsInv B slots NE oldE)
    (hLen : ∀ i, i < B → (oldE i).length = slots.length) :
    ∀ (args : List Nat) (as : List BSlot),
    seqOpt (fun a => slots.get? a) args = some as →
    (∀ b ∈ as, b.batched = false) →
    ∃ ws : List (Val R),
      seqOpt (fun a => NE.get? a) (as.map (fun b => b.idx)) = some ws ∧
      (∀ i, i < B → seqOpt (fun a => (oldE i).get? a) args = some ws) ∧
      ws.map Val.shapeOf = as.map (fun b => b.shape) := by
  intro args
  induction args with
  | nil =>
      intro as h hub
      simp [seqOpt] at h
      subst h
      exact ⟨[], by simp [seqOpt], by simp [seqOpt], by simp⟩
  | cons t ts ih =>
      intro as h hub
      simp only [seqOpt] at h
      cases hb : slots.get? t with
      | none => rw [hb] at h; simp at h
      | some b =>
          rw [hb] at h
          cases hbs : seqOpt (fun a => slots.get? a) ts with
          | none => rw [hbs] at h; simp at h
          | some bs =>
              rw [hbs] at h
              simp at h
              subst h
              have hub' : b.batched = false := hub b (by simp)
              have ht : t < slots.length := (List.get?_eq_some.mp hb).1
              obtain ⟨w, hw, hrel⟩ := hInv t ht
              rw [getD_of_get? slots t b _ hb] at hw hrel
              rw [hub'] at hrel
              simp only [ARel, Bool.false_eq_true, if_false] at hrel
              obtain ⟨hsh, hval⟩ := hrel
              obtain ⟨ws, hws1, hws2, hws3⟩ := ih bs hbs
                (fun x hx => hub x (by simp [hx]))
              refine ⟨w :: ws, ?_, ?_, ?_⟩
              · rw [List.map_cons]
                simp only [seqOpt]
                rw [hw, hws1]
                rfl
              · intro i hi
                simp only [seqOpt]
                have : (oldE i).get? t = some w := by
                  rw [get?_eq_some_getD (oldE i) t (Val.scalar 0)
                    (by rw [hLen i hi]; exact ht)]
                  rw [hval i hi]
                rw [this, hws2 i hi]
                rfl
              · simp [hws3, hsh]

lemma seqOpt_one_inv {α β : Type _} (f : α → Option β) (args : List α)
    (a : β) (h : seqOpt f args = some [a]) :
    ∃ t1, args = [t1] ∧ f t1 = some a := by
  cases args with
  | nil => simp [seqOpt] at h
  | cons t1 rest =>
      cases rest with
      | nil =>
          simp only [seqOpt] at h
          cases hf : f t1 with
          | none => rw [hf] at h; simp at h
          | some x =>
              rw [hf] at h
              simp [seqOpt] at h
              exact ⟨t1, rfl, by rw [hf, h]⟩
      | cons t2 rest2 =>
          simp only [seqOpt] at h
          cases hf : f t1 with
          | none => rw [hf] at h; simp at h
          | some x =>
              rw [hf] at h
              cases hg : f t2 with
              | none => rw [hg] at h; simp at h
              | some y =>
                  rw [hg] at h
                  cases hr : seqOpt f rest2 with
                  | none => rw [hr] at h; simp at h
                  | some zs => rw [hr] at h; simp at h

lemma seqOpt_two_inv {α β : Type _} (f : α → Option β) (args : List α)
    (a b : β) (h : seqOpt f args = some [a, b]) :
    ∃ t1 t2, args = [t1, t2] ∧ f t1 = some a ∧ f t2 = some b := by
  cases args with
  | nil => simp [seqOpt] at h
  | cons t1 rest =>
      simp only [seqOpt] at h
      cases hf : f t1 with
      | none => rw [hf] at h; simp at h
      | some x =>
          rw [hf] at h
          cases hr : seqOpt f rest with
          | none => rw [hr] at h; simp at h
          | some ys =>
              rw [hr] at h
              simp at h
              obtain ⟨rfl, h2⟩ := h
              obtain ⟨t2, rfl, hf2⟩ := seqOpt_one_inv f rest b (by rw [hr, h2])
              exact ⟨t1, t2, rfl, hf, hf2⟩

lemma slot_fetch (B : Nat) (slots : List BSlot) (NE : List (Val R))
    (oldE : Nat → List (Val R)) (hInv : SlotsInv B slots NE oldE)
    (hLen : ∀ i, i < B → (oldE i).length = slots.length)
    (t : Nat) (a : BSlot) (hget : slots.get? t = some a) :
    ∃ wa, NE.get? a.idx = some wa ∧
      ARel B a.batched a.shape wa (fun i => (oldE i).getD t (Val.scalar 0)) ∧
      ∀ i, i < B → (oldE i).get? t = some ((oldE i).getD t (Val.scalar 0)) := by
  have ht := (List.get?_eq_some.mp hget).1
  obtain ⟨w, hw, hrel⟩ := hInv t ht
  rw [getD_of_get? slots t a _ hget] at hw hrel
  exact ⟨w, hw, hrel,
    fun i hi => get?_eq_some_getD _ _ _ (by rw [hLen i hi]; exact ht)⟩

lemma evalSteps_single (reg : Registry R) (NE : List (Val R)) (node : Node R)
    (NE1 : List (Val R)) (h : evalSteps reg NE [node] = some NE1) :
    ∃ w, evalNode reg NE node = some w ∧ NE1 = NE ++ [w] := by
  simp only [evalSteps] at h
  cases hn : evalNode reg NE node with
  | none => rw [hn] at h; simp at h
  | some w =>
      rw [hn] at h
      simp [evalSteps] at h
      exact ⟨w, rfl, h.symm⟩

lemma evalSteps_double (reg : Registry R) (NE : List (Val R))
    (n1 n2 : Node R) (NE1 : List (Val R))
    (h : evalSteps reg NE [n1, n2] = some NE1) :
    ∃ w1 w2, evalNode reg NE n1 = some w1 ∧
      evalNode reg (NE ++ [w1]) n2 = some w2 ∧ NE1 = NE ++ [w1, w2] := by
  simp only [evalSteps] at h
  cases hn : evalNode reg NE n1 with
  | none => rw [hn] at h; simp at h
  | some w1 =>
      rw [hn] at h
      simp only [Option.some_bind] at h
      cases hn2 : evalNode reg (NE ++ [w1]) n2 with
      | none => rw [hn2] at h; simp at h
      | some w2 =>
          rw [hn2] at h
          simp [evalSteps] at h
          exact ⟨w1, w2, rfl, hn2, by rw [← h]⟩

lemma ew_prim_step (reg : Registry R) (p : Prim) (f : R → R → R)
    (hpT : ∀ u v : Val R, evalPrimT reg p [u, v] = ewB f u v)
    (hpS : ∀ s1 s2, shapeInfer p [s1, s2] = broadcastS s1 s2)
    (B : Nat) (hB : 0 < B) (a b : BSlot) (wa wb : Val R) (ga gb : Nat → Val R)
    (s : Shape) (hbc : broadcastS a.shape b.shape = some s)
    (hba : a.batched = true → a.shape = s) (hbb : b.batched = true → b.shape = s)
    (hrank : s.rank ≤ 1) (hone : a.batched = true ∨ b.batched = true)
    (hA : ARel B a.batched a.shape wa ga)
    (hB2 : ARel B b.batched b.shape wb gb) :
    evalPrim reg p [wa, wb] = some (ewB f wa wb) ∧
    (∀ i, i < B → evalPrim reg p [ga i, gb i] = some (ewB f (ga i) (gb i))) ∧
    BRel B s (ewB f wa wb) (fun i => ewB f (ga i) (gb i)) := by
  obtain ⟨⟨s', hs'⟩, hbrel, hpex⟩ := ew_batch_sound f B hB a.batched b.batched
    a.shape b.shape s wa wb ga gb hbc hba hbb hrank hone hA hB2
  refine ⟨?_, ?_, hbrel⟩
  · simp [evalPrim, hpS, hs', hpT]
  · intro i hi
    simp [evalPrim, hpS, hpex i hi, hpT]

/-- Soundness of the batching rule for the dot-product primitive, in
all four supported batched/unbatched argument combinations. -/
lemma pdot_step_sound (reg : Registry R) (B : Nat) (hB : 0 < B)
    (arity : Nat)
    (slots : List BSlot) (nn : List (Node R)) (args : List Nat)
    (as : List BSlot) (delta : List (Node R)) (bs : BSlot)
    (NE NE1 : List (Val R)) (oldE : Nat → List (Val R))
    (hvn : batchRule (arity + nn.length) Prim.pdot as = some (delta, bs))
    (hmap : seqOpt (fun a => slots.get? a) args = some as)
    (htest : as.all (fun b => !b.batched) = false)
    (hNE1 : evalSteps reg NE delta = some NE1)
    (hInv : SlotsInv B slots NE oldE)
    (hLen : ∀ i, i < B → (oldE i).length = slots.length)
    (hNElen : NE.length = arity + nn.length) :
    ∃ v : Nat → Val R,
      (∀ i, i < B →
        evalNode reg (oldE i) (Node.prim Prim.pdot args) = some (v i)) ∧
      ∃ w, NE1.get? bs.idx = some w ∧ ARel B bs.batched bs.shape w v := by
  rcases as with _ | ⟨a, _ | ⟨b, _ | ⟨c, r⟩⟩⟩
  · simp [batchRule] at hvn
  · simp [batchRule] at hvn
  · obtain ⟨t1, t2, rfl, hg1, hg2⟩ := seqOpt_two_inv _ args a b hmap
    obtain ⟨wa, hwaNE, hrelA, holdA⟩ :=
      slot_fetch B slots NE oldE hInv hLen t1 a hg1
    obtain ⟨wb, hwbNE, hrelB, holdB⟩ :=
      slot_fetch B slots NE oldE hInv hLen t2 b hg2
    cases hba' : a.batched with
    | false =>
        cases hbb' : b.batched with
        | false => simp_all [List.all]
        | true =>
            rw [hba'] at hrelA
            rw [hbb'] at hrelB
            simp only [ARel, Bool.false_eq_true, if_false, if_true]
              at hrelA hrelB
            obtain ⟨hshA, hgaA⟩ := hrelA
            cases hsa : a.shape with
            | sc => simp [batchRule, hba', hbb', hsa] at hvn
            | matS m n =>
                cases hsb : b.shape with
                | sc => simp [batchRule, hba', hbb', hsa, hsb] at hvn
                | matS m2 n2 => simp [batchRule, hba', hbb', hsa, hsb] at hvn
                | vecS n' =>
                    simp only [batchRule, hba', hbb', hsa, hsb] at hvn
                    split at hvn
                    · rename_i hnn
                      subst hnn
                      simp only [Option.some.injEq, Prod.mk.injEq] at hvn
                      obtain ⟨hd, hb2⟩ := hvn
                      subst hd
                      subst hb2
                      rw [hsa] at hshA
                      obtain ⟨A, rfl, hAlen, hAhead⟩ :=
                        shape_mat_elim wa m n hshA
                      rw [hsb] at hrelB
                      obtain ⟨wbss, rfl, hBlen, hrect, hgb⟩ := hrelB
                      obtain ⟨w1, w2, hw1, hw2, hNE1eq⟩ :=
                        evalSteps_double reg NE _ _ NE1 hNE1
                      have hshA' : (Val.mat A).shapeOf = Shape.matS m n := hshA
                      simp only [evalNode, seqOpt, hwaNE, Option.some_bind,
                        Option.map_some'] at hw1
                      rw [show evalPrim reg Prim.ptrans [Val.mat A]
                          = (if 0 < m ∧ 0 < n
                              then some (Shape.matS n m) else none).map
                            (fun _ => evalPrimT reg Prim.ptrans [Val.mat A])
                        from by simp [evalPrim, hshA', shapeInfer]] at hw1
                      split at hw1
                      · rename_i hpos
                        simp only [Option.map_some', Option.some.injEq] at hw1
                        have hw1val : w1
                            = Val.mat ((List.range n).map (colL A)) := by
                          rw [← hw1, show evalPrimT reg Prim.ptrans
                              [Val.mat A] = Val.mat ((List.range
                                ((A.headD []).length)).map (colL A))
                              from rfl,
                            hAhead]
                        subst hw1val
                        have hTlen :
                            ((List.range n).map (colL A)).length = n := by
                          simp
                        have hThead :
                            ((((List.range n).map (colL A)).headD []).length)
                              = m := by
                          rw [headD_map_range (colL A) n hpos.2]
                          simp [colL, hAlen]
                        have hshT : (Val.mat ((List.range n).map
                            (colL A))).shapeOf = Shape.matS n m := by
                          simp only [Val.shapeOf]
                          rw [hTlen, hThead]
                        have hshB : (Val.mat wbss).shapeOf
                            = Shape.matS B n :=
                          brel_mat_shape B n hB wbss hBlen hrect
                        have hwb2 : (NE ++ [Val.mat ((List.range n).map
                            (colL A))]).get? b.idx = some (Val.mat wbss) := by
                          rw [List.get?_append (List.get?_eq_some.mp hwbNE).1]
                          exact hwbNE
                        have hbase : (NE ++ [Val.mat ((List.range n).map
                            (colL A))]).get? (arity + nn.length)
                            = some (Val.mat ((List.range n).map (colL A))) := by
                          rw [← hNElen]
                          exact list_get?_append_at NE _ []
                        simp only [evalNode, seqOpt, hwb2, hbase,
                          Option.some_bind, Option.map_some'] at hw2
                        rw [show evalPrim reg Prim.pdot
                            [Val.mat wbss,
                             Val.mat ((List.range n).map (colL A))]
                            = some (evalPrimT reg Prim.pdot
                              [Val.mat wbss,
                               Val.mat ((List.range n).map (colL A))])
                          from by simp [evalPrim, hshB, hshT, shapeInfer]]
                          at hw2
                        simp only [Option.some.injEq] at hw2
                        have hw2val : w2 = Val.mat (wbss.map (fun rr =>
                            (List.range ((((List.range n).map
                              (colL A)).headD []).length)).map
                              (fun j => dotL rr
                                (colL ((List.range n).map (colL A)) j)))) := by
                          rw [← hw2]
                          simp [evalPrimT]
                        subst hw2val
                        refine ⟨fun i => Val.vec (A.map
                          (dotL · (wbss.getD i []))), ?_,
                          Val.mat (wbss.map (fun rr =>
                            (List.range ((((List.range n).map
                              (colL A)).headD []).length)).map
                              (fun j => dotL rr
                                (colL ((List.range n).map (colL A)) j)))),
                          ?_, ?_⟩
                        · intro i hi
                          have hrow : (wbss.getD i []).length = n :=
                            hrect _ (mem_of_getD_mem wbss i (by omega) [])
                          simp only [evalNode, seqOpt, holdA i hi,
                            holdB i hi, Option.some_bind, Option.map_some']
                          simp only [hgaA i hi, hgb i hi]
                          rw [show evalPrim reg Prim.pdot
                              [Val.mat A, Val.vec (wbss.getD i [])]
                              = some (evalPrimT reg Prim.pdot
                                [Val.mat A, Val.vec (wbss.getD i [])])
                            from by
                              have hm : [Val.mat A,
                                  Val.vec (wbss.getD i [])].map Val.shapeOf
                                  = [Shape.matS m n, Shape.vecS n] := by
                                simp only [List.map_cons, List.map_nil, hshA']
                                simp only [Val.shapeOf, hrow]
                              rw [evalPrim, hm]
                              simp [shapeInfer]]
                          simp [evalPrimT]
                        · rw [hNE1eq]
                          show (NE ++ [_, _]).get? (arity + nn.length + 1) = _
                          rw [← hNElen]
                          exact list_get?_append_two NE _ _
                        · refine ⟨wbss.map (fun rr =>
                            (List.range ((((List.range n).map
                              (colL A)).headD []).length)).map
                              (fun j => dotL rr
                                (colL ((List.range n).map (colL A)) j))),
                            rfl, by simp [hBlen], ?_, ?_⟩
                          · intro rr hrr
                            simp only [List.mem_map] at hrr
                            obtain ⟨r0, hr0, rfl⟩ := hrr
                            simp only [List.length_map, List.length_range]
                            exact hThead
                          · intro i hi
                            rw [getD_map_lt _ wbss i (by omega) [] []]
                            have hrow : (wbss.getD i []).length = n :=
                              hrect _ (mem_of_getD_mem wbss i (by omega) [])
                            rw [pdot_trans_row A (wbss.getD i []) n hrow
                              hpos.2]
                      · simp at hw1
                    · simp at hvn
            | vecS n =>
                cases hsb : b.shape with
                | sc => simp [batchRule, hba', hbb', hsa, hsb] at hvn
                | matS m2 n2 => simp [batchRule, hba', hbb', hsa, hsb] at hvn
                | vecS n' =>
                    simp only [batchRule, hba', hbb', hsa, hsb] at hvn
                    split at hvn
                    · rename_i hnn
                      subst hnn
                      simp only [Option.some.injEq, Prod.mk.injEq] at hvn
                      obtain ⟨hd, hb2⟩ := hvn
                      subst hd
                      subst hb2
                      rw [hsa] at hshA
                      obtain ⟨as0, rfl, hasl⟩ := shape_vec_elim wa n hshA
                      rw [hsb] at hrelB
                      obtain ⟨wbss, rfl, hBlen, hrect, hgb⟩ := hrelB
                      have hshB : (Val.mat wbss).shapeOf = Shape.matS B n :=
                        brel_mat_shape B n hB wbss hBlen hrect
                      obtain ⟨w, hw, hNE1eq⟩ :=
                        evalSteps_single reg NE _ NE1 hNE1
                      have hep : evalPrim reg Prim.pdot
                          [Val.mat wbss, Val.vec as0]
                          = some (Val.vec (wbss.map (dotL · as0))) := by
                        have hm : [Val.mat wbss, Val.vec as0].map Val.shapeOf
                            = [Shape.matS B n, Shape.vecS n] := by
                          simp only [List.map_cons, List.map_nil, hshB]
                          simp [Val.shapeOf, hasl]
                        rw [evalPrim, hm]
                        simp [shapeInfer, evalPrimT]
                      have hwval : w = Val.vec (wbss.map (dotL · as0)) := by
                        simp only [evalNode, seqOpt, hwaNE, hwbNE,
                          Option.some_bind, Option.map_some', hep,
                          Option.some.injEq] at hw
                        exact hw.symm
                      subst hwval
                      refine ⟨fun i => Val.scalar
                        (dotL as0 (wbss.getD i [])), ?_,
                        Val.vec (wbss.map (dotL · as0)), ?_, ?_⟩
                      · intro i hi
                        have hrow : (wbss.getD i []).length = n :=
                          hrect _ (mem_of_getD_mem wbss i (by omega) [])
                        simp only [evalNode, seqOpt, holdA i hi, holdB i hi,
                          Option.some_bind, Option.map_some']
                        simp only [hgaA i hi, hgb i hi]
                        simp [evalPrim, Val.shapeOf, hasl, hrow, shapeInfer,
                          evalPrimT]
                        rw [← List.getD_eq_getElem?_getD]
                        exact hrow.symm
                      · rw [hNE1eq]
                        show (NE ++ [Val.vec (wbss.map (dotL · as0))]).get?
                          (arity + nn.length) = _
                        rw [← hNElen]
                        exact list_get?_append_at NE _ []
                      · refine ⟨wbss.map (dotL · as0), rfl,
                          by simp [hBlen], ?_⟩
                        intro i hi
                        rw [getD_map_lt _ wbss i (by omega) 0 []]
                        rw [dotL_comm]
                    · simp at hvn
    | true =>
            rw [hba'] at hrelA
            simp only [ARel, if_true] at hrelA
            cases hbb' : b.batched with
            | true =>
                rw [hbb'] at hrelB
                simp only [ARel, if_true] at hrelB
                cases hsa : a.shape with
                | sc => simp [batchRule, hba', hbb', hsa] at hvn
                | matS m2 n2 =>
                    rw [hsa] at hrelA
                    simp [BRel] at hrelA
                | vecS n =>
                    cases hsb : b.shape with
                    | sc => simp [batchRule, hba', hbb', hsa, hsb] at hvn
                    | matS m2 n2 =>
                        rw [hsb] at hrelB
                        simp [BRel] at hrelB
                    | vecS n' =>
                        simp only [batchRule, hba', hbb', hsa, hsb] at hvn
                        split at hvn
                        · rename_i hnn
                          subst hnn
                          simp only [Option.some.injEq, Prod.mk.injEq] at hvn
                          obtain ⟨hd, hb2⟩ := hvn
                          subst hd
                          subst hb2
                          rw [hsa] at hrelA
                          rw [hsb] at hrelB
                          obtain ⟨wass, rfl, hAlen, hArect, hga⟩ := hrelA
                          obtain ⟨wbss, rfl, hBlen, hBrect, hgb⟩ := hrelB
                          have hshA2 : (Val.mat wass).shapeOf
                              = Shape.matS B n :=
                            brel_mat_shape B n hB wass hAlen hArect
                          have hshB2 : (Val.mat wbss).shapeOf
                              = Shape.matS B n :=
                            brel_mat_shape B n hB wbss hBlen hBrect
                          obtain ⟨w1, w2, hw1, hw2, hNE1eq⟩ :=
                            evalSteps_double reg NE _ _ NE1 hNE1
                          have hep1 : evalPrim reg Prim.pmul
                              [Val.mat wass, Val.mat wbss]
                              = some (Val.mat (List.zipWith
                                (List.zipWith (· * ·)) wass wbss)) := by
                            simp [evalPrim, hshA2, hshB2, shapeInfer,
                              broadcastS, evalPrimT, ewB]
                          have hw1val : w1 = Val.mat (List.zipWith
                              (List.zipWith (· * ·)) wass wbss) := by
                            simp only [evalNode, seqOpt, hwaNE, hwbNE,
                              Option.some_bind, Option.map_some', hep1,
                              Option.some.injEq] at hw1
                            exact hw1.symm
                          subst hw1val
                          have hshW1 : (Val.mat (List.zipWith
                              (List.zipWith (· * ·)) wass wbss)).shapeOf
                              = Shape.matS B n := by
                            have := ewB_shape (R := R) (· * ·)
                              (Val.mat wass) (Val.mat wbss) (Shape.matS B n)
                              (by simp [hshA2, hshB2, broadcastS])
                            simpa [ewB] using this
                          have hbase : (NE ++ [Val.mat (List.zipWith
                              (List.zipWith (· * ·)) wass wbss)]).get?
                              (arity + nn.length)
                              = some (Val.mat (List.zipWith
                                (List.zipWith (· * ·)) wass wbss)) := by
                            rw [← hNElen]
                            exact list_get?_append_at NE _ []
                          have hep2 : evalPrim reg Prim.psumLast
                              [Val.mat (List.zipWith
                                (List.zipWith (· * ·)) wass wbss)]
                              = some (Val.vec ((List.zipWith
                                (List.zipWith (· * ·)) wass wbss).map
                                List.sum)) := by
                            simp [evalPrim, hshW1, shapeInfer, evalPrimT]
                          have hw2val : w2 = Val.vec ((List.zipWith
                              (List.zipWith (· * ·)) wass wbss).map
                              List.sum) := by
                            simp only [evalNode, seqOpt, hbase,
                              Option.some_bind, Option.map_some', hep2,
                              Option.some.injEq] at hw2
                            exact hw2.symm
                          subst hw2val
                          refine ⟨fun i => Val.scalar
                            (dotL (wass.getD i []) (wbss.getD i [])),
                            ?_, Val.vec ((List.zipWith
                              (List.zipWith (· * ·)) wass wbss).map
                              List.sum), ?_, ?_⟩
                          · intro i hi
                            have hrow1 : (wass.getD i []).length = n :=
                              hArect _ (mem_of_getD_mem wass i (by omega) [])
                            have hrow2 : (wbss.getD i []).length = n :=
                              hBrect _ (mem_of_getD_mem wbss i (by omega) [])
                            simp only [evalNode, seqOpt, holdA i hi,
                              holdB i hi, Option.some_bind, Option.map_some']
                            simp only [hga i hi, hgb i hi]
                            simp [evalPrim, Val.shapeOf, hrow1, hrow2,
                              shapeInfer, evalPrimT]
                            rw [← List.getD_eq_getElem?_getD,
                              ← List.getD_eq_getElem?_getD]
                            rw [hrow1, hrow2]
                          · rw [hNE1eq]
                            show (NE ++ [_, _]).get?
                              (arity + nn.length + 1) = _
                            rw [← hNElen]
                            rw [show NE ++ [Val.mat (List.zipWith
                                (List.zipWith (· * ·)) wass wbss),
                                Val.vec ((List.zipWith
                                (List.zipWith (· * ·)) wass wbss).map
                                List.sum)]
                              = (NE ++ [Val.mat (List.zipWith
                                (List.zipWith (· * ·)) wass wbss)])
                                ++ [Val.vec ((List.zipWith
                                (List.zipWith (· * ·)) wass wbss).map
                                List.sum)] from by simp]
                            rw [show NE.length + 1
                              = (NE ++ [Val.mat (List.zipWith
                                (List.zipWith (· * ·)) wass wbss)]).length
                              from by simp]
                            exact list_get?_append_at _ _ []
                          · refine ⟨(List.zipWith
                              (List.zipWith (· * ·)) wass wbss).map
                              List.sum, rfl,
                              by simp [List.length_zipWith, hAlen, hBlen],
                              ?_⟩
                            intro i hi
                            rw [getD_map_lt List.sum _ i
                              (by simp [List.length_zipWith]; omega) 0 []]
                            rw [getD_zipWith_lt (List.zipWith (· * ·))
                              wass wbss i (by omega) (by omega) [] [] []]
                            rfl
                        · simp at hvn
            | false =>
                rw [hbb'] at hrelB
                simp only [ARel, Bool.false_eq_true, if_false] at hrelB
                obtain ⟨hshB, hgbB⟩ := hrelB
                cases hsa : a.shape with
                | sc => simp [batchRule, hba', hbb', hsa] at hvn
                | matS m2 n2 =>
                    rw [hsa] at hrelA
                    simp [BRel] at hrelA
                | vecS n =>
                    cases hsb : b.shape with
                    | sc => simp [batchRule, hba', hbb', hsa, hsb] at hvn
                    | matS m2 n2 =>
                        simp [batchRule, hba', hbb', hsa, hsb] at hvn
                    | vecS n' =>
                        simp only [batchRule, hba', hbb', hsa, hsb] at hvn
                        split at hvn
                        · rename_i hnn
                          subst hnn
                          simp only [Option.some.injEq, Prod.mk.injEq] at hvn
                          obtain ⟨hd, hb2⟩ := hvn
                          subst hd
                          subst hb2
                          rw [hsa] at hrelA
                          obtain ⟨wass, rfl, hAlen, hArect, hga⟩ := hrelA
                          rw [hsb] at hshB
                          obtain ⟨bs0, rfl, hbsl⟩ := shape_vec_elim wb n hshB
                          have hshA2 : (Val.mat wass).shapeOf
                              = Shape.matS B n :=
                            brel_mat_shape B n hB wass hAlen hArect
                          obtain ⟨w, hw, hNE1eq⟩ :=
                            evalSteps_single reg NE _ NE1 hNE1
                          have hep : evalPrim reg Prim.pdot
                              [Val.mat wass, Val.vec bs0]
                              = some (Val.vec (wass.map (dotL · bs0))) := by
                            have hm : [Val.mat wass,
                                Val.vec bs0].map Val.shapeOf
                                = [Shape.matS B n, Shape.vecS n] := by
                              simp only [List.map_cons, List.map_nil, hshA2]
                              simp [Val.shapeOf, hbsl]
                            rw [evalPrim, hm]
                            simp [shapeInfer, evalPrimT]
                          have hwval : w = Val.vec (wass.map (dotL · bs0)) := by
                            simp only [evalNode, seqOpt, hwaNE, hwbNE,
                              Option.some_bind, Option.map_some', hep,
                              Option.some.injEq] at hw
                            exact hw.symm
                          subst hwval
                          refine ⟨fun i => Val.scalar
                            (dotL (wass.getD i []) bs0), ?_,
                            Val.vec (wass.map (dotL · bs0)), ?_, ?_⟩
                          · intro i hi
                            have hrow : (wass.getD i []).length = n :=
                              hArect _ (mem_of_getD_mem wass i (by omega) [])
                            simp only [evalNode, seqOpt, holdA i hi,
                              holdB i hi, Option.some_bind, Option.map_some']
                            simp only [hga i hi, hgbB i hi]
                            simp [evalPrim, Val.shapeOf, hrow, hbsl,
                              shapeInfer, evalPrimT]
                            rw [← List.getD_eq_getElem?_getD]
                            exact hrow
                          · rw [hNE1eq]
                            show (NE ++ [Val.vec (wass.map
                              (dotL · bs0))]).get? (arity + nn.length) = _
                            rw [← hNElen]
                            exact list_get?_append_at NE _ []
                          · refine ⟨wass.map (dotL · bs0), rfl,
                              by simp [hAlen], ?_⟩
                            intro i hi
                            rw [getD_map_lt _ wass i (by omega) 0 []]
                        · simp at hvn
  · simp [batchRule] at hvn

/-- Soundness of the per-primitive batching rules (the case of
`vmapNode` in which at least one argument carries the batch axis). -/
lemma batched_step_sound (reg : Registry R) (B : Nat) (hB : 0 < B)
    (arity : Nat)
    (slots : List BSlot) (nn : List (Node R)) (p : Prim) (args : List Nat)
    (as : List BSlot) (delta : List (Node R)) (bs : BSlot)
    (NE NE1 : List (Val R)) (oldE : Nat → List (Val R))
    (hvn : batchRule (arity + nn.length) p as = some (delta, bs))
    (hmap : seqOpt (fun a => slots.get? a) args = some as)
    (htest : as.all (fun b => !b.batched) = false)
    (hNE1 : evalSteps reg NE delta = some NE1)
    (hInv : SlotsInv B slots NE oldE)
    (hLen : ∀ i, i < B → (oldE i).length = slots.length)
    (hNElen : NE.length = arity + nn.length) :
    ∃ v : Nat → Val R,
      (∀ i, i < B → evalNode reg (oldE i) (Node.prim p args) = some (v i)) ∧
      ∃ w, NE1.get? bs.idx = some w ∧ ARel B bs.batched bs.shape w v := by
  cases p with
  | psumLast => rcases as with _ | ⟨a, _ | ⟨c, r⟩⟩ <;> simp [batchRule] at hvn
  | ptrans => rcases as with _ | ⟨a, _ | ⟨c, r⟩⟩ <;> simp [batchRule] at hvn
  | padd =>
      rcases as with _ | ⟨a, _ | ⟨b, _ | ⟨c, r⟩⟩⟩
      · simp [batchRule] at hvn
      · simp [batchRule] at hvn
      · simp only [batchRule, batchRule.batchEw] at hvn
        cases hbc : broadcastS a.shape b.shape with
        | none => rw [hbc] at hvn; simp at hvn
        | some s =>
            simp only [hbc] at hvn
            split at hvn
            · rename_i hguard
              simp only [Option.some.injEq, Prod.mk.injEq] at hvn
              obtain ⟨hd, hb2⟩ := hvn
              subst hd
              subst hb2
              obtain ⟨t1, t2, rfl, hg1, hg2⟩ := seqOpt_two_inv _ args a b hmap
              obtain ⟨wa, hwaNE, hrelA, holdA⟩ :=
                slot_fetch B slots NE oldE hInv hLen t1 a hg1
              obtain ⟨wb, hwbNE, hrelB, holdB⟩ :=
                slot_fetch B slots NE oldE hInv hLen t2 b hg2
              have hone : a.batched = true ∨ b.batched = true := by
                cases ha' : a.batched <;> cases hb' : b.batched <;>
                  simp_all [List.all]
              obtain ⟨hepB, hepEx, hbrel⟩ := ew_prim_step reg Prim.padd (· + ·)
                (fun u v => rfl) (fun s1 s2 => rfl) B hB a b wa wb _ _ s hbc
                hguard.1 hguard.2.1 hguard.2.2 hone hrelA hrelB
              obtain ⟨w, hw, hNE1eq⟩ := evalSteps_single reg NE _ NE1 hNE1
              have hwval : w = ewB (· + ·) wa wb := by
                simp only [evalNode, seqOpt, hwaNE, hwbNE, Option.some_bind,
                  Option.map_some', hepB, Option.some.injEq] at hw
                exact hw.symm
              subst hwval
              refine ⟨fun i => ewB (· + ·) ((oldE i).getD t1 (Val.scalar 0))
                ((oldE i).getD t2 (Val.scalar 0)), ?_, ewB (· + ·) wa wb,
                ?_, ?_⟩
              · intro i hi
                simp only [evalNode, seqOpt, holdA i hi, holdB i hi,
                  Option.some_bind, Option.map_some']
                exact hepEx i hi
              · rw [hNE1eq]
                show (NE ++ [ewB (· + ·) wa wb]).get? (arity + nn.length) = _
                rw [← hNElen]
                exact list_get?_append_at NE _ []
              · simpa [ARel] using hbrel
            · simp at hvn
      · simp [batchRule] at hvn
  | pmul =>
      rcases as with _ | ⟨a, _ | ⟨b, _ | ⟨c, r⟩⟩⟩
      · simp [batchRule] at hvn
      · simp [batchRule] at hvn
      · simp only [batchRule, batchRule.batchEw] at hvn
        cases hbc : broadcastS a.shape b.shape with
        | none => rw [hbc] at hvn; simp at hvn
        | some s =>
            simp only [hbc] at hvn
            split at hvn
            · rename_i hguard
              simp only [Option.some.injEq, Prod.mk.injEq] at hvn
              obtain ⟨hd, hb2⟩ := hvn
              subst hd
              subst hb2
              obtain ⟨t1, t2, rfl, hg1, hg2⟩ := seqOpt_two_inv _ args a b hmap
              obtain ⟨wa, hwaNE, hrelA, holdA⟩ :=
                slot_fetch B slots NE oldE hInv hLen t1 a hg1
              obtain ⟨wb, hwbNE, hrelB, holdB⟩ :=
                slot_fetch B slots NE oldE hInv hLen t2 b hg2
              have hone : a.batched = true ∨ b.batched = true := by
                cases ha' : a.batched <;> cases hb' : b.batched <;>
                  simp_all [List.all]
              obtain ⟨hepB, hepEx, hbrel⟩ := ew_prim_step reg Prim.pmul (· * ·)
                (fun u v => rfl) (fun s1 s2 => rfl) B hB a b wa wb _ _ s hbc
                hguard.1 hguard.2.1 hguard.2.2 hone hrelA hrelB
              obtain ⟨w, hw, hNE1eq⟩ := evalSteps_single reg NE _ NE1 hNE1
              have hwval : w = ewB (· * ·) wa wb := by
                simp only [evalNode, seqOpt, hwaNE, hwbNE, Option.some_bind,
                  Option.map_some', hepB, Option.some.injEq] at hw
                exact hw.symm
              subst hwval
              refine ⟨fun i => ewB (· * ·) ((oldE i).getD t1 (Val.scalar 0))
                ((oldE i).getD t2 (Val.scalar 0)), ?_, ewB (· * ·) wa wb,
                ?_, ?_⟩
              · intro i hi
                simp only [evalNode, seqOpt, holdA i hi, holdB i hi,
                  Option.some_bind, Option.map_some']
                exact hepEx i hi
              · rw [hNE1eq]
                show (NE ++ [ewB (· * ·) wa wb]).get? (arity + nn.length) = _
                rw [← hNElen]
                exact list_get?_append_at NE _ []
              · simpa [ARel] using hbrel
            · simp at hvn
      · simp [batchRule] at hvn
  | pdiv =>
      rcases as with _ | ⟨a, _ | ⟨b, _ | ⟨c, r⟩⟩⟩
      · simp [batchRule] at hvn
      · simp [batchRule] at hvn
      · simp only [batchRule, batchRule.batchEw] at hvn
        cases hbc : broadcastS a.shape b.shape with
        | none => rw [hbc] at hvn; simp at hvn
        | some s =>
            simp only [hbc] at hvn
            split at hvn
            · rename_i hguard
              simp only [Option.some.injEq, Prod.mk.injEq] at hvn
              obtain ⟨hd, hb2⟩ := hvn
              subst hd
              subst hb2
              obtain ⟨t1, t2, rfl, hg1, hg2⟩ := seqOpt_two_inv _ args a b hmap
              obtain ⟨wa, hwaNE, hrelA, holdA⟩ :=
                slot_fetch B slots NE oldE hInv hLen t1 a hg1
              obtain ⟨wb, hwbNE, hrelB, holdB⟩ :=
                slot_fetch B slots NE oldE hInv hLen t2 b hg2
              have hone : a.batched = true ∨ b.batched = true := by
                cases ha' : a.batched <;> cases hb' : b.batched <;>
                  simp_all [List.all]
              obtain ⟨hepB, hepEx, hbrel⟩ := ew_prim_step reg Prim.pdiv (· / ·)
                (fun u v => rfl) (fun s1 s2 => rfl) B hB a b wa wb _ _ s hbc
                hguard.1 hguard.2.1 hguard.2.2 hone hrelA hrelB
              obtain ⟨w, hw, hNE1eq⟩ := evalSteps_single reg NE _ NE1 hNE1
              have hwval : w = ewB (· / ·) wa wb := by
                simp only [evalNode, seqOpt, hwaNE, hwbNE, Option.some_bind,
                  Option.map_some', hepB, Option.some.injEq] at hw
                exact hw.symm
              subst hwval
              refine ⟨fun i => ewB (· / ·) ((oldE i).getD t1 (Val.scalar 0))
                ((oldE i).getD t2 (Val.scalar 0)), ?_, ewB (· / ·) wa wb,
                ?_, ?_⟩
              · intro i hi
                simp only [evalNode, seqOpt, holdA i hi, holdB i hi,
                  Option.some_bind, Option.map_some']
                exact hepEx i hi
              · rw [hNE1eq]
                show (NE ++ [ewB (· / ·) wa wb]).get? (arity + nn.length) = _
                rw [← hNElen]
                exact list_get?_append_at NE _ []
              · simpa [ARel] using hbrel
            · simp at hvn
      · simp [batchRule] at hvn
  | pneg =>
      rcases as with _ | ⟨a, _ | ⟨c, r⟩⟩
      · simp [batchRule] at hvn
      · simp only [batchRule, Option.some.injEq, Prod.mk.injEq] at hvn
        obtain ⟨hd, hb2⟩ := hvn
        subst hd
        subst hb2
        obtain ⟨t1, rfl, hg1⟩ := seqOpt_one_inv _ args a hmap
        obtain ⟨wa, hwaNE, hrelA, holdA⟩ :=
          slot_fetch B slots NE oldE hInv hLen t1 a hg1
        have hab : a.batched = true := by
          cases ha' : a.batched <;> simp_all [List.all]
        rw [hab] at hrelA
        simp only [ARel, if_true] at hrelA
        have hbrel := ewU_batch_sound (fun x => -x) B a.shape wa _ hrelA
        obtain ⟨w, hw, hNE1eq⟩ := evalSteps_single reg NE _ NE1 hNE1
        have hwval : w = ewU (fun x => -x) wa := by
          simp only [evalNode, seqOpt, hwaNE, Option.some_bind,
            Option.map_some', evalPrim, shapeInfer, evalPrimT,
            List.map_cons, List.map_nil, Option.some.injEq] at hw
          exact hw.symm
        subst hwval
        refine ⟨fun i => ewU (fun x => -x) ((oldE i).getD t1 (Val.scalar 0)),
          ?_, ewU (fun x => -x) wa, ?_, ?_⟩
        · intro i hi
          simp only [evalNode, seqOpt, holdA i hi, Option.some_bind,
            Option.map_some']
          simp [evalPrim, shapeInfer, evalPrimT]
        · rw [hNE1eq]
          show (NE ++ [ewU (fun x => -x) wa]).get? (arity + nn.length) = _
          rw [← hNElen]
          exact list_get?_append_at NE _ []
        · simpa [ARel] using hbrel
      · simp [batchRule] at hvn
  | pexp =>
      rcases as with _ | ⟨a, _ | ⟨c, r⟩⟩
      · simp [batchRule] at hvn
      · simp only [batchRule, Option.some.injEq, Prod.mk.injEq] at hvn
        obtain ⟨hd, hb2⟩ := hvn
        subst hd
        subst hb2
        obtain ⟨t1, rfl, hg1⟩ := seqOpt_one_inv _ args a hmap
        obtain ⟨wa, hwaNE, hrelA, holdA⟩ :=
          slot_fetch B slots NE oldE hInv hLen t1 a hg1
        have hab : a.batched = true := by
          cases ha' : a.batched <;> simp_all [List.all]
        rw [hab] at hrelA
        simp only [ARel, if_true] at hrelA
        have hbrel := ewU_batch_sound reg.expFn B a.shape wa _ hrelA
        obtain ⟨w, hw, hNE1eq⟩ := evalSteps_single reg NE _ NE1 hNE1
        have hwval : w = ewU reg.expFn wa := by
          simp only [evalNode, seqOpt, hwaNE, Option.some_bind,
            Option.map_some', evalPrim, shapeInfer, evalPrimT,
            List.map_cons, List.map_nil, Option.some.injEq] at hw
          exact hw.symm
        subst hwval
        refine ⟨fun i => ewU reg.expFn ((oldE i).getD t1 (Val.scalar 0)),
          ?_, ewU reg.expFn wa, ?_, ?_⟩
        · intro i hi
          simp only [evalNode, seqOpt, holdA i hi, Option.some_bind,
            Option.map_some']
          simp [evalPrim, shapeInfer, evalPrimT]
        · rw [hNE1eq]
          show (NE ++ [ewU reg.expFn wa]).get? (arity + nn.length) = _
          rw [← hNElen]
          exact list_get?_append_at NE _ []
        · simpa [ARel] using hbrel
      · simp [batchRule] at hvn
  | psum =>
      rcases as with _ | ⟨a, _ | ⟨c, r⟩⟩
      · simp [batchRule] at hvn
      · have hab : a.batched = true := by
          cases ha' : a.batched <;> simp_all [List.all]
        obtain ⟨t1, rfl, hg1⟩ := seqOpt_one_inv _ args a hmap
        obtain ⟨wa, hwaNE, hrelA, holdA⟩ :=
          slot_fetch B slots NE oldE hInv hLen t1 a hg1
        rw [hab] at hrelA
        simp only [ARel, if_true] at hrelA
        cases hshape : a.shape with
        | matS m n =>
            simp [batchRule, hshape] at hvn
        | sc =>
            simp only [batchRule, hshape, Option.some.injEq,
              Prod.mk.injEq] at hvn
            obtain ⟨hd, hb2⟩ := hvn
            subst hd
            subst hb2
            rw [hshape] at hrelA
            obtain ⟨was, rfl, hlen, hg⟩ := hrelA
            have hNE1eq : NE1 = NE := by
              simp [evalSteps] at hNE1
              exact hNE1.symm
            refine ⟨fun i => Val.scalar (was.getD i 0), ?_, Val.vec was,
              ?_, ?_⟩
            · intro i hi
              simp only [evalNode, seqOpt, holdA i hi, Option.some_bind,
                Option.map_some']
              simp only [hg i hi]
              simp [evalPrim, shapeInfer, evalPrimT, Val.shapeOf]
            · rw [hNE1eq]
              exact hwaNE
            · exact ⟨was, rfl, hlen, fun i _ => rfl⟩
        | vecS n =>
            simp only [batchRule, hshape, Option.some.injEq,
              Prod.mk.injEq] at hvn
            obtain ⟨hd, hb2⟩ := hvn
            subst hd
            subst hb2
            rw [hshape] at hrelA
            obtain ⟨wass, rfl, hlen, hrect, hg⟩ := hrelA
            have hmsh : (Val.mat wass).shapeOf = Shape.matS B n :=
              brel_mat_shape B n hB wass hlen hrect
            obtain ⟨w, hw, hNE1eq⟩ := evalSteps_single reg NE _ NE1 hNE1
            have hwval : w = Val.vec (wass.map List.sum) := by
              have hep : evalPrim reg Prim.psumLast [Val.mat wass]
                  = some (Val.vec (wass.map List.sum)) := by
                simp [evalPrim, hmsh, shapeInfer, evalPrimT]
              simp only [evalNode, seqOpt, hwaNE, Option.some_bind,
                Option.map_some', hep, Option.some.injEq] at hw
              exact hw.symm
            subst hwval
            refine ⟨fun i => Val.scalar ((wass.getD i []).sum), ?_,
              Val.vec (wass.map List.sum), ?_, ?_⟩
            · intro i hi
              simp only [evalNode, seqOpt, holdA i hi, Option.some_bind,
                Option.map_some']
              simp only [hg i hi]
              simp [evalPrim, shapeInfer, evalPrimT, Val.shapeOf]
            · rw [hNE1eq]
              show (NE ++ [Val.vec (wass.map List.sum)]).get?
                (arity + nn.length) = _
              rw [← hNElen]
              exact list_get?_append_at NE _ []
            · refine ⟨wass.map List.sum, rfl, by simp [hlen], ?_⟩
              intro i hi
              rw [getD_map_lt List.sum wass i (by omega) 0 []]
      · simp [batchRule] at hvn
  | pdot =>
      exact pdot_step_sound reg B hB arity slots nn args as delta bs NE
        NE1 oldE hvn hmap htest hNE1 hInv hLen hNElen

/-- Soundness of one step of the batching interpreter: if the rewritten
nodes evaluate (in the batched world), then the original node evaluates
on every example, and the new slot's value stacks exactly the
per-example results. -/
lemma vmapNode_sound (reg : Registry R) (B : Nat) (hB : 0 < B)
    (arity : Nat) (bxs : List (Val R)) (hbxs : bxs.length = arity)
    (slots : List BSlot) (nn : List (Node R)) (n : Node R)
    (delta : List (Node R)) (bs : BSlot)
    (NE NE1 : List (Val R)) (oldE : Nat → List (Val R))
    (hvn : vmapNode slots (arity + nn.length) n = some (delta, bs))
    (hNE : evalSteps reg bxs nn = some NE)
    (hNE1 : evalSteps reg NE delta = some NE1)
    (hInv : SlotsInv B slots NE oldE)
    (hLen : ∀ i, i < B → (oldE i).length = slots.length) :
    ∃ v : Nat → Val R,
      (∀ i, i < B → evalNode reg (oldE i) n = some (v i)) ∧
      ∃ w, NE1.get? bs.idx = some w ∧ ARel B bs.batched bs.shape w v := by
  have hNElen : NE.length = arity + nn.length := by
    have := evalSteps_length reg bxs nn NE hNE
    omega
  cases n with
  | lit litv =>
      simp only [vmapNode, Option.some.injEq, Prod.mk.injEq] at hvn
      obtain ⟨hd, hb⟩ := hvn
      subst hd
      subst hb
      obtain ⟨w, hw, hNE1eq⟩ := evalSteps_single reg NE _ NE1 hNE1
      simp only [evalNode, Option.some.injEq] at hw
      subst hw
      refine ⟨fun _ => litv, fun i _ => by simp [evalNode], litv, ?_, ?_⟩
      · rw [hNE1eq]
        show (NE ++ [litv]).get? (arity + nn.length) = some litv
        rw [← hNElen]
        exact list_get?_append_at NE litv []
      · exact ⟨rfl, fun i _ => rfl⟩
  | prim p args =>
      simp only [vmapNode] at hvn
      cases hmap : seqOpt (fun a => slots.get? a) args with
      | none => rw [hmap] at hvn; simp at hvn
      | some as =>
          rw [hmap] at hvn
          simp only [Option.some_bind] at hvn
          cases htest : as.all (fun b => !b.batched) with
          | true =>
              rw [htest] at hvn
              simp only [if_true] at hvn
              cases hs : shapeInfer p (as.map (fun b => b.shape)) with
              | none => rw [hs] at hvn; simp at hvn
              | some s =>
                  rw [hs] at hvn
                  simp only [Option.map_some', Option.some.injEq,
                    Prod.mk.injEq] at hvn
                  obtain ⟨hd, hb⟩ := hvn
                  subst hd
                  subst hb
                  have hub : ∀ b ∈ as, b.batched = false := by
                    intro b hbm
                    have := List.all_eq_true.mp htest b hbm
                    simpa using this
                  obtain ⟨ws, hws1, hws2, hsh⟩ :=
                    unbatched_args_eval B slots NE oldE hInv hLen args as hmap hub
                  have hep : evalPrim reg p ws = some (evalPrimT reg p ws) := by
                    simp [evalPrim, hsh, hs]
                  obtain ⟨w, hw, hNE1eq⟩ := evalSteps_single reg NE _ NE1 hNE1
                  have hwval : w = evalPrimT reg p ws := by
                    simp only [evalNode, hws1, Option.some_bind, hep,
                      Option.some.injEq] at hw
                    exact hw.symm
                  subst hwval
                  refine ⟨fun _ => evalPrimT reg p ws, ?_, evalPrimT reg p ws,
                    ?_, ?_⟩
                  · intro i hi
                    simp only [evalNode, hws2 i hi, Option.some_bind, hep]
                  · rw [hNE1eq]
                    show (NE ++ [evalPrimT reg p ws]).get? (arity + nn.length)
                      = some (evalPrimT reg p ws)
                    rw [← hNElen]
                    exact list_get?_append_at NE _ []
                  · refine ⟨?_, fun i _ => rfl⟩
                    have : shapeInfer p (ws.map Val.shapeOf) = some s := by
                      rw [hsh]; exact hs
                    exact evalPrimT_shape reg p ws s this
          | false =>
              rw [htest] at hvn
              simp only [Bool.false_eq_true, if_false] at hvn
              exact batched_step_sound reg B hB arity slots nn p args
                as delta bs NE NE1 oldE hvn hmap htest hNE1 hInv hLen
                hNElen

lemma list_getD_append_lt {α : Type _} (l r : List α) (i : Nat)
    (hi : i < l.length) (d : α) : (l ++ r).getD i d = l.getD i d := by
  rw [List.getD_eq_getElem?_getD, List.getD_eq_getElem?_getD,
    List.getElem?_append, if_pos hi]

lemma arel_congr (B : Nat) (bb : Bool) (s : Shape) (w : Val R)
    (g g' : Nat → Val R) (hgg : ∀ i, i < B → g' i = g i)
    (h : ARel B bb s w g) : ARel B bb s w g' := by
  cases bb with
  | false =>
      simp only [ARel, Bool.false_eq_true, if_false] at h ⊢
      exact ⟨h.1, fun i hi => (hgg i hi).trans (h.2 i hi)⟩
  | true =>
      simp only [ARel, if_true] at h ⊢
      cases s with
      | sc =>
          obtain ⟨ws, rfl, hlen, hg⟩ := h
          exact ⟨ws, rfl, hlen, fun i hi => (hgg i hi).trans (hg i hi)⟩
      | vecS n =>
          obtain ⟨wss, rfl, hlen, hrect, hg⟩ := h
          exact ⟨wss, rfl, hlen, hrect,
            fun i hi => (hgg i hi).trans (hg i hi)⟩
      | matS m n => simp [BRel] at h

lemma vmapSteps_extends (arity : Nat) (ns : List (Node R))
    (slots : List BSlot) (nn nnF : List (Node R)) (slotsF : List BSlot)
    (h : vmapSteps arity ns slots nn = some (nnF, slotsF)) :
    ∃ ext, nnF = nn ++ ext := by
  induction ns generalizing slots nn with
  | nil =>
      simp only [vmapSteps, Option.some.injEq, Prod.mk.injEq] at h
      exact ⟨[], by simp [← h.1]⟩
  | cons n t ih =>
      simp only [vmapSteps] at h
      cases hv : vmapNode slots (arity + nn.length) n with
      | none => rw [hv] at h; simp at h
      | some r =>
          rw [hv] at h
          simp only [Option.some_bind] at h
          obtain ⟨ext, hext⟩ := ih _ _ h
          exact ⟨r.1 ++ ext, by rw [hext, List.append_assoc]⟩

/-- Soundness of the batching interpreter over a whole node list: if the
rewritten trace evaluates on the batched inputs, each node of the
original trace evaluates on every per-example environment, and the
slot invariant carries to the final environments. -/
lemma vmapSteps_sound (reg : Registry R) (B : Nat) (hB : 0 < B)
    (arity : Nat) (bxs : List (Val R)) (hbxs : bxs.length = arity)
    (nnF : List (Node R)) (slotsF : List BSlot) (NEF : List (Val R))
    (hNEF : evalSteps reg bxs nnF = some NEF)
    (ns : List (Node R)) (slots : List BSlot) (nn : List (Node R))
    (NE : List (Val R)) (oldE : Nat → List (Val R))
    (hvs : vmapSteps arity ns slots nn = some (nnF, slotsF))
    (hNE : evalSteps reg bxs nn = some NE)
    (hInv : SlotsInv B slots NE oldE)
    (hLen : ∀ i, i < B → (oldE i).length = slots.length) :
    ∃ oldE' : Nat → List (Val R),
      (∀ i, i < B → evalSteps reg (oldE i) ns = some (oldE' i)) ∧
      SlotsInv B slotsF NEF oldE' ∧
      (∀ i, i < B → (oldE' i).length = slotsF.length) := by
  induction ns generalizing slots nn NE oldE with
  | nil =>
      simp only [vmapSteps, Option.some.injEq, Prod.mk.injEq] at hvs
      obtain ⟨h1, h2⟩ := hvs
      subst h1
      subst h2
      have hNEeq : NE = NEF := by
        rw [hNE] at hNEF
        exact Option.some.inj hNEF
      subst hNEeq
      exact ⟨oldE, fun i _ => by simp [evalSteps], hInv, hLen⟩
  | cons n t ih =>
      simp only [vmapSteps] at hvs
      cases hv : vmapNode slots (arity + nn.length) n with
      | none => rw [hv] at hvs; simp at hvs
      | some r =>
          rw [hv] at hvs
          simp only [Option.some_bind] at hvs
          obtain ⟨delta, bs⟩ := r
          obtain ⟨ext, hext⟩ := vmapSteps_extends arity t (slots ++ [bs])
            (nn ++ delta) nnF slotsF hvs
          have hsplit : (evalSteps reg bxs (nn ++ delta)).bind
              (fun e => evalSteps reg e ext) = some NEF := by
            rw [← evalSteps_append, ← hext]
            exact hNEF
          cases hmid : evalSteps reg bxs (nn ++ delta) with
          | none => rw [hmid] at hsplit; simp at hsplit
          | some NE1 =>
              have hNE1 : evalSteps reg NE delta = some NE1 := by
                have h2 := hmid
                rw [evalSteps_append, hNE] at h2
                simpa using h2
              obtain ⟨v, hvex, w, hwNE1, hwrel⟩ :=
                vmapNode_sound reg B hB arity bxs hbxs slots nn n delta bs
                  NE NE1 oldE hv hNE hNE1 hInv hLen
              have hInv1 : SlotsInv B (slots ++ [bs]) NE1
                  (fun i => oldE i ++ [v i]) := by
                intro s ht
                rw [List.length_append, List.length_singleton] at ht
                by_cases htl : s < slots.length
                · obtain ⟨w0, hw0, hrel0⟩ := hInv s htl
                  simp only [list_getD_append_lt slots [bs] s htl]
                  refine ⟨w0, ?_, ?_⟩
                  · exact evalSteps_get?_mono reg NE delta NE1 _ w0 hNE1 hw0
                  · refine arel_congr B _ _ w0 _ _ ?_ hrel0
                    intro i hi
                    exact list_getD_append_lt (oldE i) [v i] s
                      (by rw [hLen i hi]; exact htl) _
                · have hseq : s = slots.length := by omega
                  subst hseq
                  simp only [list_getD_append_len]
                  refine ⟨w, hwNE1, ?_⟩
                  refine arel_congr B _ _ w _ _ ?_ hwrel
                  intro i hi
                  rw [show (oldE i ++ [v i]).getD slots.length (Val.scalar 0)
                      = (oldE i ++ [v i]).getD (oldE i).length (Val.scalar 0)
                    from by rw [hLen i hi]]
                  exact list_getD_append_len (oldE i) (v i) _
              have hLen1 : ∀ i, i < B →
                  (oldE i ++ [v i]).length = (slots ++ [bs]).length := by
                intro i hi
                simp [hLen i hi]
              obtain ⟨oldE', hEx', hInv', hLen'⟩ :=
                ih (slots ++ [bs]) (nn ++ delta) NE1
                  (fun i => oldE i ++ [v i]) hvs hmid hInv1 hLen1
              refine ⟨oldE', ?_, hInv', hLen'⟩
              intro i hi
              simp only [evalSteps, hvex i hi, Option.some_bind]
              exact hEx' i hi

end VmapNodeSound

section VmapTop

variable {R : Type} [Field R]

lemma stackOk_brel (B : Nat) (s : Shape) (w : Val R) (h : stackOk B s w) :
    BRel B s w (fun i => exRow i w) := by
  cases s with
  | sc =>
      cases w with
      | scalar x => simp [stackOk] at h
      | vec ws => exact ⟨ws, rfl, h, fun i _ => rfl⟩
      | mat wss => simp [stackOk] at h
  | vecS n =>
      cases w with
      | scalar x => simp [stackOk] at h
      | vec ws => simp [stackOk] at h
      | mat wss => exact ⟨wss, rfl, h.1, h.2, fun i _ => rfl⟩
  | matS m n => cases w <;> simp [stackOk] at h

lemma brel_exrow (B : Nat) (s : Shape) (w : Val R) (g : Nat → Val R)
    (h : BRel B s w g) : ∀ i, i < B → g i = exRow i w := by
  cases s with
  | sc =>
      obtain ⟨ws, rfl, hlen, hg⟩ := h
      exact fun i hi => hg i hi
  | vecS n =>
      obtain ⟨wss, rfl, hlen, hrect, hg⟩ := h
      exact fun i hi => hg i hi
  | matS m n => simp [BRel] at h

lemma replicate_getD_lt (nn k : Nat) (b d : Bool) (hk : k < nn) :
    (List.replicate nn b).getD k d = b := by
  rw [List.getD_eq_getElem?_getD, List.getElem?_replicate, if_pos hk]
  rfl

/-- Per-example soundness of the whole `vmap` transformation: if the
rewritten Traced Function evaluates the stacked inputs to `bv`, the
original function evaluates every per-example slice to the matching
slice of `bv`. -/
lemma vmap_per_example (reg : Registry R) (B : Nat) (hB : 0 < B)
    (f g : TFun R) (ssIn : List Shape) (bxs : List (Val R)) (bv : Val R)
    (hlen : bxs.length = f.arity)
    (hstack : ∀ k, k < f.arity →
      stackOk B (ssIn.getD k Shape.sc) (bxs.getD k (Val.scalar 0)))
    (hvm : vmapIR f (List.replicate f.arity true) ssIn = some g)
    (hbe : evalT reg g bxs = some bv) :
    ∀ i, i < B → evalT reg f (bxs.map (exRow i)) = some (exRow i bv) := by
  rw [vmapIR] at hvm
  split at hvm
  case isFalse => simp at hvm
  case isTrue hguard =>
  simp only [Option.bind_eq_some, Option.ite_none_right_eq_some,
    Option.some.injEq] at hvm
  obtain ⟨r, hvs, o, hout, hob, hg⟩ := hvm
  subst hg
  have hslen : ((List.range f.arity).map (fun k =>
      (⟨k, (List.replicate f.arity true).getD k false,
        ssIn.getD k Shape.sc⟩ : BSlot))).length = f.arity := by
    simp
  have hInv0 : SlotsInv B ((List.range f.arity).map (fun k =>
      (⟨k, (List.replicate f.arity true).getD k false,
        ssIn.getD k Shape.sc⟩ : BSlot))) bxs
      (fun i => bxs.map (exRow i)) := by
    intro t ht
    rw [hslen] at ht
    have hsl : ((List.range f.arity).map (fun k =>
        (⟨k, (List.replicate f.arity true).getD k false,
          ssIn.getD k Shape.sc⟩ : BSlot))).getD t ⟨0, false, Shape.sc⟩
        = ⟨t, true, ssIn.getD t Shape.sc⟩ := by
      rw [getD_map_lt _ (List.range f.arity) t (by simpa using ht) _ 0]
      rw [getD_range_lt _ _ ht]
      rw [replicate_getD_lt f.arity t true false ht]
    rw [hsl]
    refine ⟨bxs.getD t (Val.scalar 0), ?_, ?_⟩
    · exact get?_eq_some_getD bxs t (Val.scalar 0) (by rw [hlen]; exact ht)
    · show ARel B true (ssIn.getD t Shape.sc) (bxs.getD t (Val.scalar 0)) _
      refine arel_congr B true _ _
        (fun i => exRow i (bxs.getD t (Val.scalar 0))) _ ?_ ?_
      · intro i hi
        exact getD_map_lt (exRow i) bxs t (by rw [hlen]; exact ht)
          (Val.scalar 0) (Val.scalar 0)
      · simpa [ARel] using stackOk_brel B _ _ (hstack t ht)
  have hLen0 : ∀ i, i < B → ((fun i => bxs.map (exRow i)) i).length
      = ((List.range f.arity).map (fun k =>
        (⟨k, (List.replicate f.arity true).getD k false,
          ssIn.getD k Shape.sc⟩ : BSlot))).length := by
    intro i _
    simp [hlen]
  rw [evalT] at hbe
  rw [if_pos hlen] at hbe
  rw [Option.bind_eq_some] at hbe
  obtain ⟨NEF, hNEF, hgetv⟩ := hbe
  obtain ⟨oldE', hEx, hInvF, hLenF⟩ := vmapSteps_sound reg B hB f.arity bxs
    hlen r.1 r.2 NEF hNEF f.nodes _ [] bxs (fun i => bxs.map (exRow i))
    hvs rfl hInv0 hLen0
  have hout_lt : f.out < r.2.length := (List.get?_eq_some.mp hout).1
  obtain ⟨w0, hw0, hrel⟩ := hInvF f.out hout_lt
  rw [getD_of_get? r.2 f.out o _ hout] at hw0 hrel
  rw [hgetv] at hw0
  have hw0v : w0 = bv := (Option.some.inj hw0).symm
  rw [hw0v] at hrel
  rw [hob] at hrel
  simp only [ARel, if_true] at hrel
  have hex := brel_exrow B o.shape bv _ hrel
  intro i hi
  have hER : evalSteps reg (bxs.map (exRow i)) f.nodes = some (oldE' i) :=
    hEx i hi
  rw [show evalT reg f (bxs.map (exRow i))
      = (evalSteps reg (bxs.map (exRow i)) f.nodes).bind
        (fun env => env.get? f.out) from by
    rw [evalT, if_pos (by simp [hlen])]]
  rw [hER]
  simp only [Option.some_bind]
  have hfo_lt : f.out < (oldE' i).length := by
    rw [hLenF i hi]; exact hout_lt
  rw [get?_eq_some_getD (oldE' i) f.out (Val.scalar 0) hfo_lt]
  rw [show (oldE' i).getD f.out (Val.scalar 0) = exRow i bv from hex i hi]

end VmapTop

/-- C4: for every function `f` and batched input `bxs` whose leading
axis is the batch axis (`stackOk`, with per-example shapes `ssIn`), the
batched value `bv` produced by evaluating `vmap f` on the stacked input
slices to the per-example results — `vmap(f)(xs)[i] = f(xs[i])` for
every index `i` of the leading axis — and the `jit`-wrapped batched
function returns the same value as the direct (eager) batched call:
`jit(vmap(f))(xs) = vmap(f)(xs)`. -/
theorem C4_batching_equivalence (R : Type) [Field R] (reg : Registry R)
    (B : Nat) (hB : 0 < B) (f g : TFun R) (ssIn : List Shape)
    (bxs : List (Val R)) (bv : Val R) (fid : Nat)
    (hlen : bxs.length = f.arity)
    (hstack : ∀ k, k < f.arity →
      stackOk B (ssIn.getD k Shape.sc) (bxs.getD k (Val.scalar 0)))
    (hun : seqOpt unliftShape (bxs.map Val.shapeOf) = some ssIn)
    (hvm : vmap f none ssIn = some g)
    (hbe : evalT reg g bxs = some bv) :
    (∀ i, i < B → evalT reg f (bxs.map (exRow i)) = some (exRow i bv)) ∧
    (callX reg (evalBE reg)
        (XFun.vmapped (XFun.base fid f) none) emptyState bxs).1
      = Except.ok bv ∧
    (callX reg (evalBE reg)
        (XFun.jitted (XFun.vmapped (XFun.base fid f) none)) emptyState bxs).1
      = Except.ok bv := by
  have hg : graphOf (XFun.vmapped (XFun.base fid f) none)
      (bxs.map Val.shapeOf) = some g := by
    simp [graphOf, hun, hvm]
  refine ⟨?_, ?_, ?_⟩
  · exact vmap_per_example reg B hB f g ssIn bxs bv hlen hstack hvm hbe
  · simp [callX, hg, hbe]
  · exact jit_pipeline reg _ bxs g bv hg hbe

theorem C4_batching_equivalence_witness :
    evalT qreg squareQ [Val.scalar (2 : K)] = some (Val.scalar 4) ∧
    (callX qreg (evalBE qreg)
        (XFun.jitted (XFun.vmapped (XFun.base 0 squareQ) none)) emptyState
        [Val.vec [1, 2, 3]]).1 = Except.ok (Val.vec [1, 4, 9]) := by
  have h := C4_batching_equivalence K qreg 3 (by decide) squareQ squareQ
    [Shape.sc] [Val.vec [1, 2, 3]] (Val.vec [1, 4, 9]) 0 (by decide)
    (by intro k hk
        have hk1 : k < 1 := by simpa [squareQ] using hk
        have hk0 : k = 0 := by omega
        subst hk0
        show (([1, 2, 3] : List K).length = 3)
        decide)
    (by decide) (by decide) (by decide)
  exact ⟨h.1 1 (by decide), h.2.2⟩

/-- C10: `vmap` without an explicit `in_axes` defaults to mapping every
positional argument along its leading axis (the flag vector defaults to
all-`true`), while a value closed over by the function — a literal leaf
of its trace, such as the matrix of the quickstart's `apply_matrix` —
is rewritten to itself by the batching interpreter and left unbatched,
shared across all batch elements: the rewritten trace still carries the
fixed literal matrix, the batched evaluation succeeds, and every row of
`vmap(apply_matrix)(v_batched)` equals `apply_matrix` of the matching
row of `v_batched`. -/
theorem C10_vmap_default_axes (R : Type) [Field R] (reg : Registry R)
    (M rows : List (List R)) (m n B : Nat)
    (hm : 0 < m) (hn : 0 < n) (hB : 0 < B)
    (hMlen : M.length = m) (hMrect : ∀ r ∈ M, r.length = n)
    (hRlen : rows.length = B) (hRrect : ∀ r ∈ rows, r.length = n) :
    (∀ (h : TFun R) (ss : List Shape),
        vmap h none ss = vmapIR h (List.replicate h.arity true) ss) ∧
    (∀ (slots : List BSlot) (base : Nat) (v : Val R),
        vmapNode slots base (Node.lit v)
          = some ([Node.lit v], ⟨base, false, v.shapeOf⟩)) ∧
    ∃ g bv,
      vmap (⟨1, [Node.lit (Val.mat M),
          Node.prim Prim.pdot [1, 0]], 2⟩ : TFun R) none [Shape.vecS n]
        = some g ∧
      g.nodes.get? 0 = some (Node.lit (Val.mat M)) ∧
      evalT reg g [Val.mat rows] = some bv ∧
      ∀ i, i < B →
        evalT reg (⟨1, [Node.lit (Val.mat M),
            Node.prim Prim.pdot [1, 0]], 2⟩ : TFun R)
          [Val.vec (rows.getD i [])] = some (exRow i bv) := by
  have hMhead : (M.headD []).length = n := by
    cases M with
    | nil => simp at hMlen; omega
    | cons r t => exact hMrect r (by simp)
  have hshM : (Val.mat M).shapeOf = Shape.matS m n := by
    simp only [Val.shapeOf]
    rw [hMlen, hMhead]
  have hg : vmap (⟨1, [Node.lit (Val.mat M),
      Node.prim Prim.pdot [1, 0]], 2⟩ : TFun R) none [Shape.vecS n]
      = some ⟨1, [Node.lit (Val.mat M), Node.prim Prim.ptrans [1],
          Node.prim Prim.pdot [0, 2]], 3⟩ := by
    have e1 : vmap (⟨1, [Node.lit (Val.mat M),
        Node.prim Prim.pdot [1, 0]], 2⟩ : TFun R) none [Shape.vecS n]
        = ((batchRule (R := R) 2 Prim.pdot
            [⟨1, false, (Val.mat M).shapeOf⟩,
             ⟨0, true, Shape.vecS n⟩]).bind
          (fun r2 => vmapSteps 1 []
            (([⟨0, true, Shape.vecS n⟩,
               ⟨1, false, (Val.mat M).shapeOf⟩] : List BSlot) ++ [r2.2])
            ([Node.lit (Val.mat M)] ++ r2.1))).bind
          (fun r => (r.2.get? 2).bind
            (fun o => if o.batched then some ⟨1, r.1, o.idx⟩ else none)) :=
      rfl
    rw [e1, hshM]
    rw [show batchRule (R := R) 2 Prim.pdot
        [⟨1, false, Shape.matS m n⟩, ⟨0, true, Shape.vecS n⟩]
        = if n = n then some ([Node.prim Prim.ptrans [1],
            Node.prim Prim.pdot [0, 2]], (⟨3, true, Shape.vecS m⟩ : BSlot))
          else none from rfl]
    rw [if_pos rfl]
    rfl
  have hshR : (Val.mat rows).shapeOf = Shape.matS B n :=
    brel_mat_shape B n hB rows hRlen hRrect
  have hT : evalPrim reg Prim.ptrans [Val.mat M]
      = some (Val.mat ((List.range n).map (colL M))) := by
    have hm1 : [Val.mat M].map Val.shapeOf = [Shape.matS m n] := by
      simp only [List.map_cons, List.map_nil, hshM]
    rw [evalPrim, hm1]
    simp only [shapeInfer]
    rw [if_pos ⟨hm, hn⟩]
    simp only [Option.map_some', Option.some.injEq]
    rw [show evalPrimT reg Prim.ptrans [Val.mat M]
        = Val.mat ((List.range ((M.headD []).length)).map (colL M))
      from rfl, hMhead]
  have hTsh : (Val.mat ((List.range n).map (colL M))).shapeOf
      = Shape.matS n m := by
    simp only [Val.shapeOf]
    rw [show ((List.range n).map (colL M)).length = n from by simp]
    rw [show (((List.range n).map (colL M)).headD []).length = m from by
      rw [headD_map_range (colL M) n hn]
      simp [colL, hMlen]]
  have hV : evalPrim reg Prim.pdot
      [Val.mat rows, Val.mat ((List.range n).map (colL M))]
      = some (evalPrimT reg Prim.pdot
          [Val.mat rows, Val.mat ((List.range n).map (colL M))]) := by
    have hm2 : [Val.mat rows, Val.mat ((List.range n).map (colL M))].map
        Val.shapeOf = [Shape.matS B n, Shape.matS n m] := by
      simp only [List.map_cons, List.map_nil, hshR, hTsh]
    rw [evalPrim, hm2]
    simp [shapeInfer]
  have hbe : evalT reg (⟨1, [Node.lit (Val.mat M),
      Node.prim Prim.ptrans [1], Node.prim Prim.pdot [0, 2]], 3⟩ : TFun R)
      [Val.mat rows]
      = some (evalPrimT reg Prim.pdot
          [Val.mat rows, Val.mat ((List.range n).map (colL M))]) := by
    show (if (1 : Nat) = 1 then
        (evalSteps reg [Val.mat rows] [Node.lit (Val.mat M),
          Node.prim Prim.ptrans [1], Node.prim Prim.pdot [0, 2]]).bind
          (fun env => env.get? 3)
      else none) = _
    rw [if_pos rfl]
    rw [show evalSteps reg [Val.mat rows] [Node.lit (Val.mat M),
        Node.prim Prim.ptrans [1], Node.prim Prim.pdot [0, 2]]
        = (evalPrim reg Prim.ptrans [Val.mat M]).bind
          (fun v => evalSteps reg [Val.mat rows, Val.mat M, v]
            [Node.prim Prim.pdot [0, 2]]) from rfl]
    rw [hT, Option.some_bind]
    rw [show evalSteps reg [Val.mat rows, Val.mat M,
        Val.mat ((List.range n).map (colL M))] [Node.prim Prim.pdot [0, 2]]
        = (evalPrim reg Prim.pdot [Val.mat rows,
            Val.mat ((List.range n).map (colL M))]).bind
          (fun v => some [Val.mat rows, Val.mat M,
            Val.mat ((List.range n).map (colL M)), v]) from rfl]
    rw [hV, Option.some_bind]
    rfl
  refine ⟨fun h ss => rfl, fun slots base v => rfl,
    ⟨1, [Node.lit (Val.mat M), Node.prim Prim.ptrans [1],
      Node.prim Prim.pdot [0, 2]], 3⟩,
    evalPrimT reg Prim.pdot [Val.mat rows,
      Val.mat ((List.range n).map (colL M))], hg, rfl, hbe, ?_⟩
  have hpe := vmap_per_example reg B hB
    (⟨1, [Node.lit (Val.mat M), Node.prim Prim.pdot [1, 0]], 2⟩ : TFun R)
    (⟨1, [Node.lit (Val.mat M), Node.prim Prim.ptrans [1],
      Node.prim Prim.pdot [0, 2]], 3⟩ : TFun R)
    [Shape.vecS n] [Val.mat rows]
    (evalPrimT reg Prim.pdot [Val.mat rows,
      Val.mat ((List.range n).map (colL M))]) rfl
    (by intro k hk
        have hk1 : k < 1 := hk
        have hk0 : k = 0 := by omega
        subst hk0
        exact ⟨hRlen, hRrect⟩)
    hg hbe
  intro i hi
  exact hpe i hi

theorem C10_vmap_default_axes_witness :
    ∃ g bv,
      vmap (⟨1, [Node.lit (Val.mat ([[1, 2], [3, 4], [5, 6]]
            : List (List K))),
          Node.prim Prim.pdot [1, 0]], 2⟩ : TFun K) none [Shape.vecS 2]
        = some g ∧
      g.nodes.get? 0
        = some (Node.lit (Val.mat [[1, 2], [3, 4], [5, 6]])) ∧
      evalT qreg g [Val.mat [[1, 0], [0, 1], [1, 1]]] = some bv ∧
      ∀ i, i < 3 →
        evalT qreg (⟨1, [Node.lit (Val.mat [[1, 2], [3, 4], [5, 6]]),
            Node.prim Prim.pdot [1, 0]], 2⟩ : TFun K)
          [Val.vec (([[1, 0], [0, 1], [1, 1]]
            : List (List K)).getD i [])] = some (exRow i bv) :=
  (C10_vmap_default_axes K qreg [[1, 2], [3, 4], [5, 6]]
    [[1, 0], [0, 1], [1, 1]] 3 2 3 (by decide) (by decide) (by decide)
    (by decide) (by decide) (by decide) (by decide)).2.2

section GradProofs

variable {R : Type} [Field R]

lemma evalSteps_node_at (reg : Registry R) (xs : List (Val R))
    (NF : List (Node R)) (E : List (Val R))
    (h : evalSteps reg xs NF = some E) (k : Nat) (node : Node R)
    (hk : NF.get? k = some node) :
    ∃ E1 v, evalSteps reg xs (NF.take k) = some E1 ∧
      E1.length = xs.length + k ∧
      evalNode reg E1 node = some v ∧
      E.get? (xs.length + k) = some v ∧
      ∀ i, i < E1.length → E.get? i = E1.get? i := by
  have hklt : k < NF.length := (List.get?_eq_some.mp hk).1
  have hkval : NF[k] = node := by
    have h2 := hk
    rw [List.get?_eq_getElem?, List.getElem?_eq_getElem hklt] at h2
    exact Option.some.inj h2
  have hdrop : NF.drop k = node :: NF.drop (k + 1) := by
    rw [List.drop_eq_getElem_cons hklt, hkval]
  have hsplit : NF = NF.take k ++ node :: NF.drop (k + 1) := by
    conv_lhs => rw [← List.take_append_drop k NF]
    rw [hdrop]
  rw [hsplit, evalSteps_append] at h
  cases h1 : evalSteps reg xs (NF.take k) with
  | none => rw [h1] at h; simp at h
  | some E1 =>
      rw [h1] at h
      simp only [Option.some_bind, evalSteps] at h
      cases h2 : evalNode reg E1 node with
      | none => rw [h2] at h; simp at h
      | some v =>
          rw [h2] at h
          simp only [Option.some_bind] at h
          have hlen1 : E1.length = xs.length + k := by
            have hl := evalSteps_length reg xs _ E1 h1
            rw [hl, List.length_take]
            omega
          obtain ⟨suf, hsuf⟩ := evalSteps_suffix reg (E1 ++ [v]) _ E h
          refine ⟨E1, v, rfl, hlen1, h2, ?_, ?_⟩
          · rw [hsuf, ← hlen1,
              show (E1 ++ [v]) ++ suf = E1 ++ (v :: suf) from by simp]
            exact list_get?_append_at E1 v suf
          · intro i hi
            rw [hsuf,
              show (E1 ++ [v]) ++ suf = E1 ++ (v :: suf) from by simp]
            rw [List.get?_append hi]

lemma sumContribs_append_one (vs : List (Val R)) (v x : Val R)
    (h : sumContribs vs = some v) :
    sumContribs (vs ++ [x]) = some (ewB (· + ·) v x) := by
  cases vs with
  | nil => simp [sumContribs] at h
  | cons a rest =>
      simp only [sumContribs, Option.some.injEq] at h
      simp only [List.cons_append, sumContribs, Option.some.injEq]
      rw [List.foldl_append]
      simp [h]

lemma chainOf_append (log : List GLog) (e : GLog) (t : Nat) :
    chainOf (log ++ [e]) t
      = chainOf log t ++ (if e.slot == t then [e.contrib] else []) := by
  simp only [chainOf, List.filter_append, List.map_append]
  congr 1
  cases h : (e.slot == t) <;> simp [List.filter, h]

lemma getD_set_ne {α : Type _} (l : List α) (i k : Nat) (x d : α)
    (h : i ≠ k) : (l.set i x).getD k d = l.getD k d := by
  rw [List.getD_eq_getElem?_getD, List.getD_eq_getElem?_getD,
    List.getElem?_set_ne h]

lemma getD_set_self {α : Type _} (l : List α) (i : Nat) (x d : α)
    (h : i < l.length) : (l.set i x).getD i d = x := by
  rw [List.getD_eq_getElem?_getD, List.getElem?_set_self]
  · rfl
  · exact h

lemma getD_replicate_none {α : Type _} (nn k : Nat) :
    ((List.replicate nn (none : Option α)).getD k none) = none := by
  rw [List.getD_eq_getElem?_getD, List.getElem?_replicate]
  split <;> rfl

lemma enumFrom_snd_mem {α : Type _} :
    ∀ (l : List α) (k : Nat) (p : Nat × α), p ∈ l.enumFrom k → p.2 ∈ l
  | [], _, _, h => by simp at h
  | a :: t, k, p, h => by
      simp only [List.enumFrom, List.mem_cons] at h
      cases h with
      | inl h => subst h; simp
      | inr h => exact List.mem_cons_of_mem a (enumFrom_snd_mem t (k + 1) p h)

lemma enum_snd_mem {α : Type _} (l : List α) (p : Nat × α)
    (h : p ∈ l.enum) : p.2 ∈ l :=
  enumFrom_snd_mem l 0 p h

lemma prefix_get?_at (pre rest : List (Node R)) (NF : List (Node R))
    (x : Node R) (h : List.IsPrefix (pre ++ x :: rest) NF) :
    NF.get? pre.length = some x := by
  obtain ⟨suf, hsuf⟩ := h
  rw [← hsuf, List.append_assoc, List.cons_append]
  exact list_get?_append_at pre x (rest ++ suf)

lemma reduceToEmit_eq (A : Nat) (target ctsh : Shape) (ci : Nat)
    (nn : List (Node R)) :
    reduceToEmit A target ctsh ci nn
      = if target = ctsh then some (ci, nn)
        else match target, ctsh with
          | Shape.sc, _ => some (emitN A nn (Node.prim Prim.psum [ci]))
          | Shape.vecS n, Shape.matS _ n2 =>
              if n2 = n then
                let (t, nn1) := emitN A nn (Node.prim Prim.ptrans [ci])
                some (emitN A nn1 (Node.prim Prim.psumLast [t]))
              else none
          | _, _ => none := rfl

lemma reduceToEmit_mono (A : Nat) (target ctsh : Shape) (ci : Nat)
    (nn : List (Node R)) (r : Nat × List (Node R))
    (h : reduceToEmit A target ctsh ci nn = some r) :
    ∃ ext, r.2 = nn ++ ext := by
  rw [reduceToEmit_eq] at h
  split at h
  · exact ⟨[], by simp [← Option.some.inj h]⟩
  · split at h
    · simp only [emitN, Option.some.injEq] at h
      exact ⟨[Node.prim Prim.psum [ci]], by rw [← h]⟩
    · split at h
      · simp only [emitN, Option.some.injEq] at h
        refine ⟨[Node.prim Prim.ptrans [ci],
          Node.prim Prim.psumLast [A + nn.length]], ?_⟩
        rw [← h]
        simp
      · simp at h
    · simp at h

lemma vjpEmit_mono (A : Nat) (allSh : List Shape) (p : Prim)
    (args : List Nat) (pos c o : Nat) (nn : List (Node R))
    (r : Nat × List (Node R))
    (h : vjpEmit A allSh p args pos c o nn = some r) :
    ∃ ext, r.2 = nn ++ ext := by
  cases p <;>
    rcases args with _ | ⟨a1, _ | ⟨a2, _ | ⟨a3, rr⟩⟩⟩ <;>
    rcases pos with _ | ⟨_ | pos2⟩ <;>
    simp only [vjpEmit] at h <;>
    try simp at h
  · -- padd, [a1, a2], pos 0
    rw [Option.bind_eq_some] at h
    obtain ⟨s1, _, h⟩ := h
    rw [Option.bind_eq_some] at h
    obtain ⟨so, _, h⟩ := h
    exact reduceToEmit_mono A s1 so c nn r h
  · -- padd, [a1, a2], pos 1
    rw [Option.bind_eq_some] at h
    obtain ⟨s2, _, h⟩ := h
    rw [Option.bind_eq_some] at h
    obtain ⟨so, _, h⟩ := h
    exact reduceToEmit_mono A s2 so c nn r h
  · -- pmul, [a1, a2], pos 0
    rw [Option.bind_eq_some] at h
    obtain ⟨s1, _, h⟩ := h
    rw [Option.bind_eq_some] at h
    obtain ⟨so, _, h⟩ := h
    simp only [emitN] at h
    obtain ⟨ext, hext⟩ := reduceToEmit_mono A s1 so _ _ r h
    exact ⟨Node.prim Prim.pmul [c, a2] :: ext, by rw [hext]; simp⟩
  · -- pmul, [a1, a2], pos 1
    rw [Option.bind_eq_some] at h
    obtain ⟨s2, _, h⟩ := h
    rw [Option.bind_eq_some] at h
    obtain ⟨so, _, h⟩ := h
    simp only [emitN] at h
    obtain ⟨ext, hext⟩ := reduceToEmit_mono A s2 so _ _ r h
    exact ⟨Node.prim Prim.pmul [c, a1] :: ext, by rw [hext]; simp⟩
  · -- pdiv, [a1, a2], pos 0
    rw [Option.bind_eq_some] at h
    obtain ⟨s1, _, h⟩ := h
    rw [Option.bind_eq_some] at h
    obtain ⟨so, _, h⟩ := h
    simp only [emitN] at h
    obtain ⟨ext, hext⟩ := reduceToEmit_mono A s1 so _ _ r h
    exact ⟨Node.prim Prim.pdiv [c, a2] :: ext, by rw [hext]; simp⟩
  · -- pdiv, [a1, a2], pos 1
    rw [Option.bind_eq_some] at h
    obtain ⟨s2, _, h⟩ := h
    rw [Option.bind_eq_some] at h
    obtain ⟨so, _, h⟩ := h
    simp only [emitN] at h
    obtain ⟨ext, hext⟩ := reduceToEmit_mono A s2 so _ _ r h
    refine ⟨Node.prim Prim.pmul [c, a1] ::
      Node.prim Prim.pmul [a2, a2] ::
      Node.prim Prim.pdiv [A + nn.length, A + nn.length + 1] ::
      Node.prim Prim.pneg [A + nn.length + 2] :: ext, ?_⟩
    rw [hext]
    simp
    omega
  · -- pneg, [a1], pos 0
    simp only [emitN, Option.some.injEq] at h
    exact ⟨[Node.prim Prim.pneg [c]], by rw [← h]⟩
  · -- pexp, [a1], pos 0
    simp only [emitN, Option.some.injEq] at h
    exact ⟨[Node.prim Prim.pmul [c, o]], by rw [← h]⟩
  · -- psum, [a1], pos 0
    rw [Option.bind_eq_some] at h
    obtain ⟨s1, _, h⟩ := h
    split at h
    · exact ⟨[], by simp [← Option.some.inj h]⟩
    · simp only [emitN, Option.some.injEq] at h
      refine ⟨[Node.lit (Val.scalar 0),
        Node.prim Prim.pmul [a1, A + nn.length],
        Node.lit (Val.scalar 1),
        Node.prim Prim.padd [A + nn.length + 1, A + nn.length + 2],
        Node.prim Prim.pmul [c, A + nn.length + 3]], ?_⟩
      rw [← h]
      simp
      omega

lemma addContrib_nodes (A t j pos c ci : Nat) (st : GSt R) :
    ∃ ext, (addContrib A t j pos c ci st).nodes = st.nodes ++ ext := by
  rw [addContrib]
  split
  · exact ⟨[], by simp⟩
  · rename_i prev hprev
    exact ⟨[Node.prim Prim.padd [prev, ci]], rfl⟩

lemma gradArgs_mono (A : Nat) (allSh : List Shape) (p : Prim)
    (args : List Nat) (j c o : Nat) :
    ∀ (pairs : List (Nat × Nat)) (st st' : GSt R),
    gradArgs A allSh p args j c o pairs st = some st' →
    ∃ ext, st'.nodes = st.nodes ++ ext := by
  intro pairs
  induction pairs with
  | nil =>
      intro st st' h
      simp only [gradArgs, Option.some.injEq] at h
      exact ⟨[], by simp [← h]⟩
  | cons pt rest ih =>
      intro st st' h
      obtain ⟨pos, tt⟩ := pt
      simp only [gradArgs] at h
      rw [Option.bind_eq_some] at h
      obtain ⟨r, hv, h⟩ := h
      obtain ⟨e1, he1⟩ := vjpEmit_mono A allSh p args pos c o st.nodes r hv
      obtain ⟨e2, he2⟩ := addContrib_nodes A tt j pos c r.1
        { st with nodes := r.2 }
      obtain ⟨e3, he3⟩ := ih _ _ h
      exact ⟨e1 ++ e2 ++ e3,
        by rw [he3, he2]; simp only [he1]; simp [List.append_assoc]⟩

lemma gradNode_mono (A : Nat) (allSh : List Shape)
    (origNodes : List (Node R)) (j : Nat) (st st' : GSt R)
    (h : gradNode A allSh origNodes j st = some st') :
    ∃ ext, st'.nodes = st.nodes ++ ext := by
  rw [gradNode] at h
  split at h
  · simp at h
  · exact ⟨[], by simp [← Option.some.inj h]⟩
  · split at h
    · exact ⟨[], by simp [← Option.some.inj h]⟩
    · exact gradArgs_mono A allSh _ _ j _ _ _ st st' h

lemma gradBack_mono (A : Nat) (allSh : List Shape)
    (origNodes : List (Node R)) :
    ∀ (js : List Nat) (st st' : GSt R),
    gradBack A allSh origNodes js st = some st' →
    ∃ ext, st'.nodes = st.nodes ++ ext := by
  intro js
  induction js with
  | nil =>
      intro st st' h
      simp only [gradBack, Option.some.injEq] at h
      exact ⟨[], by simp [← h]⟩
  | cons j rest ih =>
      intro st st' h
      simp only [gradBack] at h
      rw [Option.bind_eq_some] at h
      obtain ⟨st1, h1, h2⟩ := h
      obtain ⟨e1, he1⟩ := gradNode_mono A allSh origNodes j st st1 h1
      obtain ⟨e2, he2⟩ := ih _ _ h2
      exact ⟨e1 ++ e2, by rw [he2, he1, List.append_assoc]⟩

lemma addContrib_eq (A t j pos c ci : Nat) (st : GSt R) :
    addContrib A t j pos c ci st
      = match st.ct.getD t none with
        | none =>
            { nodes := st.nodes, ct := st.ct.set t (some ci),
              log := st.log ++ [⟨t, j, pos, c, ci⟩] }
        | some prev =>
            { nodes := st.nodes ++ [Node.prim Prim.padd [prev, ci]],
              ct := st.ct.set t (some (A + st.nodes.length)),
              log := st.log ++ [⟨t, j, pos, c, ci⟩] } := rfl

lemma gradNode_eq (A : Nat) (allSh : List Shape)
    (origNodes : List (Node R)) (j : Nat) (st : GSt R) :
    gradNode A allSh origNodes j st
      = match origNodes.get? j with
        | none => none
        | some (Node.lit _) => some st
        | some (Node.prim p args) =>
            match st.ct.getD (A + j) none with
            | none => some st
            | some c => gradArgs A allSh p args j c (A + j) args.enum st :=
  rfl

lemma inferSteps_len :
    ∀ (ns : List (Node R)) (sh sh' : List Shape),
    inferSteps sh ns = some sh' → sh'.length = sh.length + ns.length
  | [], sh, sh', h => by
      simp only [inferSteps, Option.some.injEq] at h
      simp [← h]
  | Node.lit v :: ns, sh, sh', h => by
      simp only [inferSteps] at h
      have hh := inferSteps_len ns _ _ h
      simp only [List.length_append, List.length_cons, List.length_nil]
        at hh ⊢
      omega
  | Node.prim p args :: ns, sh, sh', h => by
      simp only [inferSteps] at h
      rw [Option.bind_eq_some] at h
      obtain ⟨s, _, h⟩ := h
      have hh := inferSteps_len ns _ _ h
      simp only [List.length_append, List.length_cons, List.length_nil]
        at hh ⊢
      omega

lemma gradArgs_inv (reg : Registry R) (f : TFun R) (xs E : List (Val R))
    (NF : List (Node R)) (hxs : xs.length = f.arity)
    (hE : evalSteps reg xs NF = some E)
    (allSh : List Shape) (p : Prim) (args : List Nat) (j c o : Nat)
    (hj : j < f.nodes.length) (js' : List Nat) :
    ∀ (pairs : List (Nat × Nat)) (st st' : GSt R),
    gradArgs f.arity allSh p args j c o pairs st = some st' →
    List.IsPrefix st'.nodes NF →
    (∀ pt ∈ pairs, pt.2 < f.arity + j) →
    st.ct.getD (f.arity + j) none = some c →
    GInv f E st →
    (∀ e ∈ st.log, st.ct.getD (f.arity + e.consumer) none = some e.ctUsed
      ∧ j ≤ e.consumer ∧ ∀ j2 ∈ js', j2 < e.consumer) →
    (∀ j2 ∈ js', j2 < j) →
    GInv f E st' ∧
    st'.ct.getD (f.arity + j) none = some c ∧
    (∀ e ∈ st'.log, st'.ct.getD (f.arity + e.consumer) none = some e.ctUsed
      ∧ j ≤ e.consumer ∧ ∀ j2 ∈ js', j2 < e.consumer) := by
  intro pairs
  induction pairs with
  | nil =>
      intro st st' h _ _ hc hinv hlog _
      simp only [gradArgs, Option.some.injEq] at h
      subst h
      exact ⟨hinv, hc, hlog⟩
  | cons pt rest ih =>
      intro st st' h hfin hpairs hc hinv hlog hjs
      obtain ⟨pos, tt⟩ := pt
      simp only [gradArgs] at h
      rw [Option.bind_eq_some] at h
      obtain ⟨r, hv, h⟩ := h
      have htlt : tt < f.arity + j := hpairs (pos, tt) (by simp)
      obtain ⟨hsum, hnone, hlen⟩ := hinv
      have httct : tt < st.ct.length := by
        rw [hlen]; omega
      obtain ⟨e3, he3⟩ := gradArgs_mono f.arity allSh p args j c o rest _ st' h
      have hst2fin : List.IsPrefix
          (addContrib f.arity tt j pos c r.1
            { st with nodes := r.2 }).nodes NF := by
        obtain ⟨suf, hsuf⟩ := hfin
        exact ⟨e3 ++ suf, by rw [← List.append_assoc, ← he3, hsuf]⟩
      have hrest : ∀ pt ∈ rest, pt.2 < f.arity + j :=
        fun pt0 hpt0 => hpairs pt0 (by simp [hpt0])
      cases hprev : st.ct.getD tt none with
      | none =>
          have hstE : addContrib f.arity tt j pos c r.1
              { st with nodes := r.2 }
              = ⟨r.2, st.ct.set tt (some r.1),
                 st.log ++ [⟨tt, j, pos, c, r.1⟩]⟩ := by
            rw [addContrib_eq,
              show ({ st with nodes := r.2 } : GSt R).ct.getD tt none
                = none from hprev]
          rw [hstE] at h
          obtain ⟨hto, hchain⟩ := hnone tt hprev
          refine ih _ st' h hfin hrest ?_ ?_ ?_ hjs
          · show (st.ct.set tt (some r.1)).getD (f.arity + j) none = some c
            rw [getD_set_ne _ _ _ _ _ (by omega)]
            exact hc
          · simp only [GInv]
            refine ⟨?_, ?_, ?_⟩
            · intro t0 c0 hc0
              by_cases ht0 : t0 = tt
              · rw [ht0] at hc0
                rw [getD_set_self _ _ _ _ httct] at hc0
                have hc0' : c0 = r.1 := (Option.some.inj hc0).symm
                rw [if_neg (by rw [ht0]; exact hto), chainOf_append,
                  show (if (((⟨tt, j, pos, c, r.1⟩ : GLog).slot == t0) = true)
                      then [(⟨tt, j, pos, c, r.1⟩ : GLog).contrib] else [])
                      = [r.1]
                    from by simp [ht0]]
                rw [ht0, hchain, hc0']
                simp [sumContribs]
              · rw [getD_set_ne _ _ _ _ _ (fun hh => ht0 hh.symm)] at hc0
                rw [chainOf_append,
                  show (if (((⟨tt, j, pos, c, r.1⟩ : GLog).slot == t0) = true)
                      then [(⟨tt, j, pos, c, r.1⟩ : GLog).contrib] else [])
                      = ([] : List Nat)
                    from by
                      simp only [beq_iff_eq]
                      rw [if_neg (fun hh => ht0 hh.symm)]]
                simpa using hsum t0 c0 hc0
            · intro t0 h0
              have ht0 : t0 ≠ tt := by
                intro hh
                subst hh
                rw [getD_set_self _ _ _ _ httct] at h0
                simp at h0
              rw [getD_set_ne _ _ _ _ _ (fun hh => ht0 hh.symm)] at h0
              obtain ⟨h1, h2⟩ := hnone t0 h0
              refine ⟨h1, ?_⟩
              rw [chainOf_append,
                show (if (((⟨tt, j, pos, c, r.1⟩ : GLog).slot == t0) = true)
                    then [(⟨tt, j, pos, c, r.1⟩ : GLog).contrib] else [])
                    = ([] : List Nat)
                  from by
                    simp only [beq_iff_eq]
                    rw [if_neg (fun hh => ht0 hh.symm)]]
              simpa using h2
            · simpa using hlen
          · intro e he
            simp only [List.mem_append] at he
            cases he with
            | inl he =>
                obtain ⟨h1, h2, h3⟩ := hlog e he
                refine ⟨?_, h2, h3⟩
                show (st.ct.set tt (some r.1)).getD
                  (f.arity + e.consumer) none = some e.ctUsed
                rw [getD_set_ne _ _ _ _ _ (by omega)]
                exact h1
            | inr he =>
                rw [List.mem_singleton] at he
                subst he
                refine ⟨?_, le_refl j, hjs⟩
                show (st.ct.set tt (some r.1)).getD (f.arity + j) none
                  = some c
                rw [getD_set_ne _ _ _ _ _ (by omega)]
                exact hc
      | some prev =>
          have hstE : addContrib f.arity tt j pos c r.1
              { st with nodes := r.2 }
              = ⟨r.2 ++ [Node.prim Prim.padd [prev, r.1]],
                 st.ct.set tt (some (f.arity + r.2.length)),
                 st.log ++ [⟨tt, j, pos, c, r.1⟩]⟩ := by
            rw [addContrib_eq,
              show ({ st with nodes := r.2 } : GSt R).ct.getD tt none
                = some prev from hprev]
          rw [hstE] at h
          have hpadd_at : NF.get? r.2.length
              = some (Node.prim Prim.padd [prev, r.1]) := by
            refine prefix_get?_at r.2 [] NF _ ?_
            have h2 := hst2fin
            rw [hstE] at h2
            exact h2
          obtain ⟨E1, v, hE1, hlenE1, hnode, hvat, hagree⟩ :=
            evalSteps_node_at reg xs NF E hE r.2.length _ hpadd_at
          simp only [evalNode] at hnode
          rw [Option.bind_eq_some] at hnode
          obtain ⟨vs, hvs, hprim⟩ := hnode
          simp only [seqOpt] at hvs
          cases hgp : E1.get? prev with
          | none => rw [hgp] at hvs; simp at hvs
          | some vp =>
          rw [hgp] at hvs
          cases hgc : E1.get? r.1 with
          | none => rw [hgc] at hvs; simp at hvs
          | some vc =>
          rw [hgc] at hvs
          simp only [Option.some_bind, Option.map_some',
            Option.some.injEq] at hvs
          subst hvs
          rw [evalPrim] at hprim
          rw [Option.map_eq_some'] at hprim
          obtain ⟨sh, _, hvval⟩ := hprim
          have hveq : v = ewB (· + ·) vp vc := by
            rw [← hvval]
            rfl
          have hprevE : E.getD prev (Val.scalar 0) = vp :=
            getD_of_get? E prev vp _
              (by rw [hagree prev (List.get?_eq_some.mp hgp).1]; exact hgp)
          have hciE : E.getD r.1 (Val.scalar 0) = vc :=
            getD_of_get? E r.1 vc _
              (by rw [hagree r.1 (List.get?_eq_some.mp hgc).1]; exact hgc)
          have hnewE : E.getD (f.arity + r.2.length) (Val.scalar 0) = v := by
            refine getD_of_get? E _ v _ ?_
            rw [← hxs]
            exact hvat
          refine ih _ st' h hfin hrest ?_ ?_ ?_ hjs
          · show (st.ct.set tt (some (f.arity + r.2.length))).getD
              (f.arity + j) none = some c
            rw [getD_set_ne _ _ _ _ _ (by omega)]
            exact hc
          · simp only [GInv]
            refine ⟨?_, ?_, ?_⟩
            · intro t0 c0 hc0
              by_cases ht0 : t0 = tt
              · rw [ht0] at hc0
                rw [getD_set_self _ _ _ _ httct] at hc0
                have hc0' : c0 = f.arity + r.2.length :=
                  (Option.some.inj hc0).symm
                rw [chainOf_append,
                  show (if (((⟨tt, j, pos, c, r.1⟩ : GLog).slot == t0) = true)
                      then [(⟨tt, j, pos, c, r.1⟩ : GLog).contrib] else [])
                      = [r.1]
                    from by simp [ht0]]
                rw [ht0, ← List.append_assoc, List.map_append]
                simp only [List.map_cons, List.map_nil]
                rw [sumContribs_append_one _ _ _ (hsum tt prev hprev)]
                rw [hprevE, hciE, hc0', hnewE, ← hveq]
              · rw [getD_set_ne _ _ _ _ _ (fun hh => ht0 hh.symm)] at hc0
                rw [chainOf_append,
                  show (if (((⟨tt, j, pos, c, r.1⟩ : GLog).slot == t0) = true)
                      then [(⟨tt, j, pos, c, r.1⟩ : GLog).contrib] else [])
                      = ([] : List Nat)
                    from by
                      simp only [beq_iff_eq]
                      rw [if_neg (fun hh => ht0 hh.symm)]]
                simpa using hsum t0 c0 hc0
            · intro t0 h0
              have ht0 : t0 ≠ tt := by
                intro hh
                subst hh
                rw [getD_set_self _ _ _ _ httct] at h0
                simp at h0
              rw [getD_set_ne _ _ _ _ _ (fun hh => ht0 hh.symm)] at h0
              obtain ⟨h1, h2⟩ := hnone t0 h0
              refine ⟨h1, ?_⟩
              rw [chainOf_append,
                show (if (((⟨tt, j, pos, c, r.1⟩ : GLog).slot == t0) = true)
                    then [(⟨tt, j, pos, c, r.1⟩ : GLog).contrib] else [])
                    = ([] : List Nat)
                  from by
                    simp only [beq_iff_eq]
                    rw [if_neg (fun hh => ht0 hh.symm)]]
              simpa using h2
            · simpa using hlen
          · intro e he
            simp only [List.mem_append] at he
            cases he with
            | inl he =>
                obtain ⟨h1, h2, h3⟩ := hlog e he
                refine ⟨?_, h2, h3⟩
                show (st.ct.set tt (some (f.arity + r.2.length))).getD
                  (f.arity + e.consumer) none = some e.ctUsed
                rw [getD_set_ne _ _ _ _ _ (by omega)]
                exact h1
            | inr he =>
                rw [List.mem_singleton] at he
                subst he
                refine ⟨?_, le_refl j, hjs⟩
                show (st.ct.set tt (some (f.arity + r.2.length))).getD
                  (f.arity + j) none = some c
                rw [getD_set_ne _ _ _ _ _ (by omega)]
                exact hc

lemma gradNode_inv (reg : Registry R) (f : TFun R) (xs E : List (Val R))
    (NF : List (Node R)) (hxs : xs.length = f.arity)
    (hE : evalSteps reg xs NF = some E)
    (allSh : List Shape) (j : Nat) (hj : j < f.nodes.length)
    (hwf : f.Wf) (js' : List Nat) (st st' : GSt R)
    (h : gradNode f.arity allSh f.nodes j st = some st')
    (hfin : List.IsPrefix st'.nodes NF)
    (hinv : GInv f E st)
    (hlog : ∀ e ∈ st.log, st.ct.getD (f.arity + e.consumer) none
        = some e.ctUsed ∧ j < e.consumer ∧ ∀ j2 ∈ js', j2 < e.consumer)
    (hjs : ∀ j2 ∈ js', j2 < j) :
    GInv f E st' ∧
    (∀ e ∈ st'.log, st'.ct.getD (f.arity + e.consumer) none
      = some e.ctUsed ∧ ∀ j2 ∈ js', j2 < e.consumer) := by
  rw [gradNode_eq] at h
  cases hn : f.nodes.get? j with
  | none =>
      rw [hn] at h
      simp at h
  | some node =>
      rw [hn] at h
      cases node with
      | lit v =>
          have h' : some st = some st' := h
          obtain rfl := Option.some.inj h'
          exact ⟨hinv, fun e he => ⟨(hlog e he).1, (hlog e he).2.2⟩⟩
      | prim p args =>
          cases hct : st.ct.getD (f.arity + j) none with
          | none =>
              rw [hct] at h
              have h' : some st = some st' := h
              obtain rfl := Option.some.inj h'
              exact ⟨hinv, fun e he => ⟨(hlog e he).1, (hlog e he).2.2⟩⟩
          | some c =>
              rw [hct] at h
              have h' : gradArgs f.arity allSh p args j c (f.arity + j)
                  args.enum st = some st' := h
              have hget : f.nodes.get ⟨j, hj⟩ = Node.prim p args := by
                have hp := List.get?_eq_some.mp hn
                obtain ⟨hlt, hg⟩ := hp
                exact hg
              have hargsb : ∀ a ∈ args, a < f.arity + j := by
                intro a ha
                have := hwf j hj a (by rw [hget]; exact ha)
                exact this
              have hpairs : ∀ pt ∈ args.enum, pt.2 < f.arity + j :=
                fun pt hpt => hargsb pt.2 (enum_snd_mem args pt hpt)
              obtain ⟨hi1, hi2, hi3⟩ := gradArgs_inv reg f xs E NF hxs hE
                allSh p args j c (f.arity + j) hj js' args.enum st st' h'
                hfin hpairs hct hinv
                (fun e he => ⟨(hlog e he).1, le_of_lt (hlog e he).2.1,
                  (hlog e he).2.2⟩)
                hjs
              exact ⟨hi1, fun e he => ⟨(hi3 e he).1, (hi3 e he).2.2⟩⟩

lemma gradBack_inv (reg : Registry R) (f : TFun R) (xs E : List (Val R))
    (NF : List (Node R)) (hxs : xs.length = f.arity)
    (hE : evalSteps reg xs NF = some E)
    (allSh : List Shape) (hwf : f.Wf) :
    ∀ (js : List Nat) (st st' : GSt R),
    gradBack f.arity allSh f.nodes js st = some st' →
    List.IsPrefix st'.nodes NF →
    (∀ j ∈ js, j < f.nodes.length) →
    js.Pairwise (· > ·) →
    GInv f E st →
    (∀ e ∈ st.log, st.ct.getD (f.arity + e.consumer) none = some e.ctUsed
      ∧ ∀ j ∈ js, j < e.consumer) →
    GInv f E st' ∧
    (∀ e ∈ st'.log, st'.ct.getD (f.arity + e.consumer) none
      = some e.ctUsed) := by
  intro js
  induction js with
  | nil =>
      intro st st' h _ _ _ hinv hlog
      have h' : some st = some st' := h
      obtain rfl := Option.some.inj h'
      exact ⟨hinv, fun e he => (hlog e he).1⟩
  | cons j js' ih =>
      intro st st' h hfin hjslt hsorted hinv hlog
      have h' : (gradNode f.arity allSh f.nodes j st).bind
          (gradBack f.arity allSh f.nodes js') = some st' := h
      rw [Option.bind_eq_some] at h'
      obtain ⟨st1, h1, h2⟩ := h'
      have hst1fin : List.IsPrefix st1.nodes NF := by
        obtain ⟨e2, he2⟩ := gradBack_mono f.arity allSh f.nodes js'
          st1 st' h2
        obtain ⟨suf, hsuf⟩ := hfin
        exact ⟨e2 ++ suf, by rw [← List.append_assoc, ← he2, hsuf]⟩
      have hj : j < f.nodes.length := hjslt j (by simp)
      have hjs : ∀ j2 ∈ js', j2 < j := by
        have hp := List.pairwise_cons.mp hsorted
        exact fun j2 hj2 => hp.1 j2 hj2
      obtain ⟨hinv1, hlog1⟩ := gradNode_inv reg f xs E NF hxs hE allSh j hj
        hwf js' st st1 h1 hst1fin hinv
        (fun e he => ⟨(hlog e he).1, (hlog e he).2 j (by simp),
          fun j2 hj2 => (hlog e he).2 j2 (by simp [hj2])⟩)
        hjs
      exact ih st1 st' h2 hfin (fun j2 hj2 => hjslt j2 (by simp [hj2]))
        (List.pairwise_cons.mp hsorted).2 hinv1
        (fun e he => ⟨(hlog1 e he).1, (hlog1 e he).2⟩)

end GradProofs

/-- C6: sum-at-fan-in invariant of the reverse-mode backward pass.  For
the backward state `st` of any well-formed trace and any evaluation `E`
of the gradient graph: (1) every logged backward contribution read the
consumer's final accumulated cotangent — the consumer's sum was already
complete before its own vector–Jacobian rule executed and deposited
contributions; (2) every non-output slot with an accumulated cotangent
received at least one contribution (`k ≥ 1`), and the value of its
accumulated cotangent slot equals the sum of the values of all `k`
logged contributions from all of its consumers; (3) a slot with no
accumulated cotangent received no contribution. -/
theorem C6_fanin_cotangent (R : Type) [Field R] (reg : Registry R)
    (f : TFun R) (ss : List Shape) (xs : List (Val R)) (st : GSt R)
    (E : List (Val R)) (hwf : f.Wf)
    (hge : gradEmit f ss = some st)
    (hxs : xs.length = f.arity)
    (hE : evalSteps reg xs st.nodes = some E) :
    (∀ e ∈ st.log, st.ct.getD (f.arity + e.consumer) none
      = some e.ctUsed) ∧
    (∀ t c, t ≠ f.out → st.ct.getD t none = some c →
      chainOf st.log t ≠ [] ∧
      sumContribs ((chainOf st.log t).map (fun s => E.getD s (Val.scalar 0)))
        = some (E.getD c (Val.scalar 0))) ∧
    (∀ t, st.ct.getD t none = none → chainOf st.log t = []) := by
  have hge' : (inferAll f ss).bind (fun allSh =>
      if allSh.get? f.out = some Shape.sc then
        gradBack f.arity allSh f.nodes (List.range f.nodes.length).reverse
          ⟨f.nodes ++ [Node.lit (Val.scalar 1)],
           (List.replicate (f.arity + f.nodes.length) none).set f.out
             (some (f.arity + f.nodes.length)), []⟩
      else none) = some st := hge
  rw [Option.bind_eq_some] at hge'
  obtain ⟨allSh, hish, hge2⟩ := hge'
  split at hge2
  case isFalse => simp at hge2
  case isTrue hout =>
  have houtlt : f.out < f.arity + f.nodes.length := by
    have h1 := (List.get?_eq_some.mp hout).1
    have h2 : allSh.length = f.arity + f.nodes.length := by
      rw [inferAll] at hish
      split at hish
      · rename_i hss
        have hl := inferSteps_len f.nodes ss allSh hish
        rw [hl, hss]
      · simp at hish
    omega
  have hinv0 : GInv f E ⟨f.nodes ++ [Node.lit (Val.scalar 1)],
      (List.replicate (f.arity + f.nodes.length) none).set f.out
        (some (f.arity + f.nodes.length)), []⟩ := by
    refine ⟨?_, ?_, ?_⟩
    · intro t c hc
      by_cases ht : t = f.out
      · rw [ht] at hc
        rw [getD_set_self _ _ _ _ (by simp [houtlt])] at hc
        have hceq : c = f.arity + f.nodes.length :=
          (Option.some.inj hc).symm
        rw [show chainOf ([] : List GLog) t = [] from rfl]
        rw [if_pos ht, hceq]
        simp [sumContribs]
      · rw [getD_set_ne _ _ _ _ _ (fun hh => ht hh.symm)] at hc
        rw [getD_replicate_none] at hc
        exact absurd hc (by simp)
    · intro t h0
      refine ⟨?_, rfl⟩
      intro ht
      rw [ht] at h0
      rw [getD_set_self _ _ _ _ (by simp [houtlt])] at h0
      simp at h0
    · simp
  have hjslt : ∀ j ∈ (List.range f.nodes.length).reverse,
      j < f.nodes.length := by
    intro j hj
    simpa using hj
  have hsorted : ((List.range f.nodes.length).reverse).Pairwise
      (· > ·) := by
    rw [List.pairwise_reverse]
    exact List.pairwise_lt_range f.nodes.length
  obtain ⟨hinvF, hlogF⟩ := gradBack_inv reg f xs E st.nodes hxs hE allSh
    hwf (List.range f.nodes.length).reverse _ st hge2
    (List.prefix_refl _) hjslt hsorted hinv0 (by simp)
  refine ⟨hlogF, ?_, ?_⟩
  · intro t c ht hc
    have hs := hinvF.1 t c hc
    rw [if_neg ht] at hs
    simp only [List.nil_append] at hs
    refine ⟨?_, hs⟩
    intro hnil
    rw [hnil] at hs
    simp [sumContribs] at hs
  · intro t h0
    exact (hinvF.2.1 t h0).2

theorem C6_fanin_cotangent_witness :
    (chainOf fanSt.log 1).length = 2 ∧
    sumContribs ((chainOf fanSt.log 1).map
        (fun s => fanEnv.getD s (Val.scalar 0)))
      = some (fanEnv.getD 4 (Val.scalar 0)) ∧
    (∀ e ∈ fanSt.log, fanSt.ct.getD (fanG.arity + e.consumer) none
      = some e.ctUsed) ∧
    evalT qreg ((gradIR fanG [Shape.sc]).getD (defaultTF K))
      [Val.scalar 3] = some (Val.scalar 12) := by
  have hwfFan : fanG.Wf := by
    intro j hj a ha
    have hj2 : j < 2 := by simpa [fanG] using hj
    have hmem : a ∈ (fanG.nodes.getD j (Node.lit (Val.scalar 0))).argsOf := by
      rw [List.getD_eq_getElem?_getD,
        List.getElem?_eq_getElem (by simpa [fanG] using hj)]
      exact ha
    interval_cases j
    · have ha0 : a = 0 := by simpa [fanG, Node.argsOf] using hmem
      simp [fanG, ha0]
    · have ha1 : a = 1 := by simpa [fanG, Node.argsOf] using hmem
      simp [fanG, ha1]
  have h := C6_fanin_cotangent K qreg fanG [Shape.sc] [Val.scalar 3]
    fanSt fanEnv hwfFan rfl (by decide) rfl
  exact ⟨by decide, (h.2.1 1 4 (by decide) (by decide)).2, h.1, by decide⟩

section C2Proofs

set_option maxHeartbeats 2000000 in
lemma sumLogistic_gradIR :
    gradIR (sumLogisticG ℝ) [Shape.vecS 3] = some (sumLogisticGradG ℝ) :=
  rfl

lemma sumLogistic_eval (x y z : ℝ) :
    evalT (⟨Real.exp⟩ : Registry ℝ) (sumLogisticG ℝ) [Val.vec [x, y, z]]
      = some (Val.scalar ((1 + Real.exp (-x))⁻¹ + (1 + Real.exp (-y))⁻¹
          + (1 + Real.exp (-z))⁻¹)) := by
  simp [sumLogisticG, evalT, evalSteps, evalNode, evalPrim, seqOpt,
    shapeInfer, evalPrimT, ewB, ewU, broadcastS, Val.shapeOf, one_div]
  ring

set_option maxHeartbeats 1000000 in
lemma sumLogisticGrad_chunk1 (x y z : ℝ) :
    evalSteps (⟨Real.exp⟩ : Registry ℝ) [Val.vec [x, y, z]]
      [Node.prim Prim.pneg [0], Node.prim Prim.pexp [1],
       Node.lit (Val.scalar 1), Node.prim Prim.padd [3, 2],
       Node.prim Prim.pdiv [3, 4], Node.prim Prim.psum [5]]
    = some [Val.vec [x, y, z],
        Val.vec [-x, -y, -z],
        Val.vec [Real.exp (-x), Real.exp (-y), Real.exp (-z)],
        Val.scalar 1,
        Val.vec [1 + Real.exp (-x), 1 + Real.exp (-y), 1 + Real.exp (-z)],
        Val.vec [(1 + Real.exp (-x))⁻¹, (1 + Real.exp (-y))⁻¹,
          (1 + Real.exp (-z))⁻¹],
        Val.scalar ((1 + Real.exp (-x))⁻¹ + (1 + Real.exp (-y))⁻¹
          + (1 + Real.exp (-z))⁻¹)] := by
  simp [evalSteps, evalNode, evalPrim, seqOpt, shapeInfer, evalPrimT,
    ewB, ewU, broadcastS, Val.shapeOf, one_div]
  ring

set_option maxHeartbeats 1000000 in
lemma sumLogisticGrad_chunk2 (x y z : ℝ) :
    evalSteps (⟨Real.exp⟩ : Registry ℝ)
      [Val.vec [x, y, z],
       Val.vec [-x, -y, -z],
       Val.vec [Real.exp (-x), Real.exp (-y), Real.exp (-z)],
       Val.scalar 1,
       Val.vec [1 + Real.exp (-x), 1 + Real.exp (-y), 1 + Real.exp (-z)],
       Val.vec [(1 + Real.exp (-x))⁻¹, (1 + Real.exp (-y))⁻¹,
         (1 + Real.exp (-z))⁻¹],
       Val.scalar ((1 + Real.exp (-x))⁻¹ + (1 + Real.exp (-y))⁻¹
         + (1 + Real.exp (-z))⁻¹)]
      [Node.lit (Val.scalar 1), Node.lit (Val.scalar 0),
       Node.prim Prim.pmul [5, 8], Node.lit (Val.scalar 1),
       Node.prim Prim.padd [9, 10], Node.prim Prim.pmul [7, 11],
       Node.prim Prim.pdiv [12, 4], Node.prim Prim.psum [13]]
    = some [Val.vec [x, y, z],
        Val.vec [-x, -y, -z],
        Val.vec [Real.exp (-x), Real.exp (-y), Real.exp (-z)],
        Val.scalar 1,
        Val.vec [1 + Real.exp (-x), 1 + Real.exp (-y), 1 + Real.exp (-z)],
        Val.vec [(1 + Real.exp (-x))⁻¹, (1 + Real.exp (-y))⁻¹,
          (1 + Real.exp (-z))⁻¹],
        Val.scalar ((1 + Real.exp (-x))⁻¹ + (1 + Real.exp (-y))⁻¹
          + (1 + Real.exp (-z))⁻¹),
        Val.scalar 1, Val.scalar 0,
        Val.vec [0, 0, 0],
        Val.scalar 1,
        Val.vec [1, 1, 1],
        Val.vec [1, 1, 1],
        Val.vec [(1 + Real.exp (-x))⁻¹, (1 + Real.exp (-y))⁻¹,
          (1 + Real.exp (-z))⁻¹],
        Val.scalar ((1 + Real.exp (-x))⁻¹ + (1 + Real.exp (-y))⁻¹
          + (1 + Real.exp (-z))⁻¹)] := by
  simp [evalSteps, evalNode, evalPrim, seqOpt, shapeInfer, evalPrimT,
    ewB, ewU, broadcastS, Val.shapeOf, one_div]
  ring

set_option maxHeartbeats 1000000 in
lemma sumLogisticGrad_chunk3 (x y z : ℝ) :
    evalSteps (⟨Real.exp⟩ : Registry ℝ)
      [Val.vec [x, y, z],
       Val.vec [-x, -y, -z],
       Val.vec [Real.exp (-x), Real.exp (-y), Real.exp (-z)],
       Val.scalar 1,
       Val.vec [1 + Real.exp (-x), 1 + Real.exp (-y), 1 + Real.exp (-z)],
       Val.vec [(1 + Real.exp (-x))⁻¹, (1 + Real.exp (-y))⁻¹,
         (1 + Real.exp (-z))⁻¹],
       Val.scalar ((1 + Real.exp (-x))⁻¹ + (1 + Real.exp (-y))⁻¹
         + (1 + Real.exp (-z))⁻¹),
       Val.scalar 1, Val.scalar 0,
       Val.vec [0, 0, 0],
       Val.scalar 1,
       Val.vec [1, 1, 1],
       Val.vec [1, 1, 1],
       Val.vec [(1 + Real.exp (-x))⁻¹, (1 + Real.exp (-y))⁻¹,
         (1 + Real.exp (-z))⁻¹],
       Val.scalar ((1 + Real.exp (-x))⁻¹ + (1 + Real.exp (-y))⁻¹
         + (1 + Real.exp (-z))⁻¹)]
      [Node.prim Prim.pmul [12, 3], Node.prim Prim.pmul [4, 4],
       Node.prim Prim.pdiv [15, 16], Node.prim Prim.pneg [17],
       Node.prim Prim.psum [18], Node.prim Prim.padd [14, 19],
       Node.prim Prim.pmul [18, 2], Node.prim Prim.pneg [21]]
    = some [Val.vec [x, y, z],
        Val.vec [-x, -y, -z],
        Val.vec [Real.exp (-x), Real.exp (-y), Real.exp (-z)],
        Val.scalar 1,
        Val.vec [1 + Real.exp (-x), 1 + Real.exp (-y), 1 + Real.exp (-z)],
        Val.vec [(1 + Real.exp (-x))⁻¹, (1 + Real.exp (-y))⁻¹,
          (1 + Real.exp (-z))⁻¹],
        Val.scalar ((1 + Real.exp (-x))⁻¹ + (1 + Real.exp (-y))⁻¹
          + (1 + Real.exp (-z))⁻¹),
        Val.scalar 1, Val.scalar 0,
        Val.vec [0, 0, 0],
        Val.scalar 1,
        Val.vec [1, 1, 1],
        Val.vec [1, 1, 1],
        Val.vec [(1 + Real.exp (-x))⁻¹, (1 + Real.exp (-y))⁻¹,
          (1 + Real.exp (-z))⁻¹],
        Val.scalar ((1 + Real.exp (-x))⁻¹ + (1 + Real.exp (-y))⁻¹
          + (1 + Real.exp (-z))⁻¹),
        Val.vec [1, 1, 1],
        Val.vec [(1 + Real.exp (-x)) ^ 2, (1 + Real.exp (-y)) ^ 2,
          (1 + Real.exp (-z)) ^ 2],
        Val.vec [((1 + Real.exp (-x)) ^ 2)⁻¹, ((1 + Real.exp (-y)) ^ 2)⁻¹,
          ((1 + Real.exp (-z)) ^ 2)⁻¹],
        Val.vec [-((1 + Real.exp (-x)) ^ 2)⁻¹, -((1 + Real.exp (-y)) ^ 2)⁻¹,
          -((1 + Real.exp (-z)) ^ 2)⁻¹],
        Val.scalar (-((1 + Real.exp (-x)) ^ 2)⁻¹
          + -((1 + Real.exp (-y)) ^ 2)⁻¹ + -((1 + Real.exp (-z)) ^ 2)⁻¹),
        Val.scalar ((1 + Real.exp (-x))⁻¹ + (1 + Real.exp (-y))⁻¹
          + (1 + Real.exp (-z))⁻¹
          + (-((1 + Real.exp (-x)) ^ 2)⁻¹ + -((1 + Real.exp (-y)) ^ 2)⁻¹
            + -((1 + Real.exp (-z)) ^ 2)⁻¹)),
        Val.vec [-(Real.exp (-x) / (1 + Real.exp (-x)) ^ 2),
          -(Real.exp (-y) / (1 + Real.exp (-y)) ^ 2),
          -(Real.exp (-z) / (1 + Real.exp (-z)) ^ 2)],
        Val.vec [Real.exp (-x) / (1 + Real.exp (-x)) ^ 2,
          Real.exp (-y) / (1 + Real.exp (-y)) ^ 2,
          Real.exp (-z) / (1 + Real.exp (-z)) ^ 2]] := by
  have e1 : ((1:ℝ) + Real.exp (-x) * 2 + Real.exp (-x) ^ 2)⁻¹
      = (1 + Real.exp (-x))⁻¹ ^ 2 := by
    rw [inv_pow]
    congr 1
    ring
  have e2 : ((1:ℝ) + Real.exp (-y) * 2 + Real.exp (-y) ^ 2)⁻¹
      = (1 + Real.exp (-y))⁻¹ ^ 2 := by
    rw [inv_pow]
    congr 1
    ring
  have e3 : ((1:ℝ) + Real.exp (-z) * 2 + Real.exp (-z) ^ 2)⁻¹
      = (1 + Real.exp (-z))⁻¹ ^ 2 := by
    rw [inv_pow]
    congr 1
    ring
  simp [evalSteps, evalNode, evalPrim, seqOpt, shapeInfer, evalPrimT,
    ewB, ewU, broadcastS, Val.shapeOf, one_div]
  and_intros
  all_goals try ring
  all_goals first
  | (rw [e1, e2, e3])
  | (rw [e1])
  | (rw [e2])
  | (rw [e3])

set_option maxHeartbeats 1000000 in
lemma sumLogistic_grad_eval (x y z : ℝ) :
    evalT (⟨Real.exp⟩ : Registry ℝ) (sumLogisticGradG ℝ) [Val.vec [x, y, z]]
      = some (Val.vec [Real.exp (-x) / (1 + Real.exp (-x)) ^ 2,
          Real.exp (-y) / (1 + Real.exp (-y)) ^ 2,
          Real.exp (-z) / (1 + Real.exp (-z)) ^ 2]) := by
  have harity : ([Val.vec [x, y, z]] : List (Val ℝ)).length
      = (sumLogisticGradG ℝ).arity := rfl
  rw [evalT, if_pos harity]
  have hsplit : (sumLogisticGradG ℝ).nodes
      = ([Node.prim Prim.pneg [0], Node.prim Prim.pexp [1],
          Node.lit (Val.scalar 1), Node.prim Prim.padd [3, 2],
          Node.prim Prim.pdiv [3, 4], Node.prim Prim.psum [5]]
        ++ ([Node.lit (Val.scalar 1), Node.lit (Val.scalar 0),
          Node.prim Prim.pmul [5, 8], Node.lit (Val.scalar 1),
          Node.prim Prim.padd [9, 10], Node.prim Prim.pmul [7, 11],
          Node.prim Prim.pdiv [12, 4], Node.prim Prim.psum [13]]
        ++ [Node.prim Prim.pmul [12, 3], Node.prim Prim.pmul [4, 4],
          Node.prim Prim.pdiv [15, 16], Node.prim Prim.pneg [17],
          Node.prim Prim.psum [18], Node.prim Prim.padd [14, 19],
          Node.prim Prim.pmul [18, 2], Node.prim Prim.pneg [21]])) := rfl
  rw [hsplit, evalSteps_append, sumLogisticGrad_chunk1, Option.some_bind,
    evalSteps_append, sumLogisticGrad_chunk2, Option.some_bind, sumLogisticGrad_chunk3, Option.some_bind]
  rfl


lemma hasDerivAt_logistic (t : ℝ) :
    HasDerivAt (fun u : ℝ => (1 + Real.exp (-u))⁻¹)
      (Real.exp (-t) / (1 + Real.exp (-t)) ^ 2) t := by
  have hne : (1 : ℝ) + Real.exp (-t) ≠ 0 := by positivity
  have h1 : HasDerivAt (fun u : ℝ => 1 + Real.exp (-u))
      (Real.exp (-t) * (-1)) t := by
    exact ((Real.hasDerivAt_exp (-t)).comp t (hasDerivAt_id t).neg).const_add 1
  have h2 := h1.inv hne
  convert h2 using 1
  field_simp

lemma hasDerivAt_logistic' (t : ℝ) :
    HasDerivAt (fun u : ℝ => Real.exp (-u) / (1 + Real.exp (-u)) ^ 2)
      (Real.exp (-t) * (Real.exp (-t) - 1) / (1 + Real.exp (-t)) ^ 3) t := by
  have hne : (1 : ℝ) + Real.exp (-t) ≠ 0 := by positivity
  have hne2 : ((1 : ℝ) + Real.exp (-t)) ^ 2 ≠ 0 := pow_ne_zero 2 hne
  have hnum : HasDerivAt (fun u : ℝ => Real.exp (-u))
      (Real.exp (-t) * (-1)) t :=
    (Real.hasDerivAt_exp (-t)).comp t (hasDerivAt_id t).neg
  have hden : HasDerivAt (fun u : ℝ => (1 + Real.exp (-u)) ^ 2)
      ((2 : ℕ) * (1 + Real.exp (-t)) ^ 1 * (Real.exp (-t) * (-1))) t :=
    (hnum.const_add 1).pow 2
  have h := hnum.div hden hne2
  convert h using 1
  field_simp
  ring

lemma abs_sigma2_le (t : ℝ) :
    |Real.exp (-t) * (Real.exp (-t) - 1) / (1 + Real.exp (-t)) ^ 3| ≤ 1 / 4 := by
  set u := Real.exp (-t) with hu
  have hu0 : 0 < u := Real.exp_pos _
  have hd3 : (0 : ℝ) < (1 + u) ^ 3 := by positivity
  rw [abs_div, abs_of_pos hd3, div_le_iff₀ hd3]
  rcases abs_cases (u * (u - 1)) with ⟨he, _⟩ | ⟨he, hneg⟩
  · rw [he]
    nlinarith
  · rw [he]
    have hu1 : u < 1 := by nlinarith
    nlinarith [mul_pos hu0 hu0, mul_pos (mul_pos hu0 hu0) hu0]

lemma sigma_deriv_lipschitz (s t : ℝ) :
    |Real.exp (-s) / (1 + Real.exp (-s)) ^ 2
      - Real.exp (-t) / (1 + Real.exp (-t)) ^ 2| ≤ (1 / 4) * |s - t| := by
  have hder : ∀ x ∈ (Set.univ : Set ℝ),
      HasDerivWithinAt (fun u : ℝ => Real.exp (-u) / (1 + Real.exp (-u)) ^ 2)
        ((fun u : ℝ => Real.exp (-u) * (Real.exp (-u) - 1)
          / (1 + Real.exp (-u)) ^ 3) x) Set.univ x :=
    fun x _ => (hasDerivAt_logistic' x).hasDerivWithinAt
  have hbound : ∀ x ∈ (Set.univ : Set ℝ),
      ‖(fun u : ℝ => Real.exp (-u) * (Real.exp (-u) - 1)
          / (1 + Real.exp (-u)) ^ 3) x‖ ≤ 1 / 4 := fun x _ => by
    rw [Real.norm_eq_abs]
    exact abs_sigma2_le x
  have h := Convex.norm_image_sub_le_of_norm_hasDerivWithin_le hder hbound
    convex_univ (Set.mem_univ t) (Set.mem_univ s)
  simp only [Real.norm_eq_abs] at h
  exact h

lemma logistic_fd_bound (t : ℝ) :
    |Real.exp (-t) / (1 + Real.exp (-t)) ^ 2
      - ((1 + Real.exp (-(t + 1 / 1000)))⁻¹
          - (1 + Real.exp (-(t - 1 / 1000)))⁻¹) / (2 * (1 / 1000))| ≤ 1 / 1000 := by
  have hab : t - 1 / 1000 < t + 1 / 1000 := by linarith
  have hcont : ContinuousOn (fun u : ℝ => (1 + Real.exp (-u))⁻¹)
      (Set.Icc (t - 1 / 1000) (t + 1 / 1000)) := by
    apply Continuous.continuousOn
    exact (continuous_const.add (Real.continuous_exp.comp continuous_neg)).inv₀
      (fun x => by
        show (1 : ℝ) + Real.exp (-x) ≠ 0
        positivity)
  obtain ⟨c, hc, hslope⟩ := exists_hasDerivAt_eq_slope
    (fun u : ℝ => (1 + Real.exp (-u))⁻¹)
    (fun u : ℝ => Real.exp (-u) / (1 + Real.exp (-u)) ^ 2)
    hab hcont (fun x _ => hasDerivAt_logistic x)
  have hden : t + 1 / 1000 - (t - 1 / 1000) = 2 * (1 / 1000) := by ring
  rw [hden] at hslope
  rw [← hslope]
  have hlip := sigma_deriv_lipschitz t c
  have htc : |t - c| ≤ 1 / 250 := by
    rw [Set.mem_Ioo] at hc
    rw [abs_le]
    constructor <;> linarith [hc.1, hc.2]
  calc |Real.exp (-t) / (1 + Real.exp (-t)) ^ 2
      - Real.exp (-c) / (1 + Real.exp (-c)) ^ 2| ≤ (1 / 4) * |t - c| := hlip
    _ ≤ (1 / 4) * (1 / 250) := by
        apply mul_le_mul_of_nonneg_left htc
        norm_num
    _ ≤ 1 / 1000 := by norm_num

set_option maxHeartbeats 4000000 in
/-- C2, counterexample: the universal finite-difference tolerance claim is
false. For the program f(x) = 1000000000 * x^3 (cubicG), built only from the
registered primitives mul and a literal, over the exact field ℚ (so no
floating-point rounding is involved), at x = 0 with eps = 1/1000 the
reverse-mode gradient graph evaluates to 0 while the central finite-difference
quotient computed from the program's own forward evaluations is 1000; the
discrepancy exceeds the 1e-3 tolerance both absolutely and relative to the
magnitudes of the two estimates. -/
theorem C2_gradient_fd_counterexample :
    ∃ (gr : TFun ℚ) (g fp fm : ℚ),
      gradIR (cubicG ℚ) [Shape.sc] = some gr ∧
      evalT (⟨fun t => t⟩ : Registry ℚ) gr [Val.scalar 0] = some (Val.scalar g) ∧
      evalT (⟨fun t => t⟩ : Registry ℚ) (cubicG ℚ) [Val.scalar (1 / 1000)]
        = some (Val.scalar fp) ∧
      evalT (⟨fun t => t⟩ : Registry ℚ) (cubicG ℚ) [Val.scalar (-(1 / 1000))]
        = some (Val.scalar fm) ∧
      ¬ |g - (fp - fm) / (2 * (1 / 1000))| ≤ 1 / 1000 ∧
      ¬ |g - (fp - fm) / (2 * (1 / 1000))|
          ≤ 1 / 1000 * max |g| |(fp - fm) / (2 * (1 / 1000))| := by
  refine ⟨⟨1, [Node.prim Prim.pmul [0, 0], Node.prim Prim.pmul [1, 0],
      Node.lit (Val.scalar 1000000000), Node.prim Prim.pmul [2, 3],
      Node.lit (Val.scalar 1), Node.prim Prim.pmul [5, 3],
      Node.prim Prim.pmul [5, 2], Node.prim Prim.pmul [6, 0],
      Node.prim Prim.pmul [6, 1], Node.prim Prim.pmul [8, 0],
      Node.prim Prim.padd [9, 10], Node.prim Prim.pmul [8, 0],
      Node.prim Prim.padd [11, 12]], 13⟩, 0, 1, -1, rfl, ?_, ?_, ?_, ?_, ?_⟩
  · simp [evalT, evalSteps, evalNode, evalPrim, seqOpt, shapeInfer,
      evalPrimT, ewB, ewU, broadcastS, Val.shapeOf]
  · simp [cubicG, evalT, evalSteps, evalNode, evalPrim, seqOpt, shapeInfer,
      evalPrimT, ewB, ewU, broadcastS, Val.shapeOf]
    norm_num
  · simp [cubicG, evalT, evalSteps, evalNode, evalPrim, seqOpt, shapeInfer,
      evalPrimT, ewB, ewU, broadcastS, Val.shapeOf]
    norm_num
  · norm_num
  · norm_num

/-- C2, amended: for the quickstart function sum_logistic(x) =
sum(1/(1+exp(-x))) (sumLogisticG), at every input [a, b, c] the reverse-mode
gradient graph produced by gradIR evaluates to a vector each of whose
coordinates is within 1e-3 of the central finite-difference quotient with
eps = 1/1000 computed from the program's own forward evaluations (the
quickstart check at [0, 1, 2] is the special case a = 0, b = 1, c = 2). -/
theorem C2_gradient_fd_amended (a b c : ℝ) :
    ∃ (gr : TFun ℝ) (ga gb gc : ℝ),
      gradIR (sumLogisticG ℝ) [Shape.vecS 3] = some gr ∧
      evalT (⟨Real.exp⟩ : Registry ℝ) gr [Val.vec [a, b, c]]
        = some (Val.vec [ga, gb, gc]) ∧
      (∃ p q : ℝ,
        evalT (⟨Real.exp⟩ : Registry ℝ) (sumLogisticG ℝ)
            [Val.vec [a + 1 / 1000, b, c]] = some (Val.scalar p) ∧
        evalT (⟨Real.exp⟩ : Registry ℝ) (sumLogisticG ℝ)
            [Val.vec [a - 1 / 1000, b, c]] = some (Val.scalar q) ∧
        |ga - (p - q) / (2 * (1 / 1000))| ≤ 1 / 1000) ∧
      (∃ p q : ℝ,
        evalT (⟨Real.exp⟩ : Registry ℝ) (sumLogisticG ℝ)
            [Val.vec [a, b + 1 / 1000, c]] = some (Val.scalar p) ∧
        evalT (⟨Real.exp⟩ : Registry ℝ) (sumLogisticG ℝ)
            [Val.vec [a, b - 1 / 1000, c]] = some (Val.scalar q) ∧
        |gb - (p - q) / (2 * (1 / 1000))| ≤ 1 / 1000) ∧
      (∃ p q : ℝ,
        evalT (⟨Real.exp⟩ : Registry ℝ) (sumLogisticG ℝ)
            [Val.vec [a, b, c + 1 / 1000]] = some (Val.scalar p) ∧
        evalT (⟨Real.exp⟩ : Registry ℝ) (sumLogisticG ℝ)
            [Val.vec [a, b, c - 1 / 1000]] = some (Val.scalar q) ∧
        |gc - (p - q) / (2 * (1 / 1000))| ≤ 1 / 1000) := by
  refine ⟨sumLogisticGradG ℝ, Real.exp (-a) / (1 + Real.exp (-a)) ^ 2,
    Real.exp (-b) / (1 + Real.exp (-b)) ^ 2,
    Real.exp (-c) / (1 + Real.exp (-c)) ^ 2,
    sumLogistic_gradIR, sumLogistic_grad_eval a b c, ?_, ?_, ?_⟩
  · refine ⟨_, _, sumLogistic_eval (a + 1 / 1000) b c,
      sumLogistic_eval (a - 1 / 1000) b c, ?_⟩
    have hnum : ((1 + Real.exp (-(a + 1 / 1000)))⁻¹ + (1 + Real.exp (-b))⁻¹
          + (1 + Real.exp (-c))⁻¹)
        - ((1 + Real.exp (-(a - 1 / 1000)))⁻¹ + (1 + Real.exp (-b))⁻¹
          + (1 + Real.exp (-c))⁻¹)
        = (1 + Real.exp (-(a + 1 / 1000)))⁻¹
          - (1 + Real.exp (-(a - 1 / 1000)))⁻¹ := by ring
    rw [hnum]
    exact logistic_fd_bound a
  · refine ⟨_, _, sumLogistic_eval a (b + 1 / 1000) c,
      sumLogistic_eval a (b - 1 / 1000) c, ?_⟩
    have hnum : ((1 + Real.exp (-a))⁻¹ + (1 + Real.exp (-(b + 1 / 1000)))⁻¹
          + (1 + Real.exp (-c))⁻¹)
        - ((1 + Real.exp (-a))⁻¹ + (1 + Real.exp (-(b - 1 / 1000)))⁻¹
          + (1 + Real.exp (-c))⁻¹)
        = (1 + Real.exp (-(b + 1 / 1000)))⁻¹
          - (1 + Real.exp (-(b - 1 / 1000)))⁻¹ := by ring
    rw [hnum]
    exact logistic_fd_bound b
  · refine ⟨_, _, sumLogistic_eval a b (c + 1 / 1000),
      sumLogistic_eval a b (c - 1 / 1000), ?_⟩
    have hnum : ((1 + Real.exp (-a))⁻¹ + (1 + Real.exp (-b))⁻¹
          + (1 + Real.exp (-(c + 1 / 1000)))⁻¹)
        - ((1 + Real.exp (-a))⁻¹ + (1 + Real.exp (-b))⁻¹
          + (1 + Real.exp (-(c - 1 / 1000)))⁻¹)
        = (1 + Real.exp (-(c + 1 / 1000)))⁻¹
          - (1 + Real.exp (-(c - 1 / 1000)))⁻¹ := by ring
    rw [hnum]
    exact logistic_fd_bound c

end C2Proofs

end JaxModel
